import Mathlib

/-!
# Text processing of `src/api/process-upload.js` and `src/api/generate-image.js`

A shallow embedding of `splitIntoChapters`, `splitByLength`,
`cleanExtractedText`, `processUploadedFile`, the simulated document of
`processGoogleDoc`, `extractVisualElements` and the JavaScript string built-ins
they call (`String.prototype.match`, `split` and `replace` with a global
regular expression, `trim`, `includes`, `Array.prototype.join`), followed by
theorems about them.

A JavaScript string is modelled as a list of Unicode characters.  The regular
expressions of the source have no `u` flag. Those of the segmentation only
test for ASCII letters, digits, `.` and white space, so a character outside the
Basic Multilingual Plane (two UTF-16 code units, neither of which belongs to
any of these classes) behaves as one character that matches nothing. The
negated class of `cleanExtractedText` matches both code units of such a
character, which is thus removed as a whole. Only `length` sees the
difference, and `jsLength` counts such a character twice. Unpaired surrogates
are not represented.

The chapter records carry their `id` and `title` as the characters the
template literals of the source produce. The `for` loop of `splitByLength` is
given fuel, so that the functions built on it return an `Option`; the theorems
show that the result is always `some`. An error thrown in `processUploadedFile`
is modelled by its message, and `toLowerCase` is a parameter of
`extractVisualElements`.
-/

namespace KidsBook

/-- A JavaScript string. -/
abbrev Str := List Char

/-! ## Character classes -/

/-- The class `\s` of a JavaScript regular expression, which is also the set of
characters removed by `trim`: TAB, LF, VT, FF, CR, space, no-break space,
U+1680, U+2000..U+200A, U+2028, U+2029, U+202F, U+205F, U+3000, U+FEFF. -/
def isWhiteSpace (c : Char) : Bool :=
  (9 ≤ c.toNat && c.toNat ≤ 13) || c.toNat == 32 || c.toNat == 160 || c.toNat == 5760 ||
  (8192 ≤ c.toNat && c.toNat ≤ 8202) || c.toNat == 8232 || c.toNat == 8233 ||
  c.toNat == 8239 || c.toNat == 8287 || c.toNat == 12288 || c.toNat == 65279

/-- The class `\d`: the ASCII digits. -/
def isDigit (c : Char) : Bool :=
  48 ≤ c.toNat && c.toNat ≤ 57

/-- A letter `lower` of a pattern compiled with the `i` flag (and without `u`):
it matches the ASCII letter in either case and nothing else. -/
def isLetterCI (lower upper : Char) (c : Char) : Bool :=
  c == lower || c == upper

/-- A literal character of a pattern compiled without the `i` flag. -/
def isChar (x : Char) (c : Char) : Bool :=
  c == x

/-- Number of UTF-16 code units of a character. -/
def codeUnits (c : Char) : Nat :=
  if c.toNat < 65536 then 1 else 2

/-- The `length` property of a string: its number of UTF-16 code units. -/
def jsLength (s : Str) : Nat :=
  (s.map codeUnits).sum

/-! ## Regular expressions

The patterns of the source are sequences of single-character tests, some of
them under a greedy `+`. -/

/-- One term of a pattern: a character test, or a character test under `+`. -/
inductive Item where
  | one (p : Char → Bool)
  | plus (p : Char → Bool)

/-- A pattern: a sequence of terms. -/
abbrev Pattern := List Item

/-- The character test of a term. -/
def Item.test : Item → Char → Bool
  | Item.one p => p
  | Item.plus p => p

/-- Backtracking match of a pattern at the start of `s`: the matched prefix and
the rest of `s`, or `none`. A term under `+` is greedy: it first tries to take
one more character and gives it back only if the rest of the pattern fails. -/
def matchAt : Pattern → Str → Option (Str × Str)
  | [], s => some ([], s)
  | _ :: _, [] => none
  | Item.one p :: rest, c :: s =>
    if p c then
      match matchAt rest s with
      | some (m, r) => some (c :: m, r)
      | none => none
    else none
  | Item.plus p :: rest, c :: s =>
    if p c then
      match matchAt (Item.plus p :: rest) s with
      | some (m, r) => some (c :: m, r)
      | none =>
        match matchAt rest s with
        | some (m, r) => some (c :: m, r)
        | none => none
    else none

/-- The matches collected by `String.prototype.match` with a global pattern,
scanning from left to right. `skip` is the number of characters of the text
that still belong to the previous match. After an empty match the scan moves on
by one character, and the end of the text is tried as well. -/
def matchAllFrom (pat : Pattern) : Nat → Str → List Str
  | 0, [] =>
    match matchAt pat [] with
    | some (m, _) => [m]
    | none => []
  | _ + 1, [] => []
  | skip + 1, _ :: s => matchAllFrom pat skip s
  | 0, c :: s =>
    match matchAt pat (c :: s) with
    | some (m, _) => m :: matchAllFrom pat (m.length - 1) s
    | none => matchAllFrom pat 0 s

/-- The call `text.match(pattern)` for a pattern with the `g` flag: `null`
(here `none`) when there is no match, else the array of all matches. -/
def jsMatch (pat : Pattern) (text : Str) : Option (List Str) :=
  match matchAllFrom pat 0 text with
  | [] => none
  | m :: ms => some (m :: ms)

/-- The loop of `RegExp.prototype[Symbol.split]` on a non-empty string. `cur`
is the text between the end of the last separator and the scan position,
`skip` the number of characters that still belong to the last separator. A
match that is empty and stands at the start of `cur` is not a separator. -/
def splitFrom (pat : Pattern) : Nat → Str → Str → List Str
  | _, cur, [] => [cur]
  | skip + 1, cur, _ :: s => splitFrom pat skip cur s
  | 0, cur, c :: s =>
    match matchAt pat (c :: s) with
    | some ([], _) =>
      match cur with
      | [] => splitFrom pat 0 [c] s
      | _ :: _ => cur :: splitFrom pat 0 [c] s
    | some (m, _) => cur :: splitFrom pat (m.length - 1) [] s
    | none => splitFrom pat 0 (cur ++ [c]) s

/-- The call `text.split(pattern)` (no limit, no capture group). On the empty
string the result is `[]` when the pattern matches it and `[""]` otherwise. -/
def jsSplit (pat : Pattern) (text : Str) : List Str :=
  match text with
  | [] =>
    match matchAt pat [] with
    | some _ => []
    | none => [[]]
  | _ :: _ => splitFrom pat 0 [] text

/-- The method `String.prototype.trim`: white space removed at both ends. -/
def trim (s : Str) : Str :=
  (s.dropWhile isWhiteSpace).rdropWhile isWhiteSpace

/-- The call `words.join(' ')` of `Array.prototype.join`: the elements with a
single space between neighbours. -/
def joinSpace : List Str → Str
  | [] => []
  | [w] => w
  | w :: w2 :: ws => w ++ ' ' :: joinSpace (w2 :: ws)

/-- The decimal digits of a number, as a template literal prints them. -/
def decimal (n : Nat) : Str :=
  Nat.toDigits 10 n

/-! ## The patterns of the source -/

/-- The pattern `/\s+/`. -/
def whiteSpaceRun : Pattern :=
  [Item.plus isWhiteSpace]

/-- The pattern `/chapter\s+\d+/gi`. -/
def chapterMarker : Pattern :=
  [Item.one (isLetterCI 'c' 'C'), Item.one (isLetterCI 'h' 'H'), Item.one (isLetterCI 'a' 'A'),
   Item.one (isLetterCI 'p' 'P'), Item.one (isLetterCI 't' 'T'), Item.one (isLetterCI 'e' 'E'),
   Item.one (isLetterCI 'r' 'R'), Item.plus isWhiteSpace, Item.plus isDigit]

/-- The pattern `/part\s+\d+/gi`. -/
def partMarker : Pattern :=
  [Item.one (isLetterCI 'p' 'P'), Item.one (isLetterCI 'a' 'A'), Item.one (isLetterCI 'r' 'R'),
   Item.one (isLetterCI 't' 'T'), Item.plus isWhiteSpace, Item.plus isDigit]

/-- The pattern `/section\s+\d+/gi`. -/
def sectionMarker : Pattern :=
  [Item.one (isLetterCI 's' 'S'), Item.one (isLetterCI 'e' 'E'), Item.one (isLetterCI 'c' 'C'),
   Item.one (isLetterCI 't' 'T'), Item.one (isLetterCI 'i' 'I'), Item.one (isLetterCI 'o' 'O'),
   Item.one (isLetterCI 'n' 'N'), Item.plus isWhiteSpace, Item.plus isDigit]

/-- The pattern `/\d+\./g`. -/
def numberMarker : Pattern :=
  [Item.plus isDigit, Item.one (isChar '.')]

/-- The array `chapterMarkers` of `splitIntoChapters`, in its order. -/
def chapterMarkers : List Pattern :=
  [chapterMarker, partMarker, sectionMarker, numberMarker]

/-! ## The functions of the source -/

/-- A chapter record as pushed by `splitIntoChapters`. -/
structure Chapter where
  id : Str
  title : Str
  content : Str
  wordCount : Nat
  deriving DecidableEq

/-- The `for` loop of `splitByLength`, from index `i` with the chunks pushed so
far. Each turn of the loop uses one unit of `fuel`; `none` means the fuel ran
out before the loop condition became false. -/
def splitByLengthLoop (words : List Str) (maxWords : Nat) : Nat → Nat → List Str → Option (List Str)
  | 0, _, _ => none
  | fuel + 1, i, chunks =>
    if i < words.length then
      splitByLengthLoop words maxWords fuel (i + maxWords)
        (chunks ++ [joinSpace ((words.drop i).take maxWords)])
    else some chunks

/-- The function `splitByLength(text, maxWords)`. The loop is given one unit of
fuel more than there are words, which is enough whenever `maxWords ≥ 1`. -/
def splitByLength (text : Str) (maxWords : Nat) : Option (List Str) :=
  splitByLengthLoop (jsSplit whiteSpaceRun text) maxWords
    ((jsSplit whiteSpaceRun text).length + 1) 0 []

/-- The `for ... of` loop over the marker patterns, with its `break`: the value
of `splitText` after the loop. -/
def markerSplit (text : Str) : List Pattern → List Str
  | [] => [text]
  | marker :: rest =>
    match jsMatch marker text with
    | some ms => if ms.length > 1 then jsSplit marker text else markerSplit text rest
    | none => markerSplit text rest

/-- The record pushed for `chunk` at position `index` of `splitText`. -/
def mkChapter (index : Nat) (chunk : Str) : Chapter :=
  { id := "chapter-".toList ++ decimal (index + 1)
    title := "Chapter ".toList ++ decimal (index + 1)
    content := trim chunk
    wordCount := (jsSplit whiteSpaceRun (trim chunk)).length }

/-- The `forEach` over `splitText`, from position `index`: the chapters pushed. -/
def pushChapters : Nat → List Str → List Chapter
  | _, [] => []
  | index, chunk :: rest =>
    if jsLength (trim chunk) > 50 then mkChapter index chunk :: pushChapters (index + 1) rest
    else pushChapters (index + 1) rest

/-- The value of `splitText` when the `forEach` starts: the candidate
fragments. -/
def candidateFragments (text : Str) : Option (List Str) :=
  if (markerSplit text chapterMarkers).length = 1 then splitByLength text 500
  else some (markerSplit text chapterMarkers)

/-- The function `splitIntoChapters(text)`. -/
def splitIntoChapters (text : Str) : Option (List Chapter) :=
  match candidateFragments text with
  | some splitText => some (pushChapters 0 splitText)
  | none => none

/-! ## Definitions used to state the properties -/

/-- Number of matches found by `text.match(pattern)`: the length of the array,
or 0 when the result is `null`. -/
def matchCount (pat : Pattern) (text : Str) : Nat :=
  match jsMatch pat text with
  | some ms => ms.length
  | none => 0

/-- The text before the first match of the pattern: all of the text when the
pattern has no match. -/
def untilMatch (pat : Pattern) : Str → Str
  | [] => []
  | c :: s =>
    match matchAt pat (c :: s) with
    | some _ => []
    | none => c :: untilMatch pat s

/-- Each match of a pattern that cannot match the empty string, in order, with
the segment that follows it: the text from the end of the match up to the next
match or the end of the text. `skip` is as in `matchAllFrom`. -/
def segmentsFrom (pat : Pattern) : Nat → Str → List (Str × Str)
  | _, [] => []
  | skip + 1, _ :: s => segmentsFrom pat skip s
  | 0, c :: s =>
    match matchAt pat (c :: s) with
    | some (m, r) => (m, untilMatch pat r) :: segmentsFrom pat (m.length - 1) s
    | none => segmentsFrom pat 0 s

/-- The chunks of `splitByLength`: window `j` holds the words from position
`j * maxWords` on, at most `maxWords` of them. -/
def windows (words : List Str) (maxWords : Nat) : List Str :=
  (List.range ((words.length + maxWords - 1) / maxWords)).map
    (fun j => joinSpace ((words.drop (j * maxWords)).take maxWords))

/-- The windows of `splitByLength` before they are joined: window `j` holds the
words from position `j * maxWords` on, at most `maxWords` of them. -/
def wordWindows (words : List Str) (maxWords : Nat) : List (List Str) :=
  (List.range ((words.length + maxWords - 1) / maxWords)).map
    (fun j => (words.drop (j * maxWords)).take maxWords)

/-- Whether a candidate fragment passes the threshold of the `forEach`. -/
def passes (chunk : Str) : Bool :=
  decide (50 < jsLength (trim chunk))

/-- The positions in `splitText` of the fragments that pass the threshold. -/
def passingPositions (frags : List Str) : List Nat :=
  (frags.enum.filter (fun x => passes x.2)).map Prod.fst

/-- Number of words of a text, a word being a maximal run of characters that
are not white space. `inWord` tells whether the character before the text
belongs to a word. -/
def countWordsFrom : Bool → Str → Nat
  | _, [] => 0
  | inWord, c :: s =>
    if isWhiteSpace c then countWordsFrom false s
    else (if inWord then 0 else 1) + countWordsFrom true s

/-- Number of words of a text. -/
def countWords (s : Str) : Nat :=
  countWordsFrom false s

/-- A word: not empty and without white space. -/
def IsWord (w : Str) : Prop :=
  w ≠ [] ∧ ∀ x ∈ w, isWhiteSpace x = false

/-- A character with every white space character replaced by a space. -/
def blank (c : Char) : Char :=
  if isWhiteSpace c then ' ' else c

/-- The number a string of decimal digits stands for. -/
def decimalValue (s : Str) : Nat :=
  s.foldl (fun acc c => 10 * acc + (c.toNat - 48)) 0

/-- The text a re-extraction of segmented chapters gives: each content
preceded by its id. -/
def rejoinChapters (chs : List Chapter) : Str :=
  (chs.map (fun c => c.id ++ c.content)).flatten

/-- The matched text of a result grows by the character consumed before it. -/
def consMatch (c : Char) (mr : Str × Str) : Str × Str :=
  (c :: mr.1, mr.2)

/-- The texts a pattern accepts: `Matches pat m` holds when `m` is made of one
character for each term `one` and one or more characters for each term `plus`,
every character passing the test of its term. -/
inductive Matches : Pattern → Str → Prop
  | nil : Matches [] []
  | one {p : Char → Bool} {rest : Pattern} {c : Char} {m : Str} :
      p c = true → Matches rest m → Matches (Item.one p :: rest) (c :: m)
  | plusLast {p : Char → Bool} {rest : Pattern} {c : Char} {m : Str} :
      p c = true → Matches rest m → Matches (Item.plus p :: rest) (c :: m)
  | plusMore {p : Char → Bool} {rest : Pattern} {c : Char} {m : Str} :
      p c = true → Matches (Item.plus p :: rest) m → Matches (Item.plus p :: rest) (c :: m)

/-! ## Example texts -/

/-- Two headings, each followed by a long paragraph; the text starts with the
first heading. -/
def twoChaptersText : Str :=
  ("Chapter 1 The little fox went out into the snow to look for her lost red mitten. " ++
   "Chapter 2 She found it at last under the old oak tree by the frozen pond.").toList

/-- A long foreword, then two headings, each followed by a long paragraph. -/
def forewordText : Str :=
  "Foreword: this story was written for every child who has ever lost a mitten. ".toList ++ twoChaptersText

/-- One `Chapter N` heading and three `N.` tokens. -/
def numberedListText : Str := "Chapter 1 intro 1. one 2. two 3. three".toList

/-- A single incidental marker. -/
def singleMarkerText : Str := "See chapter 3 of the book".toList

/-- Three words. -/
def threeWordsText : Str := "one two three".toList

/-- Fifteen words; joined by single spaces they make a text of 70 characters. -/
def storyWords : List Str :=
  ["Once", "upon", "a", "time", "there", "lived", "a", "small", "grey", "mouse", "in", "a",
   "very", "old", "garden."].map String.toList

/-- A text with white space at both ends and runs of white space inside. -/
def raggedText : Str :=
  "  The quick   brown fox jumps over the lazy dog and runs far away into the hills.  ".toList

/-- A short text with white space around it. -/
def paddedShortText : Str := "   A tiny tale.   ".toList

/-- A short text with two chapter headings. -/
def shortMarkerText : Str := "Chapter 1 One. Chapter 2 Two.".toList

/-- The text under the first heading of the scenario. -/
def scenarioFirst : Str :=
  (". Once upon a time a small grey mouse found a silver key in the garden and " ++
   "wondered which door it might open. ").toList

/-- The text under the second heading of the scenario. -/
def scenarioSecond : Str := ". The end".toList

/-- The scenario of the specification: a long first chapter, a short second. -/
def scenarioText : Str :=
  "Chapter 1".toList ++ scenarioFirst ++ "Chapter 2".toList ++ scenarioSecond

/-- A text that starts with a digit and has no match of the chapter pattern. -/
def digitStartText : Str :=
  "0 green bottles were standing on the wall when one of them fell down.".toList

/-- A text of 1200 one-letter words. -/
def twelveHundredWords : Str := joinSpace (List.replicate 1200 ['a'])

/-! ## The simulated Google document -/

/-- The template literal `simulatedDoc.content` of `processGoogleDoc`. -/
def googleDocContent : Str :=
  ("\n" ++
   "            The Magical Forest Adventure\n" ++
   "            \n" ++
   "            Chapter 1: Into the Woods\n" ++
   "            Sarah stepped carefully into the enchanted forest, where every tree " ++
   "seemed to whisper secrets and every flower glowed with its own inner light.\n" ++
   "            \n" ++
   "            Chapter 2: Meeting the Forest Friends\n" ++
   "            Soon, Sarah met a wise old owl, a playful squirrel, and a gentle " ++
   "deer who would become her guides on this magical journey.\n" ++
   "            \n" ++
   "            Chapter 3: The Hidden Treasure\n" ++
   "            Together, they discovered a hidden clearing where a treasure chest " ++
   "filled with kindness, courage, and friendship waited to be found.\n" ++
   "            \n" ++
   "            Chapter 4: The Journey Home\n" ++
   "            With her new friends and the treasures in her heart, Sarah found " ++
   "her way home, knowing that the magic of the forest would always be with her.\n" ++
   "            ").toList

/-- The `chapters` field of the record returned by `processGoogleDoc`: the
segmenter applied to the content as written, before any trim. -/
def processGoogleDocChapters : Option (List Chapter) :=
  splitIntoChapters googleDocContent

/-! ## Digit runs followed by a period -/

/-- Number of places of a text where a digit is immediately followed by `.`,
that is, the number of digit runs immediately followed by `.`. -/
def digitDotCount : Str → Nat
  | [] => 0
  | [_] => 0
  | a :: b :: rest => (if isDigit a && b == '.' then 1 else 0) + digitDotCount (b :: rest)

/-- A text with two decimal numbers and no heading. -/
def decimalsText : Str :=
  ("The value of pi is about 3.14159 as every child learns at school sooner or later, " ++
   "and the number e is about 2.71828 which most of them will only meet very much later.").toList

/-! ## The function `cleanExtractedText` -/

/-- The class `\w` of a pattern without the `i` and `u` flags: the ASCII
letters, the ASCII digits and the underscore. -/
def isWordChar (c : Char) : Bool :=
  (97 ≤ c.toNat && c.toNat ≤ 122) || (65 ≤ c.toNat && c.toNat ≤ 90) || isDigit c ||
  c.toNat == 95

/-- The punctuation listed in the class of `cleanExtractedText`:
`. , ! ? ; :`, the apostrophe (code 39), the double quote (code 34), `( ) -`. -/
def keptPunctuation : Str :=
  ['.', ',', '!', '?', ';', ':', Char.ofNat 39, Char.ofNat 34, '(', ')', '-']

/-- The negated class of the second `replace` of `cleanExtractedText`: a
character that is not of class `\w`, not of class `\s` and not one of the
listed punctuation characters. -/
def isSpecialChar (c : Char) : Bool :=
  !(isWordChar c || isWhiteSpace c || keptPunctuation.contains c)

/-- The pattern of the second `replace` of `cleanExtractedText`. -/
def specialChar : Pattern :=
  [Item.one isSpecialChar]

/-- Match of a pattern followed by a greedy `*` over a character class, at the
start of `s`. The starred class ends the expression, so it takes every
character it can and nothing is given back. -/
def matchAtStar (pat : Pattern) (p : Char → Bool) (s : Str) : Option (Str × Str) :=
  match matchAt pat s with
  | some (m, r) => some (m ++ r.takeWhile p, r.dropWhile p)
  | none => none

/-- The scan of `String.prototype.replace` with a global pattern and a
replacement without `$`: each match is replaced, the text between the matches
is copied. `matchFn` gives the match at the start of a text; `skip` is the
number of characters that still belong to the previous match. After an empty
match the scan copies one character, and the end of the text is tried too. -/
def replaceFrom (matchFn : Str → Option (Str × Str)) (rep : Str) : Nat → Str → Str
  | 0, [] =>
    match matchFn [] with
    | some _ => rep
    | none => []
  | _ + 1, [] => []
  | skip + 1, _ :: s => replaceFrom matchFn rep skip s
  | 0, c :: s =>
    match matchFn (c :: s) with
    | some ([], _) => rep ++ c :: replaceFrom matchFn rep 0 s
    | some (m, _) => rep ++ replaceFrom matchFn rep (m.length - 1) s
    | none => c :: replaceFrom matchFn rep 0 s

/-- The call `text.replace(pattern, replacement)` for a global pattern. -/
def jsReplace (matchFn : Str → Option (Str × Str)) (rep : Str) (text : Str) : Str :=
  replaceFrom matchFn rep 0 text

/-- The function `cleanExtractedText(text)` on a string: the empty string is
the falsy one. -/
def cleanExtractedText (text : Str) : Str :=
  if text = [] then []
  else
    jsReplace (matchAtStar [Item.one (isChar '!')] isWhiteSpace) "! ".toList
      (jsReplace (matchAtStar [Item.one (isChar '?')] isWhiteSpace) "? ".toList
        (jsReplace (matchAtStar [Item.one (isChar '.')] isWhiteSpace) ". ".toList
          (trim (jsReplace (matchAt specialChar) []
            (jsReplace (matchAt whiteSpaceRun) " ".toList text)))))

/-- Whether a text has no two consecutive white space characters. -/
def noDoubleWhiteSpace : Str → Bool
  | [] => true
  | [_] => true
  | a :: b :: rest => !(isWhiteSpace a && isWhiteSpace b) && noDoubleWhiteSpace (b :: rest)

/-! ## The function `processUploadedFile` -/

/-- The template literal `simulatedContent` of `processDocxFile`. -/
def docxSimulatedContent : Str :=
  ("\n" ++
   "        This is extracted content from a DOCX file.\n" ++
   "        \n" ++
   "        Chapter 1: The Beginning\n" ++
   "        Once upon a time, in a magical land far away, there lived a brave " ++
   "little character who was about to embark on the greatest adventure of their " ++
   "life.\n" ++
   "        \n" ++
   "        Chapter 2: The Journey Begins\n" ++
   "        With a heart full of courage and a mind full of wonder, our hero set " ++
   "out on a path that would lead to amazing discoveries and new friendships.\n" ++
   "        \n" ++
   "        Chapter 3: Challenges and Growth\n" ++
   "        Along the way, challenges appeared that tested our character's resolve, " ++
   "but each obstacle became a stepping stone to greater wisdom and strength.\n" ++
   "        \n" ++
   "        Chapter 4: The Resolution\n" ++
   "        In the end, all the lessons learned and friendships made created a " ++
   "beautiful story of growth, courage, and the magic that exists in believing in " ++
   "oneself.\n" ++
   "        ").toList

/-- The template literal `simulatedContent` of `processPdfFile`. -/
def pdfSimulatedContent : Str :=
  ("\n" ++
   "        Extracted text from PDF document.\n" ++
   "        \n" ++
   "        The Adventure of Little Explorer\n" ++
   "        \n" ++
   "        Page 1:\n" ++
   "        In a cozy village nestled between rolling hills and sparkling streams, " ++
   "lived a curious child named Alex who loved to explore and discover new things.\n" ++
   "        \n" ++
   "        Page 2:\n" ++
   "        One sunny morning, Alex found a mysterious map hidden in the attic, " ++
   "showing a path to a secret garden filled with magical creatures and wonderful " ++
   "surprises.\n" ++
   "        \n" ++
   "        Page 3:\n" ++
   "        Following the map's winding path, Alex met friendly animals who became " ++
   "companions on this exciting journey of discovery and friendship.\n" ++
   "        \n" ++
   "        Page 4:\n" ++
   "        The secret garden was more beautiful than Alex had ever imagined, " ++
   "filled with colorful flowers, singing birds, and the most amazing adventures " ++
   "waiting to unfold.\n" ++
   "        ").toList

/-- The fields of the record returned by `processUploadedFile` that depend on
the extracted text. -/
structure UploadResult where
  extractedText : Str
  status : Str
  error : Option Str
  wordCount : Nat
  deriving DecidableEq

/-- The value of `processDocxFile`: the simulated content, trimmed. -/
def processDocxFile : Str :=
  trim docxSimulatedContent

/-- The value of `processPdfFile`: the simulated content, trimmed. -/
def processPdfFile : Str :=
  trim pdfSimulatedContent

/-- The `switch` of `processUploadedFile` on the lower-cased extension of the
file name. `readTxt` is the outcome of `processTxtFile`: the data of the file,
or the message of the error it was rejected with. An `error` result is the
message of the error thrown. -/
def extractByExtension (fileExtension : Str) (readTxt : Except Str Str) : Except Str Str :=
  if fileExtension = ".txt".toList then readTxt
  else if fileExtension = ".docx".toList then Except.ok processDocxFile
  else if fileExtension = ".pdf".toList then Except.ok processPdfFile
  else Except.error ("Unsupported file type: ".toList ++ fileExtension)

/-- The body of the `try` block of `processUploadedFile`: the cleaned text, or
the message of the error thrown. -/
def tryExtract (fileExtension : Str) (readTxt : Except Str Str) : Except Str Str :=
  match extractByExtension fileExtension readTxt with
  | Except.ok text =>
    if jsLength (cleanExtractedText text) < 10 then
      Except.error "Extracted text is too short or empty".toList
    else Except.ok (cleanExtractedText text)
  | Except.error message => Except.error message

/-- The function `processUploadedFile(file)`, as far as the extracted text, the
status, the error and the word count of its record go. The `catch` block sets
the status to `error`, the error to the message and the text to `''`. -/
def processUploadedFile (fileExtension : Str) (readTxt : Except Str Str) : UploadResult :=
  match tryExtract fileExtension readTxt with
  | Except.ok text =>
    { extractedText := text, status := "success".toList, error := none,
      wordCount := (jsSplit whiteSpaceRun text).length }
  | Except.error message =>
    { extractedText := [], status := "error".toList, error := some message,
      wordCount := (jsSplit whiteSpaceRun []).length }

/-! ## The function `extractVisualElements` -/

/-- The call `text.includes(keyword)`: whether `keyword` occurs in `text` as a
run of consecutive characters. -/
def jsIncludes (text keyword : Str) : Bool :=
  text.tails.any (fun t => keyword.isPrefixOf t)

/-- The array `visualKeywords` of `extractVisualElements`, in its order. -/
def visualKeywords : List Str :=
  ["forest", "castle", "mountain", "ocean", "garden", "house", "tree",
   "animal", "bird", "cat", "dog", "rabbit", "bear", "dragon",
   "magic", "sparkle", "rainbow", "star", "moon", "sun",
   "adventure", "journey", "path", "bridge", "door", "window"].map String.toList

/-- The function `extractVisualElements(content)`. The method `toLowerCase` is
a parameter: its mapping of the characters is not modelled. The `forEach`
pushes each keyword that the lower-cased text includes; `slice(0, 3)` keeps
the first three elements. -/
def extractVisualElements (toLowerCase : Str → Str) (content : Str) : List Str :=
  (visualKeywords.foldl
    (fun elements keyword =>
      if jsIncludes (toLowerCase content) keyword then elements ++ [keyword] else elements)
    []).take 3

/-- Lower-casing of the ASCII letters, used in examples. -/
def asciiLower (s : Str) : Str :=
  s.map Char.toLower

/-! ## The regular expression matcher -/

theorem matchAt_nil_pattern (s : Str) : matchAt [] s = some ([], s) := by
  cases s <;> rfl

theorem matchAt_nil_text {pat : Pattern} (h : pat ≠ []) : matchAt pat [] = none := by
  cases pat with
  | nil => exact absurd rfl h
  | cons _ _ => simp [matchAt]

theorem matchAt_one_cons (p : Char → Bool) (rest : Pattern) (c : Char) (s : Str) :
    matchAt (Item.one p :: rest) (c :: s) =
      if p c then (matchAt rest s).map (consMatch c) else none := by
  rw [matchAt]
  cases matchAt rest s <;> rfl

theorem matchAt_plus_cons (p : Char → Bool) (rest : Pattern) (c : Char) (s : Str) :
    matchAt (Item.plus p :: rest) (c :: s) =
      if p c then
        ((matchAt (Item.plus p :: rest) s).orElse (fun _ => matchAt rest s)).map (consMatch c)
      else none := by
  rw [matchAt]
  cases matchAt (Item.plus p :: rest) s with
  | some mr => rfl
  | none => cases matchAt rest s <;> rfl

theorem matchAt_append : ∀ (s : Str) (pat : Pattern) (m r : Str),
    matchAt pat s = some (m, r) → m ++ r = s := by
  intro s
  induction s with
  | nil =>
    intro pat m r h
    cases pat with
    | nil => simp [matchAt] at h; simp [h.1, h.2]
    | cons _ _ => simp [matchAt] at h
  | cons c s ih =>
    intro pat m r h
    cases pat with
    | nil => simp [matchAt] at h; simp [h.1.symm, h.2.symm]
    | cons it rest =>
      cases it with
      | one p =>
        simp only [matchAt] at h
        split at h
        · split at h
          · rename_i m1 r1 h1
            simp at h
            rw [← h.1, ← h.2]
            simp [ih _ _ _ h1]
          · simp at h
        · simp at h
      | plus p =>
        simp only [matchAt] at h
        split at h
        · split at h
          · rename_i m1 r1 h1
            simp at h
            rw [← h.1, ← h.2]
            simp [ih _ _ _ h1]
          · split at h
            · rename_i m1 r1 h1
              simp at h
              rw [← h.1, ← h.2]
              simp [ih _ _ _ h1]
            · simp at h
        · simp at h

theorem matchAt_ne_nil {pat : Pattern} (hp : pat ≠ []) {s m r : Str}
    (h : matchAt pat s = some (m, r)) : m ≠ [] := by
  cases pat with
  | nil => exact absurd rfl hp
  | cons it rest =>
    cases s with
    | nil => simp [matchAt] at h
    | cons c s =>
      cases it with
      | one p =>
        simp only [matchAt] at h
        split at h
        · split at h
          · simp at h; rw [← h.1]; simp
          · simp at h
        · simp at h
      | plus p =>
        simp only [matchAt] at h
        split at h
        · split at h
          · simp at h; rw [← h.1]; simp
          · split at h
            · simp at h; rw [← h.1]; simp
            · simp at h
        · simp at h

/-- What a successful match at `c :: s` leaves for the scan: the matched text
is `c :: m`, and dropping `m.length` characters of `s` gives the rest. -/
theorem matchAt_cons_rest {pat : Pattern} (hp : pat ≠ []) {c : Char} {s m r : Str}
    (h : matchAt pat (c :: s) = some (m, r)) :
    ∃ m1, m = c :: m1 ∧ m1.length ≤ s.length ∧ s.drop m1.length = r ∧ s = m1 ++ r := by
  have happ := matchAt_append _ _ _ _ h
  have hne := matchAt_ne_nil hp h
  cases m with
  | nil => exact absurd rfl hne
  | cons a m1 =>
    simp only [List.cons_append, List.cons.injEq] at happ
    obtain ⟨rfl, rfl⟩ := happ
    exact ⟨m1, rfl, by simp, by simp, rfl⟩

theorem matchAt_plus_single (p : Char → Bool) : ∀ (s : Str) (c : Char),
    matchAt [Item.plus p] (c :: s) =
      if p c then some (c :: s.takeWhile p, s.dropWhile p) else none := by
  intro s
  induction s with
  | nil => intro c; by_cases h : p c <;> simp [matchAt, h]
  | cons d s ih =>
    intro c
    rw [matchAt_plus_cons, ih d]
    by_cases h : p c
    · by_cases hd : p d <;>
        simp [h, hd, List.takeWhile_cons, List.dropWhile_cons, matchAt, consMatch]
    · simp [h]

theorem matchAt_plus_orElse (p : Char → Bool) (s : Str) :
    ((matchAt [Item.plus p] s).orElse fun _ => matchAt [] s) =
      some (s.takeWhile p, s.dropWhile p) := by
  cases s with
  | nil => simp [matchAt]
  | cons c s =>
    rw [matchAt_plus_single]
    by_cases h : p c = true
    · simp [h]
    · simp [h, matchAt]

theorem matchAt_matches : ∀ (s : Str) (pat : Pattern) (m r : Str),
    matchAt pat s = some (m, r) → Matches pat m := by
  intro s
  induction s with
  | nil =>
    intro pat m r h
    cases pat with
    | nil => simp [matchAt] at h; rw [h.1]; exact Matches.nil
    | cons _ _ => simp [matchAt] at h
  | cons c s ih =>
    intro pat m r h
    cases pat with
    | nil => simp [matchAt] at h; rw [h.1]; exact Matches.nil
    | cons it rest =>
      cases it with
      | one p =>
        rw [matchAt_one_cons] at h
        by_cases hp : p c = true
        · rw [if_pos hp] at h
          cases h1 : matchAt rest s with
          | none => rw [h1] at h; cases h
          | some mr =>
            rw [h1] at h
            simp only [Option.map_some', consMatch, Option.some.injEq, Prod.mk.injEq] at h
            rw [← h.1]
            exact Matches.one hp (ih rest mr.1 mr.2 h1)
        · rw [if_neg hp] at h; cases h
      | plus p =>
        rw [matchAt_plus_cons] at h
        by_cases hp : p c = true
        · rw [if_pos hp] at h
          cases h1 : matchAt (Item.plus p :: rest) s with
          | some mr =>
            rw [h1] at h
            simp only [Option.orElse, Option.map_some', consMatch, Option.some.injEq,
              Prod.mk.injEq] at h
            rw [← h.1]
            exact Matches.plusMore hp (ih _ mr.1 mr.2 h1)
          | none =>
            rw [h1] at h
            cases h2 : matchAt rest s with
            | none => rw [h2] at h; cases h
            | some mr =>
              rw [h2] at h
              simp only [Option.orElse, Option.map_some', consMatch, Option.some.injEq,
                Prod.mk.injEq] at h
              rw [← h.1]
              exact Matches.plusLast hp (ih _ mr.1 mr.2 h2)
        · rw [if_neg hp] at h; cases h

theorem matchAt_isSome_of_matches {pat : Pattern} {m : Str} (h : Matches pat m) :
    ∀ r : Str, (matchAt pat (m ++ r)).isSome = true := by
  induction h with
  | nil => intro r; rw [matchAt_nil_pattern]; rfl
  | one hp _ ih =>
    intro r
    rw [List.cons_append, matchAt_one_cons, if_pos hp]
    have := ih r
    cases h1 : matchAt _ (_ ++ r) with
    | none => rw [h1] at this; cases this
    | some _ => rfl
  | plusLast hp _ ih =>
    intro r
    rw [List.cons_append, matchAt_plus_cons, if_pos hp]
    have := ih r
    cases h1 : matchAt (Item.plus _ :: _) (_ ++ r) with
    | some _ => rfl
    | none =>
      cases h2 : matchAt _ (_ ++ r) with
      | none => rw [h2] at this; cases this
      | some _ => rfl
  | plusMore hp _ ih =>
    intro r
    rw [List.cons_append, matchAt_plus_cons, if_pos hp]
    have := ih r
    cases h1 : matchAt (Item.plus _ :: _) (_ ++ r) with
    | some _ => rfl
    | none => rw [h1] at this; cases this

theorem matches_test_of_mem {pat : Pattern} {m : Str} (h : Matches pat m) :
    ∀ x ∈ m, ∃ it ∈ pat, it.test x = true := by
  induction h with
  | nil => intro x hx; cases hx
  | one hp _ ih =>
    intro x hx
    rcases List.mem_cons.1 hx with rfl | hx
    · exact ⟨_, List.mem_cons_self _ _, hp⟩
    · obtain ⟨it, hit, ht⟩ := ih x hx
      exact ⟨it, List.mem_cons_of_mem _ hit, ht⟩
  | plusLast hp _ ih =>
    intro x hx
    rcases List.mem_cons.1 hx with rfl | hx
    · exact ⟨_, List.mem_cons_self _ _, hp⟩
    · obtain ⟨it, hit, ht⟩ := ih x hx
      exact ⟨it, List.mem_cons_of_mem _ hit, ht⟩
  | plusMore hp _ ih =>
    intro x hx
    rcases List.mem_cons.1 hx with rfl | hx
    · exact ⟨_, List.mem_cons_self _ _, hp⟩
    · exact ih x hx

theorem matches_mem_of_item {pat : Pattern} {m : Str} (h : Matches pat m) :
    ∀ it ∈ pat, ∃ x ∈ m, it.test x = true := by
  induction h with
  | nil => intro it hit; cases hit
  | one hp _ ih =>
    intro it hit
    rcases List.mem_cons.1 hit with rfl | hit
    · exact ⟨_, List.mem_cons_self _ _, hp⟩
    · obtain ⟨x, hx, ht⟩ := ih it hit
      exact ⟨x, List.mem_cons_of_mem _ hx, ht⟩
  | plusLast hp _ ih =>
    intro it hit
    rcases List.mem_cons.1 hit with rfl | hit
    · exact ⟨_, List.mem_cons_self _ _, hp⟩
    · obtain ⟨x, hx, ht⟩ := ih it hit
      exact ⟨x, List.mem_cons_of_mem _ hx, ht⟩
  | plusMore hp _ ih =>
    intro it hit
    obtain ⟨x, hx, ht⟩ := ih it hit
    exact ⟨x, List.mem_cons_of_mem _ hx, ht⟩

/-- A match that ends inside `t` is also found in `t` alone. -/
theorem matchAt_isSome_of_short {pat : Pattern} {t u m r : Str}
    (h : matchAt pat (t ++ u) = some (m, r)) (hlen : m.length ≤ t.length) :
    (matchAt pat t).isSome = true := by
  have happ := matchAt_append _ _ _ _ h
  have hmatches := matchAt_matches _ _ _ _ h
  rcases List.append_eq_append_iff.1 happ with ⟨a, ht, _⟩ | ⟨c, hm, _⟩
  · rw [ht]; exact matchAt_isSome_of_matches hmatches a
  · have : c = [] := by
      have : m.length = t.length + c.length := by rw [hm]; simp
      exact List.length_eq_zero.1 (by omega)
    subst this
    rw [List.append_nil] at hm
    rw [← hm]
    simpa using matchAt_isSome_of_matches hmatches []

/-- A match of a pattern that starts with a single-character term and reaches
beyond the non-empty text `t` has the character after `t` accepted by one of the
later terms. -/
theorem test_of_long_match {p : Char → Bool} {rest : Pattern} {t u m r : Str} {x : Char}
    (h : matchAt (Item.one p :: rest) (t ++ x :: u) = some (m, r)) (hne : t ≠ [])
    (hlen : t.length < m.length) : ∃ it ∈ rest, it.test x = true := by
  have happ := matchAt_append _ _ _ _ h
  have hmatches := matchAt_matches _ _ _ _ h
  cases hmatches with
  | one hp hm1 =>
    rename_i c m1
    cases t with
    | nil => exact absurd rfl hne
    | cons c1 t1 =>
      simp only [List.cons_append, List.cons.injEq] at happ
      have hx : x ∈ m1 := by
        rcases List.append_eq_append_iff.1 happ.2 with ⟨a, ht, _⟩ | ⟨c2, hm, hu⟩
        · have : t1.length = m1.length + a.length := by rw [ht]; simp
          simp at hlen; omega
        · cases c2 with
          | nil =>
            rw [List.append_nil] at hm
            rw [hm] at hlen; simp at hlen
          | cons y c2 =>
            simp only [List.cons_append, List.cons.injEq] at hu
            rw [hm, hu.1]; simp
      exact matches_test_of_mem hm1 x hx

/-! ## Scanning a text: `match` and `split` -/

theorem matchCount_eq (pat : Pattern) (text : Str) :
    matchCount pat text = (matchAllFrom pat 0 text).length := by
  unfold matchCount jsMatch
  cases matchAllFrom pat 0 text <;> rfl

theorem splitFrom_skip (pat : Pattern) : ∀ (s : Str) (n : Nat) (cur : Str), n ≤ s.length →
    splitFrom pat n cur s = splitFrom pat 0 cur (s.drop n) := by
  intro s
  induction s with
  | nil => intro n cur h; simp at h; subst h; rfl
  | cons c s ih =>
    intro n cur h
    cases n with
    | zero => rfl
    | succ n =>
      simp only [splitFrom, List.drop_succ_cons]
      exact ih n cur (by simpa using h)

theorem matchAllFrom_skip (pat : Pattern) : ∀ (s : Str) (n : Nat), n ≤ s.length →
    matchAllFrom pat n s = matchAllFrom pat 0 (s.drop n) := by
  intro s
  induction s with
  | nil => intro n h; simp at h; subst h; rfl
  | cons c s ih =>
    intro n h
    cases n with
    | zero => rfl
    | succ n =>
      simp only [matchAllFrom, List.drop_succ_cons]
      exact ih n (by simpa using h)

theorem segmentsFrom_skip (pat : Pattern) : ∀ (s : Str) (n : Nat), n ≤ s.length →
    segmentsFrom pat n s = segmentsFrom pat 0 (s.drop n) := by
  intro s
  induction s with
  | nil => intro n h; simp at h; subst h; rfl
  | cons c s ih =>
    intro n h
    cases n with
    | zero => rfl
    | succ n =>
      simp only [segmentsFrom, List.drop_succ_cons]
      exact ih n (by simpa using h)

theorem matchAllFrom_eq_segments {pat : Pattern} (hp : pat ≠ []) : ∀ (s : Str) (n : Nat),
    matchAllFrom pat n s = (segmentsFrom pat n s).map Prod.fst := by
  intro s
  induction s with
  | nil =>
    intro n
    cases n with
    | zero => simp [matchAllFrom, segmentsFrom, matchAt_nil_text hp]
    | succ n => simp [matchAllFrom, segmentsFrom]
  | cons c s ih =>
    intro n
    cases n with
    | succ n => simp only [matchAllFrom, segmentsFrom]; exact ih n
    | zero =>
      simp only [matchAllFrom, segmentsFrom]
      cases h : matchAt pat (c :: s) with
      | none => simp only []; exact ih 0
      | some mr =>
        obtain ⟨m, r⟩ := mr
        simp only [List.map_cons]
        rw [ih]

theorem splitFrom_eq_segments {pat : Pattern} (hp : pat ≠ []) : ∀ (k : Nat) (s cur : Str),
    s.length ≤ k →
    splitFrom pat 0 cur s = (cur ++ untilMatch pat s) :: (segmentsFrom pat 0 s).map Prod.snd := by
  intro k
  induction k with
  | zero =>
    intro s cur h
    have : s = [] := List.length_eq_zero.1 (by omega)
    subst this
    simp [splitFrom, untilMatch, segmentsFrom]
  | succ k ih =>
    intro s cur h
    cases s with
    | nil => simp [splitFrom, untilMatch, segmentsFrom]
    | cons c s =>
      cases hm : matchAt pat (c :: s) with
      | none =>
        simp only [splitFrom, untilMatch, segmentsFrom, hm]
        rw [ih s (cur ++ [c]) (by simpa using h)]
        simp
      | some mr =>
        obtain ⟨m, r⟩ := mr
        obtain ⟨m1, rfl, hlen, hdrop, hs⟩ := matchAt_cons_rest hp hm
        have hr : r.length ≤ k := by
          have : s.length = m1.length + r.length := by rw [hs]; simp
          simp at h; omega
        simp only [splitFrom, untilMatch, segmentsFrom, hm, List.length_cons, Nat.add_sub_cancel,
          List.append_nil, List.map_cons]
        rw [splitFrom_skip pat s _ _ hlen, segmentsFrom_skip pat s _ hlen, hdrop, ih r [] hr]
        simp

theorem jsSplit_eq_segments {pat : Pattern} (hp : pat ≠ []) (text : Str) :
    jsSplit pat text = untilMatch pat text :: (segmentsFrom pat 0 text).map Prod.snd := by
  cases text with
  | nil => simp [jsSplit, matchAt_nil_text hp, untilMatch, segmentsFrom]
  | cons c s =>
    simp only [jsSplit]
    rw [splitFrom_eq_segments hp _ _ _ (Nat.le_refl _)]
    simp

theorem matchCount_eq_segments {pat : Pattern} (hp : pat ≠ []) (text : Str) :
    matchCount pat text = (segmentsFrom pat 0 text).length := by
  rw [matchCount_eq, matchAllFrom_eq_segments hp]; simp

theorem jsSplit_length {pat : Pattern} (hp : pat ≠ []) (text : Str) :
    (jsSplit pat text).length = matchCount pat text + 1 := by
  rw [jsSplit_eq_segments hp, matchCount_eq_segments hp]; simp

theorem jsMatch_eq_segments {pat : Pattern} (hp : pat ≠ []) {text : Str}
    (h : 1 ≤ matchCount pat text) :
    jsMatch pat text = some ((segmentsFrom pat 0 text).map Prod.fst) := by
  rw [matchCount_eq] at h
  unfold jsMatch
  rw [← matchAllFrom_eq_segments hp]
  cases hm : matchAllFrom pat 0 text with
  | nil => rw [hm] at h; simp at h
  | cons _ _ => rfl

theorem text_eq_segments {pat : Pattern} (hp : pat ≠ []) : ∀ (k : Nat) (s : Str), s.length ≤ k →
    s = untilMatch pat s ++ ((segmentsFrom pat 0 s).map (fun mf => mf.1 ++ mf.2)).flatten := by
  intro k
  induction k with
  | zero =>
    intro s h
    have : s = [] := List.length_eq_zero.1 (by omega)
    subst this
    simp [untilMatch, segmentsFrom]
  | succ k ih =>
    intro s h
    cases s with
    | nil => simp [untilMatch, segmentsFrom]
    | cons c s =>
      cases hm : matchAt pat (c :: s) with
      | none =>
        simp only [untilMatch, segmentsFrom, hm, List.cons_append, List.cons.injEq, true_and]
        exact ih s (by simpa using h)
      | some mr =>
        obtain ⟨m, r⟩ := mr
        obtain ⟨m1, rfl, hlen, hdrop, hs⟩ := matchAt_cons_rest hp hm
        have hr : r.length ≤ k := by
          have : s.length = m1.length + r.length := by rw [hs]; simp
          simp at h; omega
        simp only [untilMatch, segmentsFrom, hm, List.length_cons, Nat.add_sub_cancel,
          List.nil_append, List.map_cons, List.flatten_cons, List.cons_append, List.cons.injEq,
          true_and, List.append_assoc]
        rw [segmentsFrom_skip pat s _ hlen, hdrop, ← ih r hr]
        exact hs

/-- A pattern one of whose terms accepts no character of the text has no match
in it. -/
theorem matchAllFrom_eq_nil_of_test {pat : Pattern} {it : Item} (hit : it ∈ pat) :
    ∀ (s : Str) (n : Nat), (∀ x ∈ s, it.test x = false) → matchAllFrom pat n s = [] := by
  have hp : pat ≠ [] := by intro h0; rw [h0] at hit; cases hit
  intro s
  induction s with
  | nil =>
    intro n _
    cases n with
    | zero => simp [matchAllFrom, matchAt_nil_text hp]
    | succ n => simp [matchAllFrom]
  | cons c s ih =>
    intro n h
    have hs : ∀ x ∈ s, it.test x = false := fun x hx => h x (List.mem_cons_of_mem _ hx)
    cases n with
    | succ n => simp only [matchAllFrom]; exact ih n hs
    | zero =>
      cases hm : matchAt pat (c :: s) with
      | none => simp only [matchAllFrom, hm]; exact ih 0 hs
      | some mr =>
        obtain ⟨m, r⟩ := mr
        obtain ⟨x, hx, ht⟩ := matches_mem_of_item (matchAt_matches _ _ _ _ hm) it hit
        have hxs : x ∈ c :: s := by
          rw [← matchAt_append _ _ _ _ hm]
          exact List.mem_append_left _ hx
        rw [h x hxs] at ht
        cases ht

theorem matchAt_none_of_suffix {pat : Pattern} : ∀ (s : Str), matchCount pat s = 0 →
    ∀ t, t ≠ [] → t <:+ s → matchAt pat t = none := by
  intro s
  induction s with
  | nil =>
    intro _ t hne ht
    exact absurd (List.suffix_nil.1 ht) hne
  | cons c s ih =>
    intro h t hne ht
    rw [matchCount_eq] at h
    cases hm : matchAt pat (c :: s) with
    | some mr =>
      simp [matchAllFrom, hm] at h
    | none =>
      simp only [matchAllFrom, hm] at h
      rcases List.suffix_cons_iff.1 ht with rfl | ht
      · exact hm
      · exact ih (by rw [matchCount_eq]; exact h) t hne ht

theorem untilMatch_of_match {pat : Pattern} {s : Str} {mr : Str × Str}
    (h : matchAt pat s = some mr) : untilMatch pat s = [] := by
  cases s with
  | nil => rfl
  | cons c s => simp [untilMatch, h]

theorem segmentsFrom_of_match {pat : Pattern} (hp : pat ≠ []) {s m r : Str}
    (h : matchAt pat s = some (m, r)) :
    segmentsFrom pat 0 s = (m, untilMatch pat r) :: segmentsFrom pat 0 r := by
  cases s with
  | nil => rw [matchAt_nil_text hp] at h; cases h
  | cons c s =>
    obtain ⟨m1, rfl, hlen, hdrop, _⟩ := matchAt_cons_rest hp h
    simp only [segmentsFrom, h, List.length_cons, Nat.add_sub_cancel]
    rw [segmentsFrom_skip pat s _ hlen, hdrop]

/-- Scanning over a stretch of text in which no match starts. -/
theorem scan_append_of_none (pat : Pattern) (rest : Str) : ∀ (a : Str),
    (∀ t, t ≠ [] → t <:+ a → matchAt pat (t ++ rest) = none) →
    untilMatch pat (a ++ rest) = a ++ untilMatch pat rest ∧
    segmentsFrom pat 0 (a ++ rest) = segmentsFrom pat 0 rest := by
  intro a
  induction a with
  | nil => intro _; exact ⟨rfl, rfl⟩
  | cons c a ih =>
    intro h
    have hc := h (c :: a) (by simp) (List.suffix_refl _)
    have hrest := ih (fun t hne ht => h t hne (List.suffix_cons_iff.2 (Or.inr ht)))
    rw [List.cons_append] at hc ⊢
    simp only [untilMatch, segmentsFrom, hc]
    exact ⟨by rw [hrest.1]; rfl, hrest.2⟩

theorem scan_of_none {pat : Pattern} {s : Str} (h : matchCount pat s = 0) :
    untilMatch pat s = s ∧ segmentsFrom pat 0 s = [] := by
  have := scan_append_of_none pat [] s (fun t hne ht => by
    rw [List.append_nil]; exact matchAt_none_of_suffix s h t hne ht)
  simpa [untilMatch, segmentsFrom] using this

theorem matchCount_eq_zero_of_suffix {pat : Pattern} (hp : pat ≠ []) {s t : Str}
    (h : matchCount pat s = 0) (ht : t <:+ s) : matchCount pat t = 0 := by
  obtain ⟨pre, rfl⟩ := ht
  have h1 := scan_of_none h
  have h2 := scan_append_of_none pat t pre (fun u hne hu => by
    apply matchAt_none_of_suffix (pre ++ t) h (u ++ t) (by simp [hne])
    obtain ⟨v, rfl⟩ := hu
    exact ⟨v, by simp⟩)
  rw [matchCount_eq_segments hp, ← h2.2, h1.2]
  rfl

/-! ## `trim` and `length` -/

theorem trim_eq_self_of_ends {s : Str}
    (hhead : ∀ c, s.head? = some c → isWhiteSpace c = false)
    (hlast : ∀ c, s.getLast? = some c → isWhiteSpace c = false) : trim s = s := by
  unfold trim
  have h1 : s.dropWhile isWhiteSpace = s := by
    cases s with
    | nil => rfl
    | cons c s => simp [List.dropWhile_cons, hhead c rfl]
  rw [h1, List.rdropWhile_eq_self_iff]
  intro hl
  have := hlast (s.getLast hl) (List.getLast?_eq_getLast s hl)
  simp [this]

theorem trim_head {s : Str} (c : Char) (h : (trim s).head? = some c) : isWhiteSpace c = false := by
  unfold trim at h
  have hpre : (List.rdropWhile isWhiteSpace (s.dropWhile isWhiteSpace)) <+:
      s.dropWhile isWhiteSpace := List.rdropWhile_prefix _ _
  obtain ⟨t, ht⟩ := hpre
  cases hu : List.rdropWhile isWhiteSpace (s.dropWhile isWhiteSpace) with
  | nil => rw [hu] at h; simp at h
  | cons a u =>
    rw [hu] at h ht
    simp at h
    subst h
    have hne : s.dropWhile isWhiteSpace ≠ [] := by rw [← ht]; simp
    have := List.head_dropWhile_not isWhiteSpace s hne
    simp only [← ht, List.cons_append, List.head_cons] at this
    exact this

theorem trim_last {s : Str} (c : Char) (h : (trim s).getLast? = some c) :
    isWhiteSpace c = false := by
  unfold trim at h
  have hne : List.rdropWhile isWhiteSpace (s.dropWhile isWhiteSpace) ≠ [] := by
    intro h0; rw [h0] at h; simp at h
  have := List.rdropWhile_last_not (p := isWhiteSpace) (l := s.dropWhile isWhiteSpace) hne
  rw [List.getLast?_eq_getLast _ hne] at h
  simp at h
  rw [h] at this
  simpa using this

theorem trim_idem (s : Str) : trim (trim s) = trim s :=
  trim_eq_self_of_ends (fun c h => trim_head c h) (fun c h => trim_last c h)

theorem le_jsLength (s : Str) : s.length ≤ jsLength s := by
  unfold jsLength
  induction s with
  | nil => simp
  | cons c s ih =>
    simp only [List.map_cons, List.sum_cons, List.length_cons]
    have : 1 ≤ codeUnits c := by unfold codeUnits; split <;> omega
    omega

theorem jsLength_le_of_sublist {t s : Str} (h : t.Sublist s) : jsLength t ≤ jsLength s := by
  unfold jsLength
  induction h with
  | slnil => simp
  | cons a _ ih => simp only [List.map_cons, List.sum_cons]; omega
  | cons₂ a _ ih => simp only [List.map_cons, List.sum_cons]; omega

theorem dropWhile_suffix_of_suffix (p : Char → Bool) {t s : Str} (h : t <:+ s) :
    t.dropWhile p <:+ s.dropWhile p := by
  obtain ⟨pre, rfl⟩ := h
  induction pre with
  | nil => exact List.suffix_refl _
  | cons c pre ih =>
    rw [List.cons_append, List.dropWhile_cons]
    split
    · exact ih
    · exact (List.dropWhile_suffix p).trans ⟨c :: pre, rfl⟩

theorem rdropWhile_sublist_of_suffix (p : Char → Bool) {t s : Str} (h : t <:+ s) :
    (t.rdropWhile p).Sublist (s.rdropWhile p) := by
  obtain ⟨pre, rfl⟩ := h
  unfold List.rdropWhile
  rw [List.reverse_append, List.dropWhile_append]
  split
  · rename_i hempty
    have : List.dropWhile p t.reverse = [] := by simpa using hempty
    rw [this]
    simp
  · rw [List.reverse_append, List.reverse_reverse]
    exact List.sublist_append_right _ _

/-- Trimming a suffix of a text leaves no more than trimming the text. -/
theorem jsLength_trim_le_of_suffix {t s : Str} (h : t <:+ s) :
    jsLength (trim t) ≤ jsLength (trim s) :=
  jsLength_le_of_sublist
    (rdropWhile_sublist_of_suffix isWhiteSpace (dropWhile_suffix_of_suffix isWhiteSpace h))

/-! ## Words: splitting at white space and joining with spaces -/

theorem splitFrom_whiteSpace_cons (cur : Str) (c : Char) (s : Str) :
    splitFrom whiteSpaceRun 0 cur (c :: s) =
      if isWhiteSpace c then cur :: splitFrom whiteSpaceRun 0 [] (s.dropWhile isWhiteSpace)
      else splitFrom whiteSpaceRun 0 (cur ++ [c]) s := by
  have hm := matchAt_plus_single isWhiteSpace s c
  by_cases h : isWhiteSpace c
  · simp only [h, if_true] at hm ⊢
    have hp : whiteSpaceRun ≠ [] := by simp [whiteSpaceRun]
    obtain ⟨m1, hm1, hlen, hdrop, _⟩ := matchAt_cons_rest hp hm
    simp only [List.cons.injEq, true_and] at hm1
    subst hm1
    simp only [splitFrom, whiteSpaceRun] at hm ⊢
    rw [hm]
    simp only [List.length_cons, Nat.add_sub_cancel]
    rw [splitFrom_skip _ s _ _ hlen, hdrop]
  · simp only [h] at hm ⊢
    simp only [splitFrom, whiteSpaceRun] at hm ⊢
    rw [hm]
    simp

theorem countWordsFrom_dropWhile : ∀ (s : Str),
    countWordsFrom false (s.dropWhile isWhiteSpace) = countWordsFrom false s := by
  intro s
  induction s with
  | nil => rfl
  | cons c s ih =>
    by_cases h : isWhiteSpace c
    · simp [List.dropWhile_cons, h, countWordsFrom, ih]
    · simp [List.dropWhile_cons, h]

theorem getLast_dropWhile_of_ends {s : Str}
    (hlast : ∀ x, s.getLast? = some x → isWhiteSpace x = false) :
    ∀ x, (s.dropWhile isWhiteSpace).getLast? = some x → isWhiteSpace x = false := by
  intro x hx
  obtain ⟨t, ht⟩ := List.dropWhile_suffix (l := s) isWhiteSpace
  apply hlast
  cases hd : s.dropWhile isWhiteSpace with
  | nil => rw [hd] at hx; simp at hx
  | cons a u =>
    rw [← ht, hd, List.getLast?_append_of_ne_nil _ (by simp)]
    rw [← hd]; exact hx

theorem dropWhile_ne_nil_of_last {c : Char} {s : Str}
    (hlast : ∀ x, (c :: s).getLast? = some x → isWhiteSpace x = false)
    (hc : isWhiteSpace c = true) : s.dropWhile isWhiteSpace ≠ [] := by
  intro h0
  have hall : ∀ x ∈ c :: s, isWhiteSpace x = true := by
    intro x hx
    rcases List.mem_cons.1 hx with rfl | hx
    · exact hc
    · exact List.dropWhile_eq_nil_iff.1 h0 x hx
  have hne : c :: s ≠ [] := by simp
  have h1 := hlast _ (List.getLast?_eq_getLast _ hne)
  have h2 := hall _ (List.getLast_mem hne)
  rw [h1] at h2; cases h2

theorem getLast_tail_of_cons {c : Char} {s : Str}
    (hlast : ∀ x, (c :: s).getLast? = some x → isWhiteSpace x = false) :
    ∀ x, s.getLast? = some x → isWhiteSpace x = false := by
  intro x hx
  cases s with
  | nil => simp at hx
  | cons d s => exact hlast x (by rw [List.getLast?_cons_cons]; exact hx)

theorem splitFrom_whiteSpace_words : ∀ (k : Nat) (s cur : Str), s.length ≤ k →
    (∀ x ∈ cur, isWhiteSpace x = false) →
    (cur = [] → ∃ c s1, s = c :: s1 ∧ isWhiteSpace c = false) →
    (∀ x, s.getLast? = some x → isWhiteSpace x = false) →
    (∀ t ∈ splitFrom whiteSpaceRun 0 cur s, IsWord t) ∧
    (splitFrom whiteSpaceRun 0 cur s).length =
      (if cur = [] then 0 else 1) + countWordsFrom (decide (cur ≠ [])) s := by
  intro k
  induction k with
  | zero =>
    intro s cur hk hcur hstart _
    have hs : s = [] := List.length_eq_zero.1 (by omega)
    subst hs
    have hne : cur ≠ [] := by
      intro h0
      obtain ⟨c, s1, h, _⟩ := hstart h0
      cases h
    exact ⟨by simpa [splitFrom, IsWord, hne] using hcur, by simp [splitFrom, countWordsFrom, hne]⟩
  | succ k ih =>
    intro s cur hk hcur hstart hlast
    cases s with
    | nil =>
      have hne : cur ≠ [] := by
        intro h0
        obtain ⟨c, s1, h, _⟩ := hstart h0
        cases h
      exact ⟨by simpa [splitFrom, IsWord, hne] using hcur,
        by simp [splitFrom, countWordsFrom, hne]⟩
    | cons c s =>
      rw [splitFrom_whiteSpace_cons]
      by_cases hc : isWhiteSpace c = true
      · have hne : cur ≠ [] := by
          intro h0
          obtain ⟨c1, s1, h, hc1⟩ := hstart h0
          simp only [List.cons.injEq] at h
          rw [← h.1, hc] at hc1
          cases hc1
        have hdne := dropWhile_ne_nil_of_last hlast hc
        have hhead := List.head_dropWhile_not isWhiteSpace s hdne
        have hlen : (s.dropWhile isWhiteSpace).length ≤ k := by
          have := (List.dropWhile_suffix (l := s) isWhiteSpace).length_le
          simp at hk; omega
        obtain ⟨h1, h2⟩ := ih (s.dropWhile isWhiteSpace) [] hlen (by simp)
          (fun _ => by
            cases hd : s.dropWhile isWhiteSpace with
            | nil => exact absurd hd hdne
            | cons a u =>
              refine ⟨a, u, rfl, ?_⟩
              simp only [hd, List.head_cons] at hhead
              exact hhead)
          (getLast_dropWhile_of_ends (getLast_tail_of_cons hlast))
        rw [if_pos hc]
        constructor
        · intro t ht
          rcases List.mem_cons.1 ht with rfl | ht
          · exact ⟨hne, hcur⟩
          · exact h1 t ht
        · have h3 : (splitFrom whiteSpaceRun 0 [] (s.dropWhile isWhiteSpace)).length =
              countWordsFrom false s := by
            rw [h2, ← countWordsFrom_dropWhile s]; simp
          rw [List.length_cons, h3, if_neg hne]
          simp only [countWordsFrom, hc, if_true]
          omega
      · have hc0 : isWhiteSpace c = false := by simpa using hc
        obtain ⟨h1, h2⟩ := ih s (cur ++ [c]) (by simpa using hk)
          (by
            intro x hx
            rcases List.mem_append.1 hx with hx | hx
            · exact hcur x hx
            · simp at hx; rw [hx]; exact hc0)
          (by simp) (getLast_tail_of_cons hlast)
        rw [if_neg hc]
        refine ⟨h1, ?_⟩
        rw [h2]
        by_cases h0 : cur = [] <;> simp [h0, countWordsFrom, hc0]

theorem jsSplit_whiteSpace_words {text : Str} (hne : text ≠ []) (htrim : trim text = text) :
    (∀ t ∈ jsSplit whiteSpaceRun text, IsWord t) ∧
    (jsSplit whiteSpaceRun text).length = countWords text := by
  cases text with
  | nil => exact absurd rfl hne
  | cons c s =>
    have hhead : isWhiteSpace c = false := trim_head c (by rw [htrim]; rfl)
    have hlast : ∀ x, (c :: s).getLast? = some x → isWhiteSpace x = false := by
      intro x hx
      exact trim_last x (by rw [htrim]; exact hx)
    have := splitFrom_whiteSpace_words _ (c :: s) [] (Nat.le_refl _) (by simp)
      (fun _ => ⟨c, s, rfl, hhead⟩) hlast
    simpa [jsSplit, countWords] using this

theorem countWordsFrom_append_of_noWs (rest : Str) : ∀ (w : Str),
    (∀ x ∈ w, isWhiteSpace x = false) →
    countWordsFrom true (w ++ rest) = countWordsFrom true rest := by
  intro w
  induction w with
  | nil => intro _; rfl
  | cons x w ih =>
    intro h
    have hx : isWhiteSpace x = false := h x (List.mem_cons_self _ _)
    simp only [List.cons_append, countWordsFrom, hx]
    simp [ih (fun y hy => h y (List.mem_cons_of_mem _ hy))]

theorem countWordsFrom_word_append {w : Str} (hw : IsWord w) (rest : Str) :
    countWordsFrom false (w ++ rest) = 1 + countWordsFrom true rest := by
  obtain ⟨hne, hfree⟩ := hw
  cases w with
  | nil => exact absurd rfl hne
  | cons x w =>
    have hx : isWhiteSpace x = false := hfree x (List.mem_cons_self _ _)
    simp only [List.cons_append, countWordsFrom, hx]
    simp [countWordsFrom_append_of_noWs rest w (fun y hy => hfree y (List.mem_cons_of_mem _ hy))]

theorem countWords_joinSpace : ∀ (ts : List Str), (∀ t ∈ ts, IsWord t) →
    countWords (joinSpace ts) = ts.length := by
  intro ts
  induction ts with
  | nil => intro _; rfl
  | cons w ts ih =>
    intro h
    have hw := h w (List.mem_cons_self _ _)
    cases ts with
    | nil =>
      have := countWordsFrom_word_append hw []
      simpa [joinSpace, countWords, countWordsFrom] using this
    | cons w2 ts =>
      have ih2 := ih (fun t ht => h t (List.mem_cons_of_mem _ ht))
      simp only [joinSpace, countWords, List.length_cons] at ih2 ⊢
      rw [countWordsFrom_word_append hw]
      have hsp : isWhiteSpace ' ' = true := by decide
      simp only [countWordsFrom, hsp, if_true]
      rw [ih2]; omega

theorem length_le_joinSpace : ∀ (ts : List Str), (∀ t ∈ ts, IsWord t) →
    ts.length ≤ (joinSpace ts).length := by
  intro ts
  induction ts with
  | nil => intro _; simp
  | cons w ts ih =>
    intro h
    have hw : 1 ≤ w.length := by
      have := (h w (List.mem_cons_self _ _)).1
      cases w with
      | nil => exact absurd rfl this
      | cons _ _ => simp
    cases ts with
    | nil => simpa [joinSpace] using hw
    | cons w2 ts =>
      have := ih (fun t ht => h t (List.mem_cons_of_mem _ ht))
      simp only [joinSpace, List.length_append, List.length_cons] at this ⊢
      omega

theorem joinSpace_head {w : Str} {ts : List Str} (hw : IsWord w) :
    ∀ c, (joinSpace (w :: ts)).head? = some c → isWhiteSpace c = false := by
  intro c hc
  obtain ⟨hne, hfree⟩ := hw
  cases w with
  | nil => exact absurd rfl hne
  | cons x w =>
    cases ts with
    | nil =>
      simp only [joinSpace, List.head?_cons, Option.some.injEq] at hc
      exact hc ▸ hfree x (List.mem_cons_self _ _)
    | cons w2 ts =>
      simp only [joinSpace, List.cons_append, List.head?_cons, Option.some.injEq] at hc
      exact hc ▸ hfree x (List.mem_cons_self _ _)

theorem joinSpace_last : ∀ (ts : List Str), (∀ t ∈ ts, IsWord t) →
    ∀ c, (joinSpace ts).getLast? = some c → isWhiteSpace c = false := by
  intro ts
  induction ts with
  | nil => intro _ c hc; simp [joinSpace] at hc
  | cons w ts ih =>
    intro h c hc
    have hw := h w (List.mem_cons_self _ _)
    cases ts with
    | nil =>
      simp only [joinSpace] at hc
      exact hw.2 c (List.mem_of_getLast?_eq_some hc)
    | cons w2 ts =>
      have hrest : ∀ t ∈ w2 :: ts, IsWord t := fun t ht => h t (List.mem_cons_of_mem _ ht)
      apply ih hrest c
      simp only [joinSpace] at hc ⊢
      have hlen := length_le_joinSpace (w2 :: ts) hrest
      have hne : joinSpace (w2 :: ts) ≠ [] := by
        intro h0; rw [h0] at hlen; simp at hlen
      rw [List.getLast?_append_of_ne_nil _ (by simp)] at hc
      cases hj : joinSpace (w2 :: ts) with
      | nil => exact absurd hj hne
      | cons y ys =>
        rw [hj, List.getLast?_cons_cons] at hc
        exact hc

theorem trim_joinSpace (ts : List Str) (h : ∀ t ∈ ts, IsWord t) :
    trim (joinSpace ts) = joinSpace ts := by
  apply trim_eq_self_of_ends
  · cases ts with
    | nil => intro c hc; simp [joinSpace] at hc
    | cons w ts => exact joinSpace_head (h w (List.mem_cons_self _ _))
  · exact joinSpace_last ts h

theorem joinSpace_ne_nil {ts : List Str} (h : ∀ t ∈ ts, IsWord t) (hne : ts ≠ []) :
    joinSpace ts ≠ [] := by
  intro h0
  have := length_le_joinSpace ts h
  rw [h0] at this
  cases ts with
  | nil => exact hne rfl
  | cons _ _ => simp at this

theorem mem_joinSpace : ∀ (ts : List Str) (x : Char), x ∈ joinSpace ts →
    x = ' ' ∨ ∃ t ∈ ts, x ∈ t := by
  intro ts
  induction ts with
  | nil => intro x hx; simp [joinSpace] at hx
  | cons w ts ih =>
    intro x hx
    cases ts with
    | nil => exact Or.inr ⟨w, List.mem_cons_self _ _, by simpa [joinSpace] using hx⟩
    | cons w2 ts =>
      simp only [joinSpace, List.mem_append, List.mem_cons] at hx
      rcases hx with hx | rfl | hx
      · exact Or.inr ⟨w, List.mem_cons_self _ _, hx⟩
      · exact Or.inl rfl
      · rcases ih x hx with h | ⟨t, ht, hxt⟩
        · exact Or.inl h
        · exact Or.inr ⟨t, List.mem_cons_of_mem _ ht, hxt⟩

/-! ## `splitByLength` -/

theorem splitByLengthLoop_eq (words : List Str) (m : Nat) (hm : 1 ≤ m) :
    ∀ (fuel i : Nat) (chunks : List Str), words.length - i < fuel →
      splitByLengthLoop words m fuel i chunks =
        some (chunks ++ (List.range ((words.length - i + m - 1) / m)).map
          (fun j => joinSpace ((words.drop (i + j * m)).take m))) := by
  intro fuel
  induction fuel with
  | zero => intro i chunks h; omega
  | succ fuel ih =>
    intro i chunks h
    simp only [splitByLengthLoop]
    split
    · rename_i hi
      rw [ih (i + m) _ (by omega)]
      have hk : (words.length - i + m - 1) / m = (words.length - (i + m) + m - 1) / m + 1 := by
        have e1 : words.length - i + m - 1 = (words.length - i - 1) + m := by omega
        rw [e1, Nat.add_div_right _ (by omega)]
        congr 1
        by_cases hge : m ≤ words.length - i
        · congr 1; omega
        · rw [Nat.div_eq_of_lt (by omega), Nat.div_eq_of_lt (by omega)]
      rw [hk, List.range_succ_eq_map]
      simp only [List.map_cons, List.map_map, List.append_assoc, List.singleton_append]
      congr 3
      · simp
      · apply List.map_congr_left
        intro j _
        simp only [Function.comp, Nat.succ_eq_add_one]
        congr 3
        rw [Nat.add_mul]; omega
    · rename_i hi
      have : (words.length - i + m - 1) / m = 0 := by
        rw [Nat.div_eq_of_lt (by omega)]
      simp [this]

theorem splitByLength_eq (text : Str) (m : Nat) (hm : 1 ≤ m) :
    splitByLength text m = some (windows (jsSplit whiteSpaceRun text) m) := by
  unfold splitByLength windows
  rw [splitByLengthLoop_eq _ m hm _ _ _ (by omega)]
  simp

theorem windows_length (words : List Str) (m : Nat) :
    (windows words m).length = (words.length + m - 1) / m := by
  simp [windows]

theorem windows_getAt (words : List Str) (m j : Nat) (chunk : Str)
    (h : (windows words m).get? j = some chunk) :
    j < (words.length + m - 1) / m ∧ chunk = joinSpace ((words.drop (j * m)).take m) := by
  have hj : j < (windows words m).length := by
    by_contra hn
    rw [List.get?_eq_none.2 (Nat.le_of_not_lt hn)] at h
    cases h
  rw [windows_length] at hj
  refine ⟨hj, ?_⟩
  simp only [windows, List.get?_eq_getElem?, List.getElem?_map] at h
  rw [List.getElem?_range hj] at h
  simpa using h.symm

theorem isWord_of_mem_slice {words : List Str} (h : ∀ t ∈ words, IsWord t) (a b : Nat) :
    ∀ t ∈ (words.drop a).take b, IsWord t :=
  fun t ht => h t (List.mem_of_mem_drop (List.mem_of_mem_take ht))

theorem countWords_window {words : List Str} (h : ∀ t ∈ words, IsWord t) (j m : Nat) :
    countWords (joinSpace ((words.drop (j * m)).take m)) = min m (words.length - j * m) := by
  rw [countWords_joinSpace _ (isWord_of_mem_slice h _ _)]
  simp

/-! ## The loop over the marker patterns -/

theorem markerSplit_cons_of_le (text : Str) (marker : Pattern) (rest : List Pattern)
    (h : matchCount marker text ≤ 1) :
    markerSplit text (marker :: rest) = markerSplit text rest := by
  unfold matchCount at h
  simp only [markerSplit]
  cases hm : jsMatch marker text with
  | none => rfl
  | some ms =>
    rw [hm] at h
    simp only at h
    simp [Nat.not_lt.2 h]

theorem markerSplit_cons_of_lt (text : Str) (marker : Pattern) (rest : List Pattern)
    (h : 1 < matchCount marker text) :
    markerSplit text (marker :: rest) = jsSplit marker text := by
  unfold matchCount at h
  simp only [markerSplit]
  cases hm : jsMatch marker text with
  | none => rw [hm] at h; simp at h
  | some ms =>
    rw [hm] at h
    simp only at h
    simp [h]

theorem markerSplit_none (text : Str) : ∀ (pats : List Pattern),
    (∀ p ∈ pats, matchCount p text ≤ 1) → markerSplit text pats = [text] := by
  intro pats
  induction pats with
  | nil => intro _; rfl
  | cons p rest ih =>
    intro h
    rw [markerSplit_cons_of_le text p rest (h p (List.mem_cons_self _ _))]
    exact ih (fun q hq => h q (List.mem_cons_of_mem _ hq))

theorem markerSplit_first (text : Str) (p : Pattern) (post : List Pattern) :
    ∀ (pre : List Pattern), (∀ q ∈ pre, matchCount q text ≤ 1) → 1 < matchCount p text →
      markerSplit text (pre ++ p :: post) = jsSplit p text := by
  intro pre
  induction pre with
  | nil => intro _ h; exact markerSplit_cons_of_lt text p post h
  | cons q pre ih =>
    intro hq h
    rw [List.cons_append, markerSplit_cons_of_le text q _ (hq q (List.mem_cons_self _ _))]
    exact ih (fun x hx => hq x (List.mem_cons_of_mem _ hx)) h

theorem pattern_ne_nil_of_mem {p : Pattern} (h : p ∈ chapterMarkers) : p ≠ [] := by
  simp only [chapterMarkers, List.mem_cons, List.mem_singleton, List.not_mem_nil, or_false] at h
  rcases h with rfl | rfl | rfl | rfl <;> simp [chapterMarker, partMarker, sectionMarker, numberMarker]

theorem candidateFragments_fallback {text : Str}
    (h : ∀ p ∈ chapterMarkers, matchCount p text ≤ 1) :
    candidateFragments text = some (windows (jsSplit whiteSpaceRun text) 500) := by
  unfold candidateFragments
  rw [markerSplit_none text _ h]
  simp [splitByLength_eq text 500 (by decide)]

theorem candidateFragments_marker (text : Str) (p : Pattern) (pre post : List Pattern)
    (hpats : chapterMarkers = pre ++ p :: post)
    (hpre : ∀ q ∈ pre, matchCount q text ≤ 1) (hp : 1 < matchCount p text) :
    candidateFragments text = some (jsSplit p text) := by
  unfold candidateFragments
  rw [hpats, markerSplit_first text p post pre hpre hp]
  have hne : p ≠ [] := pattern_ne_nil_of_mem (by rw [hpats]; simp)
  have : (jsSplit p text).length ≠ 1 := by rw [jsSplit_length hne]; omega
  simp [this]

theorem candidateFragments_total (text : Str) : ∃ frags, candidateFragments text = some frags := by
  unfold candidateFragments
  split
  · exact ⟨_, splitByLength_eq text 500 (by decide)⟩
  · exact ⟨_, rfl⟩

theorem candidateFragments_at_index (text : Str) (k : Nat) (hk : k < chapterMarkers.length)
    (hfirst : ∀ (j : Nat) (hj : j < chapterMarkers.length), j < k →
      matchCount (chapterMarkers.get ⟨j, hj⟩) text ≤ 1)
    (hq : 1 < matchCount (chapterMarkers.get ⟨k, hk⟩) text) :
    candidateFragments text = some (jsSplit (chapterMarkers.get ⟨k, hk⟩) text) := by
  have h4 : chapterMarkers.length = 4 := rfl
  rw [h4] at hk
  have h0 := hfirst 0 (by decide)
  have h1 := hfirst 1 (by decide)
  have h2 := hfirst 2 (by decide)
  match k, hk with
  | 0, _ =>
    exact candidateFragments_marker text _ [] [partMarker, sectionMarker, numberMarker]
      rfl (by simp) hq
  | 1, _ =>
    exact candidateFragments_marker text _ [chapterMarker] [sectionMarker, numberMarker]
      rfl (by simpa using h0 (by decide)) hq
  | 2, _ =>
    exact candidateFragments_marker text _ [chapterMarker, partMarker] [numberMarker]
      rfl (by simpa using ⟨h0 (by decide), h1 (by decide)⟩) hq
  | 3, _ =>
    exact candidateFragments_marker text _ [chapterMarker, partMarker, sectionMarker] []
      rfl (by simpa using ⟨h0 (by decide), h1 (by decide), h2 (by decide)⟩) hq

theorem matchCount_eq_zero_of_no_digit {p : Pattern} (hp : p ∈ chapterMarkers) {text : Str}
    (h : ∀ x ∈ text, isDigit x = false) : matchCount p text = 0 := by
  rw [matchCount_eq]
  have hit : Item.plus isDigit ∈ p := by
    simp only [chapterMarkers, List.mem_cons, List.mem_singleton, List.not_mem_nil,
      or_false] at hp
    rcases hp with rfl | rfl | rfl | rfl <;>
      simp [chapterMarker, partMarker, sectionMarker, numberMarker]
  rw [matchAllFrom_eq_nil_of_test hit text 0 h]
  rfl

/-! ## The `forEach` that builds the chapters -/

theorem mem_pushChapters {c : Chapter} : ∀ (frags : List Str) (index : Nat),
    c ∈ pushChapters index frags →
    ∃ j f, frags.get? j = some f ∧ 50 < jsLength (trim f) ∧ c = mkChapter (index + j) f := by
  intro frags
  induction frags with
  | nil => intro index h; simp [pushChapters] at h
  | cons chunk rest ih =>
    intro index h
    simp only [pushChapters] at h
    split at h
    · rename_i hlen
      rcases List.mem_cons.1 h with h | h
      · exact ⟨0, chunk, rfl, hlen, by simpa using h⟩
      · obtain ⟨j, f, hj, hf, hc⟩ := ih _ h
        exact ⟨j + 1, f, by simpa using hj, hf, by rw [hc]; congr 1; omega⟩
    · obtain ⟨j, f, hj, hf, hc⟩ := ih _ h
      exact ⟨j + 1, f, by simpa using hj, hf, by rw [hc]; congr 1; omega⟩

theorem pushChapters_getAt : ∀ (frags : List Str) (index k : Nat),
    k < (pushChapters index frags).length →
    ∃ i f, frags.get? i = some f ∧ ((frags.take i).filter passes).length = k ∧
      passes f = true ∧ (pushChapters index frags).get? k = some (mkChapter (index + i) f) := by
  intro frags
  induction frags with
  | nil => intro index k h; simp [pushChapters] at h
  | cons chunk rest ih =>
    intro index k h
    by_cases hp : 50 < jsLength (trim chunk)
    · simp only [pushChapters, hp, if_true] at h ⊢
      cases k with
      | zero => exact ⟨0, chunk, rfl, rfl, by simp [passes, hp], rfl⟩
      | succ k =>
        obtain ⟨i, f, hi, hcount, hf, hget⟩ := ih (index + 1) k (by simpa using h)
        refine ⟨i + 1, f, by simpa using hi, ?_, hf, ?_⟩
        · have : passes chunk = true := by simp [passes, hp]
          simp [List.filter_cons, this, hcount]
        · simp only [List.get?_cons_succ]
          rw [hget]; congr 2; omega
    · simp only [pushChapters, hp, if_false] at h ⊢
      obtain ⟨i, f, hi, hcount, hf, hget⟩ := ih (index + 1) k h
      refine ⟨i + 1, f, by simpa using hi, ?_, hf, ?_⟩
      · have : passes chunk = false := by simp [passes, hp]
        simp [List.filter_cons, this, hcount]
      · rw [hget]; congr 2; omega

theorem pushChapters_length : ∀ (frags : List Str) (index : Nat),
    (pushChapters index frags).length = (frags.filter passes).length := by
  intro frags
  induction frags with
  | nil => intro _; rfl
  | cons chunk rest ih =>
    intro index
    by_cases hp : 50 < jsLength (trim chunk)
    · have : passes chunk = true := by simp [passes, hp]
      simp [pushChapters, hp, List.filter_cons, this, ih]
    · have : passes chunk = false := by simp [passes, hp]
      simp [pushChapters, hp, List.filter_cons, this, ih]

/-- What `pushChapters` does with a chunk of `n` words joined by single spaces,
when `n > 50`: it is kept as it is and counted as `n` words. -/
theorem pushChapters_window {ts : List Str} (h : ∀ t ∈ ts, IsWord t) (hn : 50 < ts.length)
    (index : Nat) (rest : List Str) :
    pushChapters index (joinSpace ts :: rest) =
      { id := "chapter-".toList ++ decimal (index + 1)
        title := "Chapter ".toList ++ decimal (index + 1)
        content := joinSpace ts
        wordCount := ts.length } :: pushChapters (index + 1) rest := by
  have htrim := trim_joinSpace ts h
  have hne : joinSpace ts ≠ [] := joinSpace_ne_nil h (by intro h0; rw [h0] at hn; simp at hn)
  have hlen : 50 < jsLength (trim (joinSpace ts)) := by
    rw [htrim]
    have h1 := le_jsLength (joinSpace ts)
    have h2 := length_le_joinSpace ts h
    omega
  have hcount : (jsSplit whiteSpaceRun (joinSpace ts)).length = ts.length := by
    rw [(jsSplit_whiteSpace_words hne htrim).2, countWords_joinSpace ts h]
  rw [pushChapters, if_pos hlen]
  simp only [mkChapter, htrim, hcount]

theorem splitIntoChapters_eq {text : Str} {frags : List Str}
    (h : candidateFragments text = some frags) :
    splitIntoChapters text = some (pushChapters 0 frags) := by
  unfold splitIntoChapters
  rw [h]

/-! ## The chapter pattern on a text with two headings -/

/-- The heading `Chapter` followed by one space and the digit `d`, in front of
the text `s`: the chapter pattern matches the heading and the digits that `s`
starts with. -/
theorem matchAt_chapter_heading (d : Char) (hd : isDigit d = true) (s : Str) :
    matchAt chapterMarker ("Chapter ".toList ++ d :: s) =
      some ("Chapter ".toList ++ d :: s.takeWhile isDigit, s.dropWhile isDigit) := by
  have hw : isWhiteSpace d = false := by
    unfold isDigit at hd
    unfold isWhiteSpace
    simp only [Bool.and_eq_true, decide_eq_true_eq] at hd
    simp
    omega
  have e : "Chapter ".toList = ['C', 'h', 'a', 'p', 't', 'e', 'r', ' '] := rfl
  rw [e]
  simp only [chapterMarker, List.cons_append, List.nil_append, matchAt_one_cons,
    matchAt_plus_cons, matchAt_plus_single, hd, hw]
  simp [isLetterCI, consMatch, isWhiteSpace, matchAt_plus_orElse]

/-- No match of the chapter pattern starts inside `t` and runs into a following
heading, because only the first term of the pattern accepts the letter `C`. -/
theorem matchAt_chapter_before_heading {t u : Str} (hne : t ≠ [])
    (ht : matchAt chapterMarker t = none) : matchAt chapterMarker (t ++ 'C' :: u) = none := by
  cases hm : matchAt chapterMarker (t ++ 'C' :: u) with
  | none => rfl
  | some mr =>
    obtain ⟨m, r⟩ := mr
    by_cases hlen : m.length ≤ t.length
    · have := matchAt_isSome_of_short hm hlen
      rw [ht] at this
      cases this
    · obtain ⟨it, hit, htest⟩ := test_of_long_match hm hne (by omega)
      simp only [List.mem_cons, List.mem_singleton, List.not_mem_nil, or_false] at hit
      rcases hit with rfl | rfl | rfl | rfl | rfl | rfl | rfl | rfl <;>
        simp [Item.test, isLetterCI, isWhiteSpace, isDigit] at htest

/-- The text `Chapter 1` ++ `a` ++ `Chapter 2` ++ `b`, as the matcher sees it. -/
theorem chapterText_eq (a b : Str) :
    "Chapter 1".toList ++ a ++ "Chapter 2".toList ++ b =
      "Chapter ".toList ++ '1' :: (a ++ ("Chapter ".toList ++ '2' :: b)) := by
  have e1 : "Chapter 1".toList = "Chapter ".toList ++ ['1'] := rfl
  have e2 : "Chapter 2".toList = "Chapter ".toList ++ ['2'] := rfl
  rw [e1, e2]
  simp

theorem segments_two_headings (a b : Str) (ha : matchCount chapterMarker a = 0)
    (hb : matchCount chapterMarker b = 0) (hane : a ≠ [])
    (hdigit : ∀ c, a.head? = some c → isDigit c = false) :
    untilMatch chapterMarker ("Chapter 1".toList ++ a ++ "Chapter 2".toList ++ b) = [] ∧
    segmentsFrom chapterMarker 0 ("Chapter 1".toList ++ a ++ "Chapter 2".toList ++ b) =
      [("Chapter 1".toList, a),
       ("Chapter 2".toList ++ b.takeWhile isDigit, b.dropWhile isDigit)] := by
  have hp : chapterMarker ≠ [] := by simp [chapterMarker]
  rw [chapterText_eq]
  obtain ⟨x, a1, rfl⟩ := List.exists_cons_of_ne_nil hane
  have hx : isDigit x = false := hdigit x rfl
  have hm1 := matchAt_chapter_heading '1' (by decide) (x :: a1 ++ ("Chapter ".toList ++ '2' :: b))
  have hm2 := matchAt_chapter_heading '2' (by decide) b
  simp only [List.cons_append, List.takeWhile_cons, List.dropWhile_cons, hx,
    Bool.false_eq_true, if_false] at hm1
  have hscan := scan_append_of_none chapterMarker ("Chapter ".toList ++ '2' :: b)
    (x :: a1) (fun t hne ht =>
      matchAt_chapter_before_heading hne (matchAt_none_of_suffix _ ha t hne ht))
  have hb1 : matchCount chapterMarker (b.dropWhile isDigit) = 0 :=
    matchCount_eq_zero_of_suffix hp hb (List.dropWhile_suffix _)
  have hscanb := scan_of_none hb1
  have htail : untilMatch chapterMarker ("Chapter ".toList ++ '2' :: b) = [] :=
    untilMatch_of_match hm2
  have hseg2 := segmentsFrom_of_match hp hm2
  rw [hscanb.1, hscanb.2] at hseg2
  constructor
  · exact untilMatch_of_match hm1
  · have hseg1 := segmentsFrom_of_match hp hm1
    simp only [List.cons_append] at hscan
    rw [hscan.1, hscan.2, htail, hseg2] at hseg1
    rw [List.append_nil] at hseg1
    exact hseg1

/-! ## Facts about the example texts -/

theorem twelveHundredWords_isWord : ∀ t ∈ List.replicate 1200 ['a'], IsWord t := by
  intro t ht
  rw [List.eq_of_mem_replicate ht]
  exact ⟨by simp, by decide⟩

theorem twelveHundredWords_no_digit : ∀ x ∈ joinSpace (List.replicate 1200 ['a']), isDigit x = false := by
  intro x hx
  rcases mem_joinSpace _ x hx with rfl | ⟨t, ht, hxt⟩
  · decide
  · rw [List.eq_of_mem_replicate ht] at hxt
    simp only [List.mem_singleton] at hxt
    rw [hxt]; decide

/-! ## Decimal numbers -/

theorem digitChar_value (k : Nat) (h : k < 10) : (Nat.digitChar k).toNat - 48 = k := by
  interval_cases k <;> rfl

theorem toDigitsCore_spec : ∀ (fuel n : Nat) (ds : Str), n < fuel →
    Nat.toDigitsCore 10 fuel n ds = Nat.toDigitsCore 10 fuel n [] ++ ds ∧
    decimalValue (Nat.toDigitsCore 10 fuel n []) = n := by
  intro fuel
  induction fuel with
  | zero => intro n ds h; omega
  | succ fuel ih =>
    intro n ds h
    simp only [Nat.toDigitsCore]
    by_cases h0 : n / 10 = 0
    · simp only [h0, if_true]
      refine ⟨rfl, ?_⟩
      have hn : n < 10 := by omega
      simp [decimalValue, Nat.mod_eq_of_lt hn, digitChar_value n hn]
    · simp only [h0, if_false]
      have hlt : n / 10 < fuel := by omega
      obtain ⟨h1, h2⟩ := ih (n / 10) [Nat.digitChar (n % 10)] hlt
      constructor
      · rw [(ih (n / 10) (Nat.digitChar (n % 10) :: ds) hlt).1, h1]
        simp
      · rw [h1]
        simp only [decimalValue, List.foldl_append, List.foldl_cons, List.foldl_nil] at h2 ⊢
        rw [h2, digitChar_value _ (Nat.mod_lt _ (by decide))]
        omega

theorem decimalValue_decimal (n : Nat) : decimalValue (decimal n) = n :=
  (toDigitsCore_spec (n + 1) n [] (Nat.lt_succ_self n)).2

theorem decimal_injective {a b : Nat} (h : decimal a = decimal b) : a = b := by
  rw [← decimalValue_decimal a, ← decimalValue_decimal b, h]

theorem mkChapter_id_injective {i j : Nat} {f g : Str}
    (h : (mkChapter i f).id = (mkChapter j g).id) : i = j := by
  simp only [mkChapter] at h
  have := decimal_injective (List.append_cancel_left h)
  omega

/-! ## The `forEach`, position by position -/

theorem pushChapters_eq_map : ∀ (frags : List Str) (index : Nat),
    pushChapters index frags =
      ((frags.enumFrom index).filter (fun x => passes x.2)).map (fun x => mkChapter x.1 x.2) := by
  intro frags
  induction frags with
  | nil => intro _; rfl
  | cons chunk rest ih =>
    intro index
    by_cases hp : 50 < jsLength (trim chunk)
    · have : passes chunk = true := by simp [passes, hp]
      simp [pushChapters, hp, List.enumFrom_cons, List.filter_cons, this, ih]
    · have : passes chunk = false := by simp [passes, hp]
      simp [pushChapters, hp, List.enumFrom_cons, List.filter_cons, this, ih]

theorem pushChapters_content : ∀ (frags : List Str) (index : Nat),
    (pushChapters index frags).map Chapter.content = (frags.filter passes).map trim := by
  intro frags
  induction frags with
  | nil => intro _; rfl
  | cons chunk rest ih =>
    intro index
    by_cases hp : 50 < jsLength (trim chunk)
    · have : passes chunk = true := by simp [passes, hp]
      simp [pushChapters, hp, List.filter_cons, this, ih, mkChapter]
    · have : passes chunk = false := by simp [passes, hp]
      simp [pushChapters, hp, List.filter_cons, this, ih]

theorem passingPositions_pairwise (frags : List Str) :
    (passingPositions frags).Pairwise (· < ·) := by
  unfold passingPositions
  have hsub : ((frags.enum.filter (fun x => passes x.2)).map Prod.fst).Sublist
      (frags.enum.map Prod.fst) := (List.filter_sublist _).map _
  rw [List.enum_map_fst] at hsub
  exact (List.pairwise_lt_range _).sublist hsub

theorem pushChapters_ids (frags : List Str) :
    (pushChapters 0 frags).map Chapter.id =
      (passingPositions frags).map (fun i => "chapter-".toList ++ decimal (i + 1)) := by
  rw [pushChapters_eq_map]
  simp [passingPositions, List.enum, mkChapter]

theorem mem_pushChapters_iff (frags : List Str) (c : Chapter) :
    c ∈ pushChapters 0 frags ↔
      ∃ n f, frags.get? n = some f ∧ 50 < jsLength (trim f) ∧ c = mkChapter n f := by
  rw [pushChapters_eq_map]
  simp only [List.mem_map, List.mem_filter]
  constructor
  · rintro ⟨⟨n, f⟩, ⟨hmem, hp⟩, rfl⟩
    refine ⟨n, f, ?_, by simpa [passes] using hp, rfl⟩
    have := (List.mk_mem_enum_iff_getElem? (l := frags)).1 hmem
    simpa using this
  · rintro ⟨n, f, hget, hp, rfl⟩
    refine ⟨(n, f), ⟨?_, by simpa [passes] using hp⟩, rfl⟩
    exact (List.mk_mem_enum_iff_getElem? (l := frags)).2 (by simpa using hget)

theorem wordCount_of_passes {f : Str} (h : 50 < jsLength (trim f)) (index : Nat) :
    (mkChapter index f).wordCount = countWords (mkChapter index f).content ∧
    1 ≤ (mkChapter index f).wordCount := by
  have hne : trim f ≠ [] := by
    intro h0; rw [h0] at h; simp [jsLength] at h
  have := jsSplit_whiteSpace_words hne (trim_idem f)
  simp only [mkChapter]
  refine ⟨this.2, ?_⟩
  rw [jsSplit_length (by simp [whiteSpaceRun])]
  omega

theorem pushChapters_eq_nil : ∀ (frags : List Str) (index : Nat),
    (∀ f ∈ frags, jsLength (trim f) ≤ 50) → pushChapters index frags = [] := by
  intro frags
  induction frags with
  | nil => intro _ _; rfl
  | cons chunk rest ih =>
    intro index h
    have hc := h chunk (List.mem_cons_self _ _)
    rw [pushChapters, if_neg (by omega)]
    exact ih _ (fun f hf => h f (List.mem_cons_of_mem _ hf))

theorem filter_map_trim_of_passes : ∀ (l : List Str),
    (∀ c ∈ l, passes c = true ∧ trim c = c) → (l.filter passes).map trim = l := by
  intro l
  induction l with
  | nil => intro _; rfl
  | cons c l ih =>
    intro h
    obtain ⟨hp, ht⟩ := h c (List.mem_cons_self _ _)
    rw [List.filter_cons, if_pos hp, List.map_cons, ht,
      ih (fun d hd => h d (List.mem_cons_of_mem _ hd))]

/-! ## Candidate fragments as sublists of the text -/

theorem zipWith_append_segments : ∀ (segs : List (Str × Str)),
    List.zipWith (· ++ ·) (segs.map Prod.fst) (segs.map Prod.snd) =
      segs.map (fun mf => mf.1 ++ mf.2) := by
  intro segs
  induction segs with
  | nil => rfl
  | cons a segs ih => simp [ih]

theorem dropWhile_sublist_of_sublist (p : Char → Bool) {t s : Str} (h : t.Sublist s) :
    (t.dropWhile p).Sublist (s.dropWhile p) := by
  induction h with
  | slnil => exact List.Sublist.slnil
  | @cons t s a h ih =>
    rw [List.dropWhile_cons]
    split
    · exact ih
    · exact ((List.dropWhile_suffix p).sublist.trans h).cons a
  | @cons₂ t s a h ih =>
    rw [List.dropWhile_cons, List.dropWhile_cons]
    split
    · exact ih
    · exact h.cons₂ a

theorem rdropWhile_sublist_of_sublist (p : Char → Bool) {t s : Str} (h : t.Sublist s) :
    (t.rdropWhile p).Sublist (s.rdropWhile p) := by
  unfold List.rdropWhile
  exact (dropWhile_sublist_of_sublist p h.reverse).reverse

/-- Trimming keeps the sublist relation. -/
theorem trim_sublist {t s : Str} (h : t.Sublist s) : (trim t).Sublist (trim s) :=
  rdropWhile_sublist_of_sublist _ (dropWhile_sublist_of_sublist _ h)

theorem jsLength_trim_le_of_sublist {t s : Str} (h : t.Sublist s) :
    jsLength (trim t) ≤ jsLength (trim s) :=
  jsLength_le_of_sublist (trim_sublist h)

theorem splitFrom_sublist (pat : Pattern) : ∀ (s : Str) (n : Nat) (cur : Str),
    ∀ f ∈ splitFrom pat n cur s, f.Sublist (cur ++ s) := by
  intro s
  induction s with
  | nil =>
    intro n cur f hf
    simp only [splitFrom, List.mem_singleton] at hf
    rw [hf]; simp
  | cons c s ih =>
    intro n cur f hf
    have hstep : (cur ++ s).Sublist (cur ++ c :: s) :=
      (List.Sublist.refl cur).append ((List.Sublist.refl s).cons c)
    have hcur : cur.Sublist (cur ++ c :: s) := List.sublist_append_left _ _
    have hnil : ∀ g ∈ splitFrom pat 0 [c] s, g.Sublist (cur ++ c :: s) := fun g hg =>
      (ih 0 [c] g hg).trans (by simp)
    cases n with
    | succ n =>
      simp only [splitFrom] at hf
      exact (ih n cur f hf).trans hstep
    | zero =>
      simp only [splitFrom] at hf
      split at hf
      · split at hf
        · exact hnil f hf
        · rcases List.mem_cons.1 hf with rfl | hf
          · exact hcur
          · exact hnil f hf
      · rcases List.mem_cons.1 hf with rfl | hf
        · exact hcur
        · exact ((ih _ [] f hf).trans (by simp)).trans
            ((List.sublist_append_right cur s).trans hstep)
      · have := ih 0 (cur ++ [c]) f hf
        simpa using this

theorem jsSplit_sublist (pat : Pattern) (text : Str) :
    ∀ f ∈ jsSplit pat text, f.Sublist text := by
  intro f hf
  cases text with
  | nil =>
    simp only [jsSplit] at hf
    split at hf
    · cases hf
    · simp only [List.mem_singleton] at hf
      rw [hf]
  | cons c s =>
    simp only [jsSplit] at hf
    simpa using splitFrom_sublist pat (c :: s) 0 [] f hf

theorem markerSplit_sublist (text : Str) : ∀ (pats : List Pattern),
    ∀ f ∈ markerSplit text pats, f.Sublist text := by
  intro pats
  induction pats with
  | nil =>
    intro f hf
    simp only [markerSplit, List.mem_singleton] at hf
    rw [hf]
  | cons p rest ih =>
    intro f hf
    simp only [markerSplit] at hf
    split at hf
    · split at hf
      · exact jsSplit_sublist p text f hf
      · exact ih f hf
    · exact ih f hf

theorem isWhiteSpace_blank (c : Char) : isWhiteSpace (blank c) = isWhiteSpace c := by
  unfold blank
  by_cases h : isWhiteSpace c = true
  · rw [if_pos h, h]; decide
  · rw [if_neg h]

theorem codeUnits_blank (c : Char) : codeUnits (blank c) = codeUnits c := by
  unfold blank
  by_cases h : isWhiteSpace c = true
  · rw [if_pos h]
    have hlt : c.toNat < 65536 := by
      unfold isWhiteSpace at h
      simp only [Bool.or_eq_true, Bool.and_eq_true, decide_eq_true_eq, beq_iff_eq] at h
      omega
    simp [codeUnits, hlt]
  · rw [if_neg h]

theorem jsLength_map_blank (s : Str) : jsLength (s.map blank) = jsLength s := by
  unfold jsLength
  rw [List.map_map]
  congr 1
  apply List.map_congr_left
  intro c _
  exact codeUnits_blank c

theorem trim_map_blank (s : Str) : trim (s.map blank) = (trim s).map blank := by
  have hcomp : isWhiteSpace ∘ blank = isWhiteSpace := funext isWhiteSpace_blank
  unfold trim List.rdropWhile
  rw [List.dropWhile_map, hcomp, ← List.map_reverse, List.dropWhile_map, hcomp,
    List.map_reverse]

theorem splitFrom_ne_nil (pat : Pattern) : ∀ (s : Str) (n : Nat) (cur : Str),
    splitFrom pat n cur s ≠ [] := by
  intro s
  induction s with
  | nil => intro n cur; simp [splitFrom]
  | cons c s ih =>
    intro n cur
    cases n with
    | succ n => simp only [splitFrom]; exact ih n cur
    | zero =>
      simp only [splitFrom]
      split
      · split
        · exact ih _ _
        · simp
      · simp
      · exact ih _ _

theorem joinSpace_cons_of_ne_nil (w : Str) {ts : List Str} (h : ts ≠ []) :
    joinSpace (w :: ts) = w ++ ' ' :: joinSpace ts := by
  cases ts with
  | nil => exact absurd rfl h
  | cons _ _ => rfl

/-- The tokens of `split(/\s+/)`, joined by single spaces, are the text with
some white space characters removed and the others replaced by a space. -/
theorem joinSpace_splitFrom_sublist : ∀ (k : Nat) (s cur : Str), s.length ≤ k →
    (joinSpace (splitFrom whiteSpaceRun 0 cur s)).Sublist (cur ++ s.map blank) := by
  intro k
  induction k with
  | zero =>
    intro s cur h
    have : s = [] := List.length_eq_zero.1 (by omega)
    subst this
    simp [splitFrom, joinSpace]
  | succ k ih =>
    intro s cur h
    cases s with
    | nil => simp [splitFrom, joinSpace]
    | cons c s =>
      rw [splitFrom_whiteSpace_cons]
      by_cases hc : isWhiteSpace c = true
      · rw [if_pos hc, joinSpace_cons_of_ne_nil _ (splitFrom_ne_nil _ _ _ _)]
        have hlen : (s.dropWhile isWhiteSpace).length ≤ k := by
          have := (List.dropWhile_suffix (l := s) isWhiteSpace).length_le
          simp at h; omega
        have h1 := ih (s.dropWhile isWhiteSpace) [] hlen
        have h2 : ((s.dropWhile isWhiteSpace).map blank).Sublist (s.map blank) :=
          (List.dropWhile_suffix isWhiteSpace).sublist.map blank
        have hb : blank c = ' ' := by simp [blank, hc]
        simp only [List.map_cons, hb, List.nil_append] at h1 ⊢
        exact (List.Sublist.refl cur).append ((h1.trans h2).cons₂ ' ')
      · rw [if_neg hc]
        have h1 := ih s (cur ++ [c]) (by simpa using h)
        have hb : blank c = c := by simp [blank, hc]
        simpa [hb] using h1

theorem joinSpace_jsSplit_sublist (text : Str) :
    (joinSpace (jsSplit whiteSpaceRun text)).Sublist (text.map blank) := by
  cases text with
  | nil => simp [jsSplit, matchAt, whiteSpaceRun, joinSpace]
  | cons c s =>
    simp only [jsSplit]
    simpa using joinSpace_splitFrom_sublist _ (c :: s) [] (Nat.le_refl _)

theorem joinSpace_sublist {l1 l2 : List Str} (h : l1.Sublist l2) :
    (joinSpace l1).Sublist (joinSpace l2) := by
  induction h with
  | slnil => exact List.Sublist.slnil
  | @cons l1 l2 a h ih =>
    cases l2 with
    | nil =>
      have : l1 = [] := List.sublist_nil.1 h
      subst this
      simp [joinSpace]
    | cons b l2 =>
      rw [joinSpace_cons_of_ne_nil a (List.cons_ne_nil b l2)]
      exact ih.trans ((List.sublist_append_right a _).trans
        ((List.Sublist.refl a).append ((List.Sublist.refl _).cons ' ')))
  | @cons₂ l1 l2 a h ih =>
    cases l1 with
    | nil =>
      cases l2 with
      | nil => exact List.Sublist.refl _
      | cons b l2 =>
        rw [joinSpace_cons_of_ne_nil a (List.cons_ne_nil b l2)]
        simp [joinSpace]
    | cons b l1 =>
      have hne : l2 ≠ [] := by
        intro h0; rw [h0] at h; simp at h
      rw [joinSpace_cons_of_ne_nil a (List.cons_ne_nil b l1), joinSpace_cons_of_ne_nil a hne]
      exact (List.Sublist.refl a).append (ih.cons₂ ' ')

theorem mem_windows {words : List Str} {m : Nat} {chunk : Str} (h : chunk ∈ windows words m) :
    ∃ j, chunk = joinSpace ((words.drop (j * m)).take m) := by
  simp only [windows, List.mem_map, List.mem_range] at h
  obtain ⟨j, _, rfl⟩ := h
  exact ⟨j, rfl⟩

/-- Every chunk of the fallback is the text with some white space removed and
the rest replaced by spaces. -/
theorem window_sublist (text : Str) (m : Nat) :
    ∀ chunk ∈ windows (jsSplit whiteSpaceRun text) m, chunk.Sublist (text.map blank) := by
  intro chunk h
  obtain ⟨j, rfl⟩ := mem_windows h
  exact (joinSpace_sublist ((List.take_sublist _ _).trans (List.drop_sublist _ _))).trans
    (joinSpace_jsSplit_sublist text)

/-- No candidate fragment has a longer trim than the text. -/
theorem candidateFragments_trim_le (text : Str) (frags : List Str)
    (h : candidateFragments text = some frags) :
    ∀ f ∈ frags, jsLength (trim f) ≤ jsLength (trim text) := by
  intro f hf
  unfold candidateFragments at h
  split at h
  · rw [splitByLength_eq text 500 (by decide)] at h
    cases h
    have := jsLength_trim_le_of_sublist (window_sublist text 500 f hf)
    rwa [trim_map_blank, jsLength_map_blank] at this
  · cases h
    exact jsLength_trim_le_of_sublist (markerSplit_sublist text _ f hf)

/-! ## Word counts of tokens -/

theorem splitFrom_whiteSpace_noWs : ∀ (k : Nat) (s cur : Str), s.length ≤ k →
    (∀ x ∈ cur, isWhiteSpace x = false) →
    ∀ t ∈ splitFrom whiteSpaceRun 0 cur s, ∀ x ∈ t, isWhiteSpace x = false := by
  intro k
  induction k with
  | zero =>
    intro s cur h hcur t ht
    have : s = [] := List.length_eq_zero.1 (by omega)
    subst this
    simp only [splitFrom, List.mem_singleton] at ht
    rw [ht]; exact hcur
  | succ k ih =>
    intro s cur h hcur t ht
    cases s with
    | nil =>
      simp only [splitFrom, List.mem_singleton] at ht
      rw [ht]; exact hcur
    | cons c s =>
      rw [splitFrom_whiteSpace_cons] at ht
      by_cases hc : isWhiteSpace c = true
      · rw [if_pos hc] at ht
        rcases List.mem_cons.1 ht with rfl | ht
        · exact hcur
        · have hlen : (s.dropWhile isWhiteSpace).length ≤ k := by
            have := (List.dropWhile_suffix (l := s) isWhiteSpace).length_le
            simp at h; omega
          exact ih _ [] hlen (by simp) t ht
      · rw [if_neg hc] at ht
        refine ih s (cur ++ [c]) (by simpa using h) ?_ t ht
        intro x hx
        rcases List.mem_append.1 hx with hx | hx
        · exact hcur x hx
        · simp only [List.mem_singleton] at hx
          rw [hx]; simpa using hc

theorem jsSplit_whiteSpace_noWs (text : Str) :
    ∀ t ∈ jsSplit whiteSpaceRun text, ∀ x ∈ t, isWhiteSpace x = false := by
  cases text with
  | nil =>
    intro t ht
    simp [jsSplit, matchAt, whiteSpaceRun] at ht
    rw [ht]; simp
  | cons c s =>
    simp only [jsSplit]
    exact splitFrom_whiteSpace_noWs _ (c :: s) [] (Nat.le_refl _) (by simp)

theorem countWordsFrom_cons_of_ws {x : Char} (hx : isWhiteSpace x = true) (b : Bool) (s : Str) :
    countWordsFrom b (x :: s) = countWordsFrom false s := by
  simp [countWordsFrom, hx]

theorem countWordsFrom_cons_of_noWs {x : Char} (hx : isWhiteSpace x = false) (b : Bool)
    (s : Str) : countWordsFrom b (x :: s) = (if b then 0 else 1) + countWordsFrom true s := by
  simp [countWordsFrom, hx]

theorem countWords_token_space_le {w : Str} (hw : ∀ x ∈ w, isWhiteSpace x = false) (r : Str) :
    countWordsFrom false (w ++ ' ' :: r) ≤ 1 + countWordsFrom false r := by
  have hsp : isWhiteSpace ' ' = true := by decide
  cases w with
  | nil =>
    rw [List.nil_append, countWordsFrom_cons_of_ws hsp]
    omega
  | cons x w =>
    rw [List.cons_append, countWordsFrom_cons_of_noWs (hw x (List.mem_cons_self _ _)),
      countWordsFrom_append_of_noWs _ w (fun y hy => hw y (List.mem_cons_of_mem _ hy)),
      countWordsFrom_cons_of_ws hsp]
    simp

theorem countWords_token_le {w : Str} (hw : ∀ x ∈ w, isWhiteSpace x = false) :
    countWordsFrom false w ≤ 1 := by
  cases w with
  | nil => simp [countWordsFrom]
  | cons x w =>
    rw [countWordsFrom_cons_of_noWs (hw x (List.mem_cons_self _ _))]
    have := countWordsFrom_append_of_noWs [] w (fun y hy => hw y (List.mem_cons_of_mem _ hy))
    rw [List.append_nil] at this
    rw [this]
    simp [countWordsFrom]

theorem countWords_joinSpace_le : ∀ (ts : List Str),
    (∀ t ∈ ts, ∀ x ∈ t, isWhiteSpace x = false) → countWords (joinSpace ts) ≤ ts.length := by
  intro ts
  induction ts with
  | nil => intro _; simp [joinSpace, countWords, countWordsFrom]
  | cons w ts ih =>
    intro h
    have hw := h w (List.mem_cons_self _ _)
    cases ts with
    | nil => simpa [joinSpace, countWords] using countWords_token_le hw
    | cons w2 ts =>
      have ih2 := ih (fun t ht => h t (List.mem_cons_of_mem _ ht))
      rw [joinSpace_cons_of_ne_nil w (List.cons_ne_nil w2 ts)]
      have := countWords_token_space_le hw (joinSpace (w2 :: ts))
      simp only [countWords, List.length_cons] at ih2 ⊢
      omega

theorem countWordsFrom_of_all_ws (b : Bool) : ∀ (t : Str),
    (∀ x ∈ t, isWhiteSpace x = true) → countWordsFrom b t = 0 := by
  intro t
  induction t generalizing b with
  | nil => intro _; rfl
  | cons y t ih =>
    intro ht
    rw [countWordsFrom_cons_of_ws (ht y (List.mem_cons_self _ _))]
    exact ih false (fun x hx => ht x (List.mem_cons_of_mem _ hx))

theorem countWordsFrom_append_ws (t : Str) (ht : ∀ x ∈ t, isWhiteSpace x = true) :
    ∀ (s : Str) (b : Bool), countWordsFrom b (s ++ t) = countWordsFrom b s := by
  intro s
  induction s with
  | nil => intro b; rw [List.nil_append, countWordsFrom_of_all_ws b t ht]; rfl
  | cons x s ih =>
    intro b
    by_cases hx : isWhiteSpace x = true
    · rw [List.cons_append, countWordsFrom_cons_of_ws hx, countWordsFrom_cons_of_ws hx, ih]
    · have hx0 : isWhiteSpace x = false := by simpa using hx
      rw [List.cons_append, countWordsFrom_cons_of_noWs hx0, countWordsFrom_cons_of_noWs hx0, ih]

theorem countWords_rdropWhile (s : Str) :
    countWords (s.rdropWhile isWhiteSpace) = countWords s := by
  induction s using List.reverseRecOn with
  | nil => rfl
  | append_singleton l x ih =>
    by_cases hx : isWhiteSpace x = true
    · rw [List.rdropWhile_concat_pos _ _ _ hx, ih]
      unfold countWords
      rw [countWordsFrom_append_ws [x] (by simpa using hx)]
    · rw [List.rdropWhile_concat_neg _ _ _ hx]

theorem countWords_trim (s : Str) : countWords (trim s) = countWords s := by
  unfold trim
  rw [countWords_rdropWhile]
  exact countWordsFrom_dropWhile s

/-! ## Windows of words -/

theorem windows_eq_map (words : List Str) (m : Nat) :
    windows words m = (wordWindows words m).map joinSpace := by
  simp [windows, wordWindows]

theorem flatten_range_windows (l : List Str) (m : Nat) : ∀ k : Nat,
    ((List.range k).map (fun j => (l.drop (j * m)).take m)).flatten = l.take (k * m) := by
  intro k
  induction k with
  | zero => simp
  | succ k ih =>
    rw [List.range_succ, List.map_append, List.flatten_append, ih]
    simp only [List.map_cons, List.map_nil, List.flatten_cons, List.flatten_nil, List.append_nil]
    rw [Nat.succ_mul, List.take_add]

theorem ceil_mul_ge (n m : Nat) (hm : 1 ≤ m) : n ≤ (n + m - 1) / m * m := by
  have h1 := Nat.div_add_mod (n + m - 1) m
  have h2 := Nat.mod_lt (n + m - 1) (show 0 < m by omega)
  rw [Nat.mul_comm] at h1
  generalize (n + m - 1) / m * m = P at h1 ⊢
  omega

theorem pred_ceil_mul_lt (n m : Nat) (hk : 1 ≤ (n + m - 1) / m) :
    ((n + m - 1) / m - 1) * m < n := by
  have hm : 1 ≤ m := by
    by_contra h0
    have : m = 0 := by omega
    subst this
    simp at hk
  have h1 := Nat.div_mul_le_self (n + m - 1) m
  have h2 : ((n + m - 1) / m - 1) * m + m = (n + m - 1) / m * m := by
    rw [Nat.sub_mul, Nat.one_mul]
    have : m ≤ (n + m - 1) / m * m := Nat.le_mul_of_pos_left m (by omega)
    omega
  have hn : 1 ≤ n := by
    by_contra h0
    have : n = 0 := by omega
    subst this
    rw [Nat.zero_add, Nat.div_eq_of_lt (by omega)] at hk
    omega
  generalize ((n + m - 1) / m - 1) * m = Q at h2 ⊢
  generalize (n + m - 1) / m * m = P at h1 h2
  omega

theorem wordWindows_flatten (words : List Str) (m : Nat) (hm : 1 ≤ m) :
    (wordWindows words m).flatten = words := by
  unfold wordWindows
  rw [flatten_range_windows, List.take_of_length_le (ceil_mul_ge _ m hm)]

theorem wordWindows_getAt (words : List Str) (m j : Nat) (w : List Str)
    (h : (wordWindows words m).get? j = some w) :
    j < (words.length + m - 1) / m ∧ w = (words.drop (j * m)).take m := by
  have hj : j < (wordWindows words m).length := by
    by_contra hn
    rw [List.get?_eq_none.2 (Nat.le_of_not_lt hn)] at h
    cases h
  have hlen : (wordWindows words m).length = (words.length + m - 1) / m := by
    simp [wordWindows]
  rw [hlen] at hj
  refine ⟨hj, ?_⟩
  simp only [wordWindows, List.get?_eq_getElem?, List.getElem?_map] at h
  rw [List.getElem?_range hj] at h
  simpa using h.symm

/-! ## Texts of words joined by single spaces -/

theorem splitFrom_whiteSpace_word (s : Str) : ∀ (w cur : Str),
    (∀ x ∈ w, isWhiteSpace x = false) →
    splitFrom whiteSpaceRun 0 cur (w ++ s) = splitFrom whiteSpaceRun 0 (cur ++ w) s := by
  intro w
  induction w with
  | nil => intro cur _; simp
  | cons x w ih =>
    intro cur h
    have hx : isWhiteSpace x = false := h x (List.mem_cons_self _ _)
    rw [List.cons_append, splitFrom_whiteSpace_cons, if_neg (by simp [hx]),
      ih (cur ++ [x]) (fun y hy => h y (List.mem_cons_of_mem _ hy))]
    simp

theorem splitFrom_joinSpace : ∀ (ts : List Str), (∀ t ∈ ts, IsWord t) → ts ≠ [] →
    splitFrom whiteSpaceRun 0 [] (joinSpace ts) = ts := by
  intro ts
  induction ts with
  | nil => intro _ h; exact absurd rfl h
  | cons w ts ih =>
    intro h _
    have hw := h w (List.mem_cons_self _ _)
    cases ts with
    | nil =>
      have := splitFrom_whiteSpace_word [] w [] hw.2
      simp only [List.append_nil, List.nil_append] at this
      simp [joinSpace, this, splitFrom]
    | cons w2 ts =>
      have hrest : ∀ t ∈ w2 :: ts, IsWord t := fun t ht => h t (List.mem_cons_of_mem _ ht)
      have ih2 := ih hrest (List.cons_ne_nil _ _)
      rw [joinSpace_cons_of_ne_nil w (List.cons_ne_nil w2 ts), splitFrom_whiteSpace_word _ w [] hw.2,
        splitFrom_whiteSpace_cons, if_pos (by decide)]
      have hdrop : (joinSpace (w2 :: ts)).dropWhile isWhiteSpace = joinSpace (w2 :: ts) := by
        cases hj : joinSpace (w2 :: ts) with
        | nil => rfl
        | cons y ys =>
          have := @joinSpace_head w2 ts (h w2 (by simp)) y (by rw [hj]; rfl)
          simp [List.dropWhile_cons, this]
      rw [hdrop, ih2]
      simp

/-- Splitting at white space undoes joining words with single spaces. -/
theorem jsSplit_joinSpace {ts : List Str} (h : ∀ t ∈ ts, IsWord t) (hne : ts ≠ []) :
    jsSplit whiteSpaceRun (joinSpace ts) = ts := by
  have hj := joinSpace_ne_nil h hne
  cases hs : joinSpace ts with
  | nil => exact absurd hs hj
  | cons c s =>
    simp only [jsSplit]
    rw [← hs]
    exact splitFrom_joinSpace ts h hne

theorem joinSpace_append : ∀ (xs ys : List Str), xs ≠ [] → ys ≠ [] →
    joinSpace (xs ++ ys) = joinSpace xs ++ ' ' :: joinSpace ys := by
  intro xs
  induction xs with
  | nil => intro _ h _; exact absurd rfl h
  | cons x xs ih =>
    intro ys _ hy
    cases xs with
    | nil =>
      rw [List.singleton_append, joinSpace_cons_of_ne_nil x hy]
      rfl
    | cons x2 xs =>
      rw [List.cons_append, joinSpace_cons_of_ne_nil x (by simp),
        ih ys (List.cons_ne_nil _ _) hy, joinSpace_cons_of_ne_nil x (List.cons_ne_nil x2 xs)]
      simp

theorem joinSpace_map_joinSpace : ∀ (ls : List (List Str)), (∀ l ∈ ls, l ≠ []) →
    joinSpace (ls.map joinSpace) = joinSpace ls.flatten := by
  intro ls
  induction ls with
  | nil => intro _; rfl
  | cons l ls ih =>
    intro h
    have hl := h l (List.mem_cons_self _ _)
    have hrest : ∀ l2 ∈ ls, l2 ≠ [] := fun l2 hl2 => h l2 (List.mem_cons_of_mem _ hl2)
    cases ls with
    | nil => simp [joinSpace]
    | cons l2 ls =>
      have hflat : (l2 :: ls).flatten ≠ [] := by
        have := h l2 (by simp)
        simp only [List.flatten_cons, ne_eq, List.append_eq_nil, not_and]
        intro h0; exact absurd h0 this
      have e : (l :: l2 :: ls).flatten = l ++ (l2 :: ls).flatten := rfl
      rw [e, joinSpace_append l _ hl hflat, List.map_cons,
        joinSpace_cons_of_ne_nil _ (by simp), ih hrest]

/-- The chunks of the fallback for a text of single-spaced words: all chunks
but the last pass the threshold and are not changed by `trim`; joined by single
spaces they are the words before the last chunk, and with the last chunk the
whole text. -/
theorem windows_of_words {words : List Str} (hw : ∀ w ∈ words, IsWord w) (hne : words ≠ []) :
    ∃ init : List Str,
      windows words 500 =
        init ++ [joinSpace (words.drop (500 * ((words.length + 499) / 500 - 1)))] ∧
      (∀ c ∈ init, passes c = true ∧ trim c = c) ∧
      joinSpace init = joinSpace (words.take (500 * ((words.length + 499) / 500 - 1))) ∧
      joinSpace (init ++ [joinSpace (words.drop (500 * ((words.length + 499) / 500 - 1)))]) =
        joinSpace words := by
  have hn : 1 ≤ words.length := by
    cases words with
    | nil => exact absurd rfl hne
    | cons _ _ => simp
  have hk : 1 ≤ (words.length + 499) / 500 := by omega
  have hL : 500 * ((words.length + 499) / 500 - 1) < words.length := by omega
  have hnonempty : ∀ l ∈ (List.range ((words.length + 499) / 500 - 1)).map
      (fun j => (words.drop (j * 500)).take 500), l ≠ [] := by
    intro l hl
    simp only [List.mem_map, List.mem_range] at hl
    obtain ⟨j, hj, rfl⟩ := hl
    intro h0
    have := congrArg List.length h0
    simp only [List.length_take, List.length_drop, List.length_nil] at this
    omega
  have hinit : joinSpace ((List.range ((words.length + 499) / 500 - 1)).map
      (fun j => joinSpace ((words.drop (j * 500)).take 500))) =
      joinSpace (words.take (500 * ((words.length + 499) / 500 - 1))) := by
    have := joinSpace_map_joinSpace _ hnonempty
    rw [List.map_map, flatten_range_windows, Nat.mul_comm] at this
    exact this
  refine ⟨(List.range ((words.length + 499) / 500 - 1)).map
    (fun j => joinSpace ((words.drop (j * 500)).take 500)), ?_, ?_, hinit, ?_⟩
  · have hrange : List.range ((words.length + 499) / 500) =
        List.range ((words.length + 499) / 500 - 1) ++ [(words.length + 499) / 500 - 1] := by
      rw [← List.range_succ]
      congr 1
      omega
    have hlast : (words.drop (((words.length + 499) / 500 - 1) * 500)).take 500 =
        words.drop (500 * ((words.length + 499) / 500 - 1)) := by
      rw [Nat.mul_comm]
      apply List.take_of_length_le
      simp only [List.length_drop]
      omega
    simp only [windows, show words.length + 500 - 1 = words.length + 499 by omega]
    rw [hrange, List.map_append, List.map_singleton, hlast]
  · intro c hc
    simp only [List.mem_map, List.mem_range] at hc
    obtain ⟨j, hj, rfl⟩ := hc
    have hslice := isWord_of_mem_slice hw (j * 500) 500
    have htrim := trim_joinSpace _ hslice
    refine ⟨?_, htrim⟩
    have h1 := le_jsLength (joinSpace ((words.drop (j * 500)).take 500))
    have h2 := length_le_joinSpace _ hslice
    simp only [List.length_take, List.length_drop] at h2
    simp only [passes, htrim, decide_eq_true_eq]
    omega
  · by_cases h1 : (words.length + 499) / 500 - 1 = 0
    · simp [h1, joinSpace]
    · have htake : words.take (500 * ((words.length + 499) / 500 - 1)) ≠ [] := by
        intro h0
        have := congrArg List.length h0
        simp only [List.length_take, List.length_nil] at this
        omega
      have hdrop : words.drop (500 * ((words.length + 499) / 500 - 1)) ≠ [] := by
        intro h0
        have := congrArg List.length h0
        simp only [List.length_drop, List.length_nil] at this
        omega
      have hne2 : (List.range ((words.length + 499) / 500 - 1)).map
          (fun j => joinSpace ((words.drop (j * 500)).take 500)) ≠ [] := by
        intro h0
        have := congrArg List.length h0
        simp only [List.length_map, List.length_range, List.length_nil] at this
        exact h1 this
      rw [joinSpace_append _ _ hne2 (by simp), hinit]
      have e : joinSpace [joinSpace (words.drop (500 * ((words.length + 499) / 500 - 1)))] =
          joinSpace (words.drop (500 * ((words.length + 499) / 500 - 1))) := rfl
      rw [e, ← joinSpace_append _ _ htake hdrop, List.take_append_drop]

theorem storyWords_isWord : ∀ w ∈ storyWords, IsWord w := by
  intro w hw
  simp only [storyWords, List.map_cons, List.map_nil, List.mem_cons, List.mem_singleton,
    List.not_mem_nil, or_false] at hw
  rcases hw with rfl | rfl | rfl | rfl | rfl | rfl | rfl | rfl | rfl | rfl | rfl | rfl | rfl |
    rfl | rfl <;> exact ⟨by decide, by decide⟩

/-! ## Fragments hold no match of the pattern -/

theorem untilMatch_spec (pat : Pattern) : ∀ (s : Str), ∃ rest, s = untilMatch pat s ++ rest ∧
    ∀ t, t ≠ [] → t <:+ untilMatch pat s → matchAt pat (t ++ rest) = none := by
  intro s
  induction s with
  | nil => exact ⟨[], rfl, fun t hne ht => absurd (List.suffix_nil.1 ht) hne⟩
  | cons c s ih =>
    cases hm : matchAt pat (c :: s) with
    | some mr =>
      refine ⟨c :: s, by simp [untilMatch, hm], ?_⟩
      intro t hne ht
      simp only [untilMatch, hm] at ht
      exact absurd (List.suffix_nil.1 ht) hne
    | none =>
      obtain ⟨rest, hs, hnone⟩ := ih
      refine ⟨rest, by simp only [untilMatch, hm, List.cons_append]; rw [← hs], ?_⟩
      intro t hne ht
      simp only [untilMatch, hm] at ht
      rcases List.suffix_cons_iff.1 ht with rfl | ht
      · rw [List.cons_append, ← hs]; exact hm
      · exact hnone t hne ht

theorem matchCount_eq_zero_of_none {pat : Pattern} (hp : pat ≠ []) {g : Str}
    (h : ∀ t, t ≠ [] → t <:+ g → matchAt pat t = none) : matchCount pat g = 0 := by
  have := scan_append_of_none pat [] g (fun t hne ht => by
    rw [List.append_nil]; exact h t hne ht)
  rw [matchCount_eq_segments hp]
  simpa [segmentsFrom] using congrArg List.length this.2

/-- A stretch of text in which no match starts, followed by `rest`, has no match
in any of its infixes either: a match found in an infix alone would also be
found at that place of the whole text. -/
theorem matchCount_eq_zero_of_part {pat : Pattern} (hp : pat ≠ []) {f g rest : Str}
    (h : ∀ t, t ≠ [] → t <:+ f → matchAt pat (t ++ rest) = none) (hg : g <:+: f) :
    matchCount pat g = 0 := by
  apply matchCount_eq_zero_of_none hp
  intro u hne hu
  obtain ⟨a, b, hab⟩ := hg
  obtain ⟨v, hv⟩ := hu
  cases hm : matchAt pat u with
  | none => rfl
  | some mr =>
    obtain ⟨m, r⟩ := mr
    have hmatches := matchAt_matches _ _ _ _ hm
    have happ := matchAt_append _ _ _ _ hm
    have hsome := matchAt_isSome_of_matches hmatches (r ++ b ++ rest)
    have hsuf : (u ++ b) <:+ f := ⟨a ++ v, by rw [← hab, ← hv]; simp⟩
    have hnone := h (u ++ b) (by simp [hne]) hsuf
    rw [← happ] at hnone
    simp only [List.append_assoc] at hnone hsome
    rw [hnone] at hsome
    cases hsome

theorem trim_part (s : Str) : trim s <:+: s := by
  unfold trim
  obtain ⟨a, ha⟩ := List.dropWhile_suffix (l := s) isWhiteSpace
  obtain ⟨b, hb⟩ := List.rdropWhile_prefix isWhiteSpace (s.dropWhile isWhiteSpace)
  exact ⟨a, b, by rw [List.append_assoc, hb, ha]⟩

theorem segmentsFrom_snd (pat : Pattern) : ∀ (s : Str) (n : Nat),
    ∀ mf ∈ segmentsFrom pat n s, ∃ r, mf.2 = untilMatch pat r := by
  intro s
  induction s with
  | nil => intro n mf h; cases n <;> simp [segmentsFrom] at h
  | cons c s ih =>
    intro n mf h
    cases n with
    | succ n => simp only [segmentsFrom] at h; exact ih n mf h
    | zero =>
      simp only [segmentsFrom] at h
      split at h
      · rename_i m r _
        rcases List.mem_cons.1 h with rfl | h
        · exact ⟨r, rfl⟩
        · exact ih _ mf h
      · exact ih 0 mf h

theorem jsSplit_fragment_no_match {pat : Pattern} (hp : pat ≠ []) (text : Str) :
    ∀ f ∈ jsSplit pat text, matchCount pat (trim f) = 0 := by
  intro f hf
  rw [jsSplit_eq_segments hp] at hf
  have hr : ∃ r, f = untilMatch pat r := by
    rcases List.mem_cons.1 hf with rfl | hf
    · exact ⟨text, rfl⟩
    · obtain ⟨mf, hmf, rfl⟩ := List.mem_map.1 hf
      exact segmentsFrom_snd pat text 0 mf hmf
  obtain ⟨r, rfl⟩ := hr
  obtain ⟨rest, _, hnone⟩ := untilMatch_spec pat r
  exact matchCount_eq_zero_of_part hp hnone (trim_part _)

/-! ## Tokens between the first and the last -/

theorem dropLast_ne_nil_of_head {R : List Str} (hhead : ∀ t, R.head? = some t → t ≠ [])
    (hmid : ∀ t ∈ R.tail.dropLast, t ≠ []) : ∀ t ∈ R.dropLast, t ≠ [] := by
  intro t ht
  cases R with
  | nil => simp at ht
  | cons h tl =>
    cases tl with
    | nil => simp at ht
    | cons h2 tl =>
      rw [List.dropLast_cons_of_ne_nil (List.cons_ne_nil h2 tl)] at ht
      rcases List.mem_cons.1 ht with rfl | ht
      · exact hhead _ rfl
      · exact hmid t ht

/-- The tokens of `split(/\s+/)` other than the first and the last are not
empty; the first is not empty either when the text does not start with white
space. -/
theorem splitFrom_whiteSpace_interior : ∀ (k : Nat) (s cur : Str), s.length ≤ k →
    (∀ t ∈ (splitFrom whiteSpaceRun 0 cur s).tail.dropLast, t ≠ []) ∧
    ((cur ≠ [] ∨ ∃ c s1, s = c :: s1 ∧ isWhiteSpace c = false) →
      ∀ t, (splitFrom whiteSpaceRun 0 cur s).head? = some t → t ≠ []) := by
  intro k
  induction k with
  | zero =>
    intro s cur h
    have : s = [] := List.length_eq_zero.1 (by omega)
    subst this
    refine ⟨by simp [splitFrom], ?_⟩
    intro hc t ht
    simp only [splitFrom, List.head?_cons, Option.some.injEq] at ht
    subst ht
    rcases hc with hc | ⟨c, s1, h1, _⟩
    · exact hc
    · cases h1
  | succ k ih =>
    intro s cur h
    cases s with
    | nil =>
      refine ⟨by simp [splitFrom], ?_⟩
      intro hc t ht
      simp only [splitFrom, List.head?_cons, Option.some.injEq] at ht
      subst ht
      rcases hc with hc | ⟨c, s1, h1, _⟩
      · exact hc
      · cases h1
    | cons c s =>
      rw [splitFrom_whiteSpace_cons]
      by_cases hc : isWhiteSpace c = true
      · rw [if_pos hc]
        have hlen : (s.dropWhile isWhiteSpace).length ≤ k := by
          have := (List.dropWhile_suffix (l := s) isWhiteSpace).length_le
          simp at h; omega
        obtain ⟨h1, h2⟩ := ih (s.dropWhile isWhiteSpace) [] hlen
        constructor
        · simp only [List.tail_cons]
          cases hd : s.dropWhile isWhiteSpace with
          | nil => simp [splitFrom]
          | cons d s2 =>
            rw [← hd]
            apply dropLast_ne_nil_of_head _ h1
            apply h2
            right
            refine ⟨d, s2, hd, ?_⟩
            have hne : s.dropWhile isWhiteSpace ≠ [] := by rw [hd]; simp
            have := List.head_dropWhile_not isWhiteSpace s hne
            simpa [hd] using this
        · intro hcur t ht
          simp only [List.head?_cons, Option.some.injEq] at ht
          subst ht
          rcases hcur with hcur | ⟨c1, s1, h3, h4⟩
          · exact hcur
          · simp only [List.cons.injEq] at h3
            rw [← h3.1, hc] at h4
            cases h4
      · rw [if_neg hc]
        obtain ⟨h1, h2⟩ := ih s (cur ++ [c]) (by simpa using h)
        exact ⟨h1, fun _ => h2 (Or.inl (by simp))⟩

theorem mem_tail_dropLast {T : List Str} {i : Nat} {t : Str} (h : T[i]? = some t)
    (h0 : 0 < i) (h1 : i + 1 < T.length) : t ∈ T.tail.dropLast := by
  rw [List.dropLast_eq_take]
  apply List.getElem?_mem (n := i - 1)
  rw [List.getElem?_take_of_lt (by simp; omega), List.getElem?_tail]
  rw [show i - 1 + 1 = i by omega]
  exact h

/-- The tokens of a text other than the first and the last are words. -/
theorem jsSplit_whiteSpace_interior (text : Str) (i : Nat) (t : Str)
    (h : (jsSplit whiteSpaceRun text)[i]? = some t) (h0 : 0 < i)
    (h1 : i + 1 < (jsSplit whiteSpaceRun text).length) : IsWord t := by
  have hmem : t ∈ jsSplit whiteSpaceRun text := List.getElem?_mem h
  refine ⟨?_, jsSplit_whiteSpace_noWs text t hmem⟩
  have hmid := mem_tail_dropLast h h0 h1
  cases text with
  | nil => simp [jsSplit, matchAt, whiteSpaceRun] at h1
  | cons c s =>
    simp only [jsSplit] at hmid
    exact (splitFrom_whiteSpace_interior _ (c :: s) [] (Nat.le_refl _)).1 t hmid

/-- A window of 500 tokens that is followed by a further token is longer than
50 code units after trimming: its tokens after the first are 499 words. -/
theorem window_passes (text : Str) (j : Nat)
    (h : (j + 1) * 500 < (jsSplit whiteSpaceRun text).length) :
    50 < jsLength (trim (joinSpace (((jsSplit whiteSpaceRun text).drop (j * 500)).take 500))) := by
  have hwords : ∀ t ∈ (((jsSplit whiteSpaceRun text).drop (j * 500)).take 500).tail, IsWord t := by
    intro t ht
    obtain ⟨i, hi⟩ := List.mem_iff_getElem?.1 ht
    rw [List.getElem?_tail] at hi
    by_cases hlt : i + 1 < 500
    · rw [List.getElem?_take_of_lt hlt, List.getElem?_drop] at hi
      exact jsSplit_whiteSpace_interior text _ t hi (by omega) (by omega)
    · have hlen : (((jsSplit whiteSpaceRun text).drop (j * 500)).take 500).length ≤ i + 1 := by
        rw [List.length_take]; omega
      rw [List.getElem?_eq_none hlen] at hi
      cases hi
  have hlen : (((jsSplit whiteSpaceRun text).drop (j * 500)).take 500).tail.length = 499 := by
    rw [List.length_tail, List.length_take, List.length_drop]; omega
  have h1 := length_le_joinSpace _ hwords
  have h2 := le_jsLength (joinSpace (((jsSplit whiteSpaceRun text).drop (j * 500)).take 500).tail)
  have h3 := jsLength_trim_le_of_sublist
    (joinSpace_sublist (List.tail_sublist (((jsSplit whiteSpaceRun text).drop (j * 500)).take 500)))
  rw [trim_joinSpace _ hwords] at h3
  omega

/-- When every fragment but the last passes the threshold, the ids run over
consecutive indices. -/
theorem pushChapters_ids_init (last : Str) : ∀ (init : List Str) (index : Nat),
    (∀ c ∈ init, 50 < jsLength (trim c)) →
    (pushChapters index (init ++ [last])).map Chapter.id =
      (List.range' index (init.length + (if 50 < jsLength (trim last) then 1 else 0))).map
        (fun i => "chapter-".toList ++ decimal (i + 1)) := by
  intro init
  induction init with
  | nil =>
    intro index _
    by_cases hl : 50 < jsLength (trim last)
    · simp [pushChapters, hl, mkChapter]
    · simp [pushChapters, hl]
  | cons c init ih =>
    intro index h
    have hc : 50 < jsLength (trim c) := h c (List.mem_cons_self _ _)
    rw [List.cons_append, pushChapters, if_pos hc, List.map_cons,
      ih (index + 1) (fun x hx => h x (List.mem_cons_of_mem _ hx))]
    rw [List.length_cons, show init.length + 1 + (if 50 < jsLength (trim last) then 1 else 0) =
      (init.length + (if 50 < jsLength (trim last) then 1 else 0)) + 1 by omega,
      List.range'_succ, List.map_cons]
    rfl

/-! ## The pattern of the numbered items -/

/-- A match of `/\d+\./` is a non-empty run of digits followed by `.`. -/
theorem matchAt_numberMarker : ∀ (s m r : Str), matchAt numberMarker s = some (m, r) →
    ∃ ds, ds ≠ [] ∧ (∀ d ∈ ds, isDigit d = true) ∧ m = ds ++ ['.'] := by
  intro s
  induction s with
  | nil => intro m r h; simp [numberMarker, matchAt] at h
  | cons c s ih =>
    intro m r h
    rw [numberMarker, matchAt_plus_cons] at h
    by_cases hc : isDigit c = true
    · rw [if_pos hc] at h
      cases h1 : matchAt [Item.plus isDigit, Item.one (isChar '.')] s with
      | some mr =>
        obtain ⟨m1, r1⟩ := mr
        rw [h1] at h
        simp only [Option.orElse, Option.map, consMatch, Option.some.injEq, Prod.mk.injEq] at h
        obtain ⟨ds, hne, hds, hm⟩ := ih m1 r1 h1
        refine ⟨c :: ds, List.cons_ne_nil _ _, ?_, ?_⟩
        · intro d hd
          rcases List.mem_cons.1 hd with rfl | hd
          · exact hc
          · exact hds d hd
        · rw [← h.1, hm]; rfl
      | none =>
        rw [h1] at h
        simp only [Option.orElse] at h
        cases s with
        | nil => simp [matchAt] at h
        | cons b s =>
          rw [matchAt_one_cons] at h
          by_cases hb : isChar '.' b = true
          · rw [if_pos hb] at h
            simp only [matchAt, Option.map, consMatch, Option.some.injEq, Prod.mk.injEq] at h
            have hb2 : b = '.' := by simpa [isChar] using hb
            refine ⟨[c], List.cons_ne_nil _ _, ?_, ?_⟩
            · intro d hd
              rw [List.mem_singleton.1 hd]; exact hc
            · rw [← h.1, hb2]; rfl
          · rw [if_neg hb] at h
            simp at h
    · rw [if_neg hc] at h
      cases h

/-- A digit followed by `.` starts a match of `/\d+\./`. -/
theorem matchAt_numberMarker_digit_dot (c : Char) (rest : Str) (hc : isDigit c = true) :
    matchAt numberMarker (c :: '.' :: rest) = some ([c, '.'], rest) := by
  rw [numberMarker, matchAt_plus_cons, if_pos hc, matchAt_plus_cons,
    if_neg (by decide), matchAt_one_cons, if_pos (by decide)]
  simp [matchAt, consMatch]

/-- A digit before a match of `/\d+\./` starts a match as well. -/
theorem matchAt_numberMarker_cons (c : Char) (s : Str) (hc : isDigit c = true)
    (h : (matchAt numberMarker s).isSome = true) :
    (matchAt numberMarker (c :: s)).isSome = true := by
  rw [numberMarker, matchAt_plus_cons, if_pos hc]
  rw [numberMarker] at h
  obtain ⟨mr, hmr⟩ := Option.isSome_iff_exists.1 h
  rw [hmr]
  rfl

theorem digitDotCount_dot (r : Str) : digitDotCount ('.' :: r) = digitDotCount r := by
  cases r with
  | nil => rfl
  | cons b r =>
    rw [digitDotCount]
    have : isDigit '.' = false := by decide
    simp [this]

theorem digitDotCount_match : ∀ (ds : Str), ds ≠ [] → (∀ d ∈ ds, isDigit d = true) →
    ∀ r, digitDotCount (ds ++ '.' :: r) = 1 + digitDotCount r := by
  intro ds
  induction ds with
  | nil => intro h; exact absurd rfl h
  | cons d ds ih =>
    intro _ hds r
    cases ds with
    | nil =>
      have hd : isDigit d = true := hds d (List.mem_cons_self _ _)
      simp only [List.nil_append, List.cons_append, digitDotCount, hd, digitDotCount_dot]
      simp
    | cons d2 ds =>
      have hd2 : isDigit d2 = true := hds d2 (by simp)
      have hne : (d2 == '.') = false := by
        rw [beq_eq_false_iff_ne]
        intro h; rw [h] at hd2; revert hd2; decide
      have := ih (List.cons_ne_nil _ _) (fun x hx => hds x (List.mem_cons_of_mem _ hx)) r
      simp only [List.cons_append] at this ⊢
      rw [digitDotCount, this, hne]
      simp

theorem digitDotCount_of_none (c : Char) (s : Str) (h : matchAt numberMarker (c :: s) = none) :
    digitDotCount (c :: s) = digitDotCount s := by
  cases s with
  | nil => rfl
  | cons b rest =>
    rw [digitDotCount]
    by_cases hc : isDigit c = true
    · by_cases hb : b = '.'
      · subst hb
        rw [matchAt_numberMarker_digit_dot c rest hc] at h
        cases h
      · have : (b == '.') = false := by rw [beq_eq_false_iff_ne]; exact hb
        simp [this]
    · simp [hc]

/-- The pattern `/\d+\./` has one match for each digit run that is followed
by `.`. -/
theorem segmentsFrom_numberMarker_length : ∀ (k : Nat) (s : Str), s.length ≤ k →
    (segmentsFrom numberMarker 0 s).length = digitDotCount s := by
  intro k
  induction k with
  | zero =>
    intro s h
    have : s = [] := List.length_eq_zero.1 (by omega)
    subst this; rfl
  | succ k ih =>
    intro s h
    cases s with
    | nil => rfl
    | cons c s =>
      cases hm : matchAt numberMarker (c :: s) with
      | none =>
        rw [digitDotCount_of_none c s hm]
        simp only [segmentsFrom, hm]
        exact ih s (by simpa using h)
      | some mr =>
        obtain ⟨m, r⟩ := mr
        have hne : numberMarker ≠ [] := by simp [numberMarker]
        rw [segmentsFrom_of_match hne hm, List.length_cons]
        have happ := matchAt_append _ _ _ _ hm
        obtain ⟨ds, hds, hdig, hmd⟩ := matchAt_numberMarker _ _ _ hm
        have hmne := matchAt_ne_nil hne hm
        have hlen : r.length ≤ k := by
          have h1 : (m ++ r).length = (c :: s).length := by rw [happ]
          rw [List.length_append] at h1
          have h2 : 0 < m.length := List.length_pos.2 hmne
          omega
        rw [ih r hlen, ← happ, hmd, List.append_assoc, List.singleton_append,
          digitDotCount_match ds hds hdig]
        omega

theorem matchCount_numberMarker (text : Str) :
    matchCount numberMarker text = digitDotCount text := by
  rw [matchCount_eq_segments (by simp [numberMarker])]
  exact segmentsFrom_numberMarker_length _ text (Nat.le_refl _)

/-- Every match listed by `segmentsFrom` is a match of the pattern somewhere. -/
theorem segmentsFrom_fst (pat : Pattern) : ∀ (s : Str) (n : Nat),
    ∀ mf ∈ segmentsFrom pat n s, ∃ t r, matchAt pat t = some (mf.1, r) := by
  intro s
  induction s with
  | nil => intro n mf h; cases n <;> simp [segmentsFrom] at h
  | cons c s ih =>
    intro n mf h
    cases n with
    | succ n => simp only [segmentsFrom] at h; exact ih n mf h
    | zero =>
      simp only [segmentsFrom] at h
      split at h
      · rename_i m r hm
        rcases List.mem_cons.1 h with rfl | h
        · exact ⟨_, r, hm⟩
        · exact ih _ mf h
      · exact ih 0 mf h

/-- The text before the first match does not end in a character that would
extend the match to the left. -/
theorem untilMatch_getLast (pat : Pattern) (q : Char → Bool)
    (hext : ∀ c s, q c = true → (matchAt pat s).isSome = true →
      (matchAt pat (c :: s)).isSome = true) :
    ∀ (s : Str), segmentsFrom pat 0 s ≠ [] →
      ∀ c, (untilMatch pat s).getLast? = some c → q c = false := by
  intro s
  induction s with
  | nil => intro h; exact absurd rfl h
  | cons a s ih =>
    intro hseg c hc
    cases hm : matchAt pat (a :: s) with
    | some mr =>
      rw [untilMatch_of_match hm] at hc
      cases hc
    | none =>
      have hseg2 : segmentsFrom pat 0 s ≠ [] := by
        simpa only [segmentsFrom, hm] using hseg
      simp only [untilMatch, hm] at hc
      cases hu : untilMatch pat s with
      | nil =>
        rw [hu] at hc
        simp only [List.getLast?_singleton, Option.some.injEq] at hc
        subst hc
        cases s with
        | nil => exact absurd rfl hseg2
        | cons b s =>
          cases hm2 : matchAt pat (b :: s) with
          | none => simp [untilMatch, hm2] at hu
          | some mr =>
            cases hq : q a with
            | false => rfl
            | true =>
              have := hext a (b :: s) hq (by rw [hm2]; rfl)
              rw [hm] at this
              cases this
      | cons u us =>
        rw [hu, List.getLast?_cons_cons] at hc
        exact ih hseg2 c (by rw [hu]; exact hc)

/-- No fragment that is followed by a further match ends in a character that
would extend that match to the left. -/
theorem segmentsFrom_getLast {pat : Pattern} (hp : pat ≠ []) (q : Char → Bool)
    (hext : ∀ c s, q c = true → (matchAt pat s).isSome = true →
      (matchAt pat (c :: s)).isSome = true) :
    ∀ (k : Nat) (s : Str), s.length ≤ k →
      ∀ f ∈ ((segmentsFrom pat 0 s).map Prod.snd).dropLast,
        ∀ c, f.getLast? = some c → q c = false := by
  intro k
  induction k with
  | zero =>
    intro s h
    have : s = [] := List.length_eq_zero.1 (by omega)
    subst this
    intro f hf; simp [segmentsFrom] at hf
  | succ k ih =>
    intro s h
    cases s with
    | nil => intro f hf; simp [segmentsFrom] at hf
    | cons a s =>
      cases hm : matchAt pat (a :: s) with
      | none =>
        simp only [segmentsFrom, hm]
        exact ih s (by simpa using h)
      | some mr =>
        obtain ⟨m, r⟩ := mr
        rw [segmentsFrom_of_match hp hm]
        have happ := matchAt_append _ _ _ _ hm
        have hmne := matchAt_ne_nil hp hm
        have hlen : r.length ≤ k := by
          have h1 : (m ++ r).length = (a :: s).length := by rw [happ]
          rw [List.length_append] at h1
          have h2 : 0 < m.length := List.length_pos.2 hmne
          omega
        intro f hf c hc
        cases hr : segmentsFrom pat 0 r with
        | nil => rw [hr] at hf; simp at hf
        | cons x xs =>
          have hne : (segmentsFrom pat 0 r).map Prod.snd ≠ [] := by rw [hr]; simp
          rw [List.map_cons, List.dropLast_cons_of_ne_nil hne] at hf
          rcases List.mem_cons.1 hf with rfl | hf
          · exact untilMatch_getLast pat q hext r (by rw [hr]; simp) c hc
          · exact ih r hlen f hf c hc

/-! ## The replacements of `cleanExtractedText` -/

/-- Every character of the result of a `replace` comes from the replacement or
from the text. -/
theorem mem_replaceFrom (matchFn : Str → Option (Str × Str)) (rep : Str) :
    ∀ (s : Str) (n : Nat), ∀ x ∈ replaceFrom matchFn rep n s, x ∈ rep ∨ x ∈ s := by
  intro s
  induction s with
  | nil =>
    intro n x hx
    cases n with
    | zero =>
      simp only [replaceFrom] at hx
      split at hx
      · exact Or.inl hx
      · cases hx
    | succ n => simp [replaceFrom] at hx
  | cons c s ih =>
    intro n x hx
    cases n with
    | succ n =>
      simp only [replaceFrom] at hx
      rcases ih n x hx with h | h
      · exact Or.inl h
      · exact Or.inr (List.mem_cons_of_mem _ h)
    | zero =>
      simp only [replaceFrom] at hx
      split at hx
      · rcases List.mem_append.1 hx with h | h
        · exact Or.inl h
        · rcases List.mem_cons.1 h with h | h
          · exact Or.inr (h ▸ List.mem_cons_self _ _)
          · rcases ih 0 x h with h | h
            · exact Or.inl h
            · exact Or.inr (List.mem_cons_of_mem _ h)
      · rcases List.mem_append.1 hx with h | h
        · exact Or.inl h
        · rcases ih _ x h with h | h
          · exact Or.inl h
          · exact Or.inr (List.mem_cons_of_mem _ h)
      · rcases List.mem_cons.1 hx with h | h
        · exact Or.inr (h ▸ List.mem_cons_self _ _)
        · rcases ih 0 x h with h | h
          · exact Or.inl h
          · exact Or.inr (List.mem_cons_of_mem _ h)

/-- The second `replace` of `cleanExtractedText` leaves no special character. -/
theorem replaceFrom_specialChar : ∀ (s : Str) (n : Nat),
    ∀ x ∈ replaceFrom (matchAt specialChar) [] n s, isSpecialChar x = false := by
  intro s
  induction s with
  | nil =>
    intro n x hx
    cases n <;> simp [replaceFrom, specialChar, matchAt] at hx
  | cons c s ih =>
    intro n x hx
    cases n with
    | succ n =>
      simp only [replaceFrom] at hx
      exact ih n x hx
    | zero =>
      simp only [replaceFrom] at hx
      have hm : matchAt specialChar (c :: s) =
          if isSpecialChar c then some ([c], s) else none := by
        rw [specialChar, matchAt_one_cons]
        split <;> simp [matchAt, consMatch]
      by_cases hc : isSpecialChar c = true
      · rw [hm, if_pos hc] at hx
        simp only [List.nil_append, List.length_singleton, Nat.sub_self] at hx
        exact ih 0 x hx
      · rw [hm, if_neg hc] at hx
        rcases List.mem_cons.1 hx with h | h
        · rw [h]; simpa using hc
        · exact ih 0 x h

/-- A `replace` whose replacement starts with a character that is not white
space does not put white space at the start of a text that has none there. -/
theorem replaceFrom_head (matchFn : Str → Option (Str × Str)) (x : Char) (rep : Str)
    (hx : isWhiteSpace x = false) (s : Str)
    (hs : ∀ c, s.head? = some c → isWhiteSpace c = false) :
    ∀ c, (jsReplace matchFn (x :: rep) s).head? = some c → isWhiteSpace c = false := by
  intro c hc
  unfold jsReplace at hc
  cases s with
  | nil =>
    simp only [replaceFrom] at hc
    split at hc
    · simp only [List.head?_cons, Option.some.injEq] at hc
      rw [← hc]; exact hx
    · cases hc
  | cons a s =>
    simp only [replaceFrom] at hc
    split at hc
    · simp only [List.cons_append, List.head?_cons, Option.some.injEq] at hc
      rw [← hc]; exact hx
    · simp only [List.cons_append, List.head?_cons, Option.some.injEq] at hc
      rw [← hc]; exact hx
    · simp only [List.head?_cons, Option.some.injEq] at hc
      rw [← hc]; exact hs a rfl

/-- The result of `cleanExtractedText` never starts with white space. -/
theorem cleanExtractedText_head (text : Str) :
    ∀ c, (cleanExtractedText text).head? = some c → isWhiteSpace c = false := by
  unfold cleanExtractedText
  split
  · intro c hc; cases hc
  · exact replaceFrom_head _ '!' _ (by decide) _
      (replaceFrom_head _ '?' _ (by decide) _
        (replaceFrom_head _ '.' _ (by decide) _ (fun c h => trim_head c h)))

/-! ## The keywords of `extractVisualElements` -/

theorem jsIncludes_iff (text keyword : Str) :
    jsIncludes text keyword = true ↔ keyword <:+: text := by
  unfold jsIncludes
  rw [List.any_eq_true, List.infix_iff_prefix_suffix]
  constructor
  · rintro ⟨t, ht, hk⟩
    exact ⟨t, List.isPrefixOf_iff_prefix.1 hk, (List.mem_tails _ _).1 ht⟩
  · rintro ⟨t, hk, ht⟩
    exact ⟨t, (List.mem_tails _ _).2 ht, List.isPrefixOf_iff_prefix.2 hk⟩

/-- Pushing the elements that pass a test, one by one, gives the filtered
list. -/
theorem foldl_push_eq_filter {α : Type} (p : α → Bool) : ∀ (l acc : List α),
    l.foldl (fun elements x => if p x then elements ++ [x] else elements) acc =
      acc ++ l.filter p := by
  intro l
  induction l with
  | nil => intro acc; simp
  | cons a l ih =>
    intro acc
    rw [List.foldl_cons, ih]
    by_cases h : p a = true
    · simp [h]
    · simp [h]

/-- The first `n` elements of a filtered list are the filtered elements of an
initial part of the list, which is the whole list unless `n` elements were
found. -/
theorem take_filter_eq {α : Type} (p : α → Bool) : ∀ (l : List α) (n : Nat),
    ∃ m, m ≤ l.length ∧ (l.filter p).take n = (l.take m).filter p ∧
      (m = l.length ∨ ((l.take m).filter p).length = n) := by
  intro l
  induction l with
  | nil => intro n; exact ⟨0, Nat.le_refl _, by simp, Or.inl rfl⟩
  | cons a l ih =>
    intro n
    by_cases h : p a = true
    · cases n with
      | zero => exact ⟨0, Nat.zero_le _, by simp, Or.inr (by simp)⟩
      | succ n =>
        obtain ⟨m, hm, h1, h2⟩ := ih n
        refine ⟨m + 1, by simpa using hm, ?_, ?_⟩
        · simp [List.filter_cons, h, h1]
        · rcases h2 with h2 | h2
          · exact Or.inl (by simp [h2])
          · exact Or.inr (by simp [List.filter_cons, h, h2])
    · obtain ⟨m, hm, h1, h2⟩ := ih n
      refine ⟨m + 1, by simpa using hm, ?_, ?_⟩
      · simp [List.filter_cons, h, h1]
      · rcases h2 with h2 | h2
        · exact Or.inl (by simp [h2])
        · exact Or.inr (by simp [List.filter_cons, h, h2])

theorem extractVisualElements_eq (toLowerCase : Str → Str) (content : Str) :
    extractVisualElements toLowerCase content =
      (visualKeywords.filter (fun k => jsIncludes (toLowerCase content) k)).take 3 := by
  unfold extractVisualElements
  rw [foldl_push_eq_filter (fun k => jsIncludes (toLowerCase content) k)]
  rfl

/-- Four keywords occur in the example; the first three in table order are
returned, whatever their order in the content. -/
theorem extractVisualElements_example :
    extractVisualElements asciiLower
        "The Dragon flew over the CASTLE and the forest to the moon".toList =
      ["forest".toList, "castle".toList, "dragon".toList] := by
  decide

/-! ## The claims -/

/-- C1: every chapter returned by `splitIntoChapters` comes from a candidate
fragment whose trimmed text is longer than 50; its content is already trimmed
and longer than 50, so it is the trimmed text of no fragment of trimmed length
50 or less. -/
theorem C1_content_trimmed_and_long (text : Str) :
    ∃ frags chs, candidateFragments text = some frags ∧ splitIntoChapters text = some chs ∧
      ∀ c ∈ chs, (∃ f ∈ frags, c.content = trim f ∧ 50 < jsLength (trim f)) ∧
        trim c.content = c.content ∧ 50 < jsLength c.content ∧
        ∀ g : Str, jsLength (trim g) ≤ 50 → c.content ≠ trim g := by
  obtain ⟨frags, hf⟩ := candidateFragments_total text
  refine ⟨frags, _, hf, splitIntoChapters_eq hf, ?_⟩
  intro c hc
  obtain ⟨j, f, hj, hlen, rfl⟩ := mem_pushChapters frags 0 hc
  refine ⟨⟨f, List.get?_mem hj, rfl, hlen⟩, trim_idem f, hlen, ?_⟩
  intro g hg heq
  simp only [mkChapter] at heq
  rw [heq] at hlen
  omega

theorem C1_content_trimmed_and_long_witness :
    ∃ frags chs c, candidateFragments twoChaptersText = some frags ∧
      splitIntoChapters twoChaptersText = some chs ∧ c ∈ chs ∧
      (∃ f ∈ frags, c.content = trim f ∧ 50 < jsLength (trim f)) ∧
      trim c.content = c.content ∧ 50 < jsLength c.content := by
  obtain ⟨frags, chs, h1, h2, h3⟩ := C1_content_trimmed_and_long twoChaptersText
  have hlen : (splitIntoChapters twoChaptersText).map List.length = some 2 := by decide
  rw [h2] at hlen
  simp only [Option.map_some', Option.some.injEq] at hlen
  obtain ⟨c, hc⟩ := List.exists_mem_of_length_pos (l := chs) (by omega)
  obtain ⟨h4, h5, h6, _⟩ := h3 c hc
  exact ⟨frags, chs, c, h1, h2, hc, h4, h5, h6⟩

/-- C2 fails as stated: the text starts with its first heading, so the first
candidate fragment is the empty text before `Chapter 1`; it is dropped and
still takes number 1, and the two chapters returned are `chapter-2` and
`chapter-3`. -/
theorem C2_ids_not_contiguous_from_one :
    (splitIntoChapters twoChaptersText).map (List.map (fun c => (c.id, c.title))) =
      some [("chapter-2".toList, "Chapter 2".toList), ("chapter-3".toList, "Chapter 3".toList)] ∧
    "chapter-2".toList ≠ "chapter-1".toList := by
  decide

/-- C2, amended: the chapter returned at position `k` (0-based) comes from a
candidate fragment at some position `i` such that exactly `k` of the fragments
before it pass the threshold; its id is `chapter-(i+1)` and its title
`Chapter (i+1)`: the number counts the dropped fragments before it as well. -/
theorem C2_ids_follow_fragment_positions (text : Str) :
    ∃ frags chs, candidateFragments text = some frags ∧ splitIntoChapters text = some chs ∧
      ∀ k, k < chs.length → ∃ i f c, frags.get? i = some f ∧ chs.get? k = some c ∧
        ((frags.take i).filter passes).length = k ∧ passes f = true ∧
        c.id = "chapter-".toList ++ decimal (i + 1) ∧
        c.title = "Chapter ".toList ++ decimal (i + 1) ∧ c.content = trim f := by
  obtain ⟨frags, hf⟩ := candidateFragments_total text
  refine ⟨frags, _, hf, splitIntoChapters_eq hf, ?_⟩
  intro k hk
  obtain ⟨i, f, hi, hcount, hpass, hget⟩ := pushChapters_getAt frags 0 k hk
  refine ⟨i, f, _, hi, hget, hcount, hpass, ?_, ?_, ?_⟩ <;> simp [mkChapter]

theorem C2_ids_follow_fragment_positions_witness :
    ∃ frags chs, candidateFragments twoChaptersText = some frags ∧
      splitIntoChapters twoChaptersText = some chs ∧ 0 < chs.length ∧
      ∃ i f c, frags.get? i = some f ∧ chs.get? 0 = some c ∧
        ((frags.take i).filter passes).length = 0 ∧ passes f = true ∧
        c.id = "chapter-".toList ++ decimal (i + 1) ∧
        c.title = "Chapter ".toList ++ decimal (i + 1) ∧ c.content = trim f := by
  obtain ⟨frags, chs, h1, h2, h3⟩ := C2_ids_follow_fragment_positions twoChaptersText
  have hlen : (splitIntoChapters twoChaptersText).map List.length = some 2 := by decide
  rw [h2] at hlen
  simp only [Option.map_some', Option.some.injEq] at hlen
  exact ⟨frags, chs, h1, h2, by omega, h3 0 (by omega)⟩

/-- C3: the candidate fragments are the pieces of `text.split` for the first
pattern, in the order chapter, part, section, number, that has more than one
match, whatever the later patterns match; in particular a text with one
`Chapter N` heading (and at most one part and section marker) and several `N.`
tokens is split at the `N.` tokens. -/
theorem C3_first_qualifying_marker_wins :
    (∀ (text : Str) (k : Nat) (hk : k < chapterMarkers.length),
      (∀ (j : Nat) (hj : j < chapterMarkers.length), j < k →
        matchCount (chapterMarkers.get ⟨j, hj⟩) text ≤ 1) →
      1 < matchCount (chapterMarkers.get ⟨k, hk⟩) text →
      candidateFragments text = some (jsSplit (chapterMarkers.get ⟨k, hk⟩) text)) ∧
    (∀ text : Str, matchCount chapterMarker text = 1 → matchCount partMarker text ≤ 1 →
      matchCount sectionMarker text ≤ 1 → 1 < matchCount numberMarker text →
      candidateFragments text = some (jsSplit numberMarker text)) := by
  constructor
  · exact candidateFragments_at_index
  · intro text hc hp hs hn
    exact candidateFragments_marker text _ [chapterMarker, partMarker, sectionMarker] []
      rfl (by simpa using ⟨Nat.le_of_eq hc, hp, hs⟩) hn

theorem C3_first_qualifying_marker_wins_witness :
    matchCount chapterMarker numberedListText = 1 ∧ matchCount partMarker numberedListText ≤ 1 ∧
    matchCount sectionMarker numberedListText ≤ 1 ∧ 1 < matchCount numberMarker numberedListText ∧
    candidateFragments numberedListText = some (jsSplit numberMarker numberedListText) ∧
    jsSplit numberMarker numberedListText =
      ["Chapter 1 intro ".toList, " one ".toList, " two ".toList, " three".toList] :=
  ⟨by decide, by decide, by decide, by decide,
    C3_first_qualifying_marker_wins.2 numberedListText (by decide) (by decide) (by decide) (by decide),
    by decide⟩

/-- C4: when each of the four marker patterns has at most one match, the loop
over the markers leaves `splitText` as the one-element array holding the text,
`splitByLength(text, 500)` returns, and the result of `splitIntoChapters` is the
threshold filter and numbering applied to its chunks. -/
theorem C4_fallback_when_no_marker_repeats (text : Str)
    (h : ∀ p ∈ chapterMarkers, matchCount p text ≤ 1) :
    markerSplit text chapterMarkers = [text] ∧
    ∃ chunks, splitByLength text 500 = some chunks ∧
      splitIntoChapters text = some (pushChapters 0 chunks) := by
  refine ⟨markerSplit_none text _ h, _, splitByLength_eq text 500 (by decide), ?_⟩
  exact splitIntoChapters_eq (candidateFragments_fallback h)

theorem C4_fallback_when_no_marker_repeats_witness :
    (∀ p ∈ chapterMarkers, matchCount p singleMarkerText ≤ 1) ∧
    markerSplit singleMarkerText chapterMarkers = [singleMarkerText] ∧
    ∃ chunks, splitByLength singleMarkerText 500 = some chunks ∧
      splitIntoChapters singleMarkerText = some (pushChapters 0 chunks) :=
  ⟨by decide, C4_fallback_when_no_marker_repeats singleMarkerText (by decide)⟩

/-- C5: for a non-empty text without white space at either end that has `W`
words, `splitByLength(text, 500)` returns `ceil(W / 500)` chunks; each chunk
but the last has exactly 500 words and the last has the remaining
`W - 500 * (ceil(W / 500) - 1)` words. -/
theorem C5_fallback_chunk_count_and_sizes (text : Str) (W : Nat) (hne : text ≠ [])
    (htrim : trim text = text) (hW : countWords text = W) :
    1 ≤ W ∧ ∃ chunks, splitByLength text 500 = some chunks ∧ chunks.length = W ⌈/⌉ 500 ∧
      (∀ j chunk, chunks.get? j = some chunk → j + 1 < chunks.length → countWords chunk = 500) ∧
      (∀ chunk, chunks.getLast? = some chunk →
        countWords chunk = W - 500 * (W ⌈/⌉ 500 - 1)) := by
  obtain ⟨hwords, hlen⟩ := jsSplit_whiteSpace_words hne htrim
  rw [hW] at hlen
  have hceil : W ⌈/⌉ 500 = (W + 499) / 500 := by
    rw [Nat.ceilDiv_eq_add_pred_div]; omega
  have hpos : 1 ≤ W := by
    rw [← hlen, jsSplit_length (by simp [whiteSpaceRun])]
    omega
  refine ⟨hpos, _, splitByLength_eq text 500 (by decide), ?_, ?_, ?_⟩
  · rw [windows_length, hlen, hceil]; omega
  · intro j chunk hget hj
    obtain ⟨hjk, rfl⟩ := windows_getAt _ _ _ _ hget
    rw [countWords_window hwords, hlen]
    rw [windows_length, hlen] at hj
    omega
  · intro chunk hget
    rw [List.getLast?_eq_getElem?, ← List.get?_eq_getElem?] at hget
    obtain ⟨hjk, rfl⟩ := windows_getAt _ _ _ _ hget
    rw [countWords_window hwords, hlen, windows_length, hlen, hceil]
    omega

theorem C5_fallback_chunk_count_and_sizes_witness :
    1 ≤ 3 ∧ ∃ chunks, splitByLength threeWordsText 500 = some chunks ∧ chunks.length = 3 ⌈/⌉ 500 ∧
      (∀ j chunk, chunks.get? j = some chunk → j + 1 < chunks.length → countWords chunk = 500) ∧
      (∀ chunk, chunks.getLast? = some chunk →
        countWords chunk = 3 - 500 * (3 ⌈/⌉ 500 - 1)) :=
  C5_fallback_chunk_count_and_sizes threeWordsText 3 (by decide) (by decide) (by decide)

/-- C6 fails as stated: the foreword before the first heading is not
discarded. Two matches give three candidate fragments, the first of which is
the foreword, and the first chapter returned has the foreword as content. -/
theorem C6_leading_text_is_emitted :
    jsMatch chapterMarker forewordText = some ["Chapter 1".toList, "Chapter 2".toList] ∧
    (candidateFragments forewordText).map List.length = some 3 ∧
    (candidateFragments forewordText).map List.head? = some (some
      "Foreword: this story was written for every child who has ever lost a mitten. ".toList) ∧
    (splitIntoChapters forewordText).map (List.map (fun c => (c.id, c.content))) = some [
      ("chapter-1".toList,
        "Foreword: this story was written for every child who has ever lost a mitten.".toList),
      ("chapter-2".toList,
        "The little fox went out into the snow to look for her lost red mitten.".toList),
      ("chapter-3".toList,
        "She found it at last under the old oak tree by the frozen pond.".toList)] := by
  decide

/-- C6, amended: when the marker path is taken with pattern `p` (the first
marker pattern with more than one match), the candidate fragments are the text
before the first match followed by one segment per match, the text from the end
of that match to the next match or the end; matches and segments make up the
text. The leading text is a candidate like the others: it becomes the first
chapter exactly when its trimmed length exceeds 50. -/
theorem C6_marker_fragments (text : Str) (k : Nat) (hk : k < chapterMarkers.length)
    (hfirst : ∀ (j : Nat) (hj : j < chapterMarkers.length), j < k →
      matchCount (chapterMarkers.get ⟨j, hj⟩) text ≤ 1)
    (hq : 1 < matchCount (chapterMarkers.get ⟨k, hk⟩) text) :
    jsMatch (chapterMarkers.get ⟨k, hk⟩) text =
      some ((segmentsFrom (chapterMarkers.get ⟨k, hk⟩) 0 text).map Prod.fst) ∧
    text = untilMatch (chapterMarkers.get ⟨k, hk⟩) text ++
      ((segmentsFrom (chapterMarkers.get ⟨k, hk⟩) 0 text).map (fun mf => mf.1 ++ mf.2)).flatten ∧
    candidateFragments text = some (untilMatch (chapterMarkers.get ⟨k, hk⟩) text ::
      (segmentsFrom (chapterMarkers.get ⟨k, hk⟩) 0 text).map Prod.snd) ∧
    splitIntoChapters text = some (
      if 50 < jsLength (trim (untilMatch (chapterMarkers.get ⟨k, hk⟩) text)) then
        mkChapter 0 (untilMatch (chapterMarkers.get ⟨k, hk⟩) text) ::
          pushChapters 1 ((segmentsFrom (chapterMarkers.get ⟨k, hk⟩) 0 text).map Prod.snd)
      else pushChapters 1 ((segmentsFrom (chapterMarkers.get ⟨k, hk⟩) 0 text).map Prod.snd)) := by
  have hne : chapterMarkers.get ⟨k, hk⟩ ≠ [] := pattern_ne_nil_of_mem (List.get_mem _ _ _)
  have hfrags := candidateFragments_at_index text k hk hfirst hq
  rw [jsSplit_eq_segments hne] at hfrags
  refine ⟨jsMatch_eq_segments hne (by omega), text_eq_segments hne _ text (Nat.le_refl _),
    hfrags, ?_⟩
  rw [splitIntoChapters_eq hfrags]
  simp only [pushChapters]

theorem C6_marker_fragments_witness :
    1 < matchCount chapterMarker forewordText ∧
    candidateFragments forewordText = some (untilMatch chapterMarker forewordText ::
      (segmentsFrom chapterMarker 0 forewordText).map Prod.snd) ∧
    (segmentsFrom chapterMarker 0 forewordText).length = 2 :=
  ⟨by decide, (C6_marker_fragments forewordText 0 (by decide) (fun _ _ h => absurd h (Nat.not_lt_zero _))
    (by decide)).2.2.1, by decide⟩

/-- C7 fails as stated: both matches of the chapter pattern are followed by a
long segment, but three chapters are returned, the first being the foreword. -/
theorem C7_count_includes_leading_text :
    matchCount chapterMarker forewordText = 2 ∧
    ((segmentsFrom chapterMarker 0 forewordText).filter (fun mf => passes mf.2)).length = 2 ∧
    (splitIntoChapters forewordText).map List.length = some 3 := by
  decide

/-- C7, amended: with at least two matches of the chapter pattern, the number
of chapters returned is the number of matches whose following segment has
trimmed length above 50, plus one when the text before the first match has
trimmed length above 50. -/
theorem C7_chapter_count (text : Str) (h : 2 ≤ matchCount chapterMarker text) :
    jsMatch chapterMarker text = some ((segmentsFrom chapterMarker 0 text).map Prod.fst) ∧
    ∃ chs, splitIntoChapters text = some chs ∧
      chs.length =
        ((segmentsFrom chapterMarker 0 text).filter (fun mf => passes mf.2)).length +
          (if 50 < jsLength (trim (untilMatch chapterMarker text)) then 1 else 0) := by
  have hne : chapterMarker ≠ [] := by simp [chapterMarker]
  have hfrags := candidateFragments_marker text chapterMarker []
    [partMarker, sectionMarker, numberMarker] rfl (by simp) (by omega)
  rw [jsSplit_eq_segments hne] at hfrags
  refine ⟨jsMatch_eq_segments hne (by omega), _, splitIntoChapters_eq hfrags, ?_⟩
  rw [pushChapters_length, List.filter_cons]
  have hmap : ∀ l : List (Str × Str), ((l.map Prod.snd).filter passes).length =
      (l.filter (fun mf => passes mf.2)).length := by
    intro l
    induction l with
    | nil => rfl
    | cons a l ih => by_cases ha : passes a.2 = true <;> simp [List.filter_cons, ha, ih]
  by_cases hp : 50 < jsLength (trim (untilMatch chapterMarker text))
  · have : passes (untilMatch chapterMarker text) = true := by simp [passes, hp]
    simp [this, hp, hmap]
  · have : passes (untilMatch chapterMarker text) = false := by simp [passes, hp]
    simp [this, hp, hmap]

theorem C7_chapter_count_witness :
    2 ≤ matchCount chapterMarker forewordText ∧
    ∃ chs, splitIntoChapters forewordText = some chs ∧
      chs.length =
        ((segmentsFrom chapterMarker 0 forewordText).filter (fun mf => passes mf.2)).length +
          (if 50 < jsLength (trim (untilMatch chapterMarker forewordText)) then 1 else 0) :=
  ⟨by decide, (C7_chapter_count forewordText (by decide)).2⟩

/-- C8 fails as stated: the one chapter returned has id `chapter-2`, not
`chapter-1`, because the empty text before `Chapter 1` takes number 1. And when
A starts with a digit, the digit belongs to the first match (`Chapter 10`), so
the content is not the trimmed A. -/
theorem C8_single_chapter_has_id_two :
    (splitIntoChapters scenarioText).map (List.map (fun c => (c.id, c.title, c.content))) = some [
      ("chapter-2".toList, "Chapter 2".toList,
        (". Once upon a time a small grey mouse found a silver key in the garden and " ++
         "wondered which door it might open.").toList)] ∧
    "chapter-2".toList ≠ "chapter-1".toList ∧
    matchCount chapterMarker digitStartText = 0 ∧
    (splitIntoChapters ("Chapter 1".toList ++ digitStartText ++ "Chapter 2".toList ++ scenarioSecond)).map
      (List.map Chapter.content) = some [
        "green bottles were standing on the wall when one of them fell down.".toList] ∧
    trim digitStartText ≠ "green bottles were standing on the wall when one of them fell down.".toList := by
  decide

/-- C8, amended: for a text `Chapter 1` ++ A ++ `Chapter 2` ++ B where A and B
contain no match of the chapter pattern, A does not start with a digit, the
trimmed A is longer than 50 and the trimmed B is not, `splitIntoChapters`
returns exactly one chapter; its content is the trimmed A, and its id is
`chapter-2` with title `Chapter 2`. -/
theorem C8_two_headings_one_chapter (a b : Str) (ha : matchCount chapterMarker a = 0)
    (hb : matchCount chapterMarker b = 0) (hdigit : ∀ c, a.head? = some c → isDigit c = false)
    (halen : 50 < jsLength (trim a)) (hblen : jsLength (trim b) ≤ 50) :
    splitIntoChapters ("Chapter 1".toList ++ a ++ "Chapter 2".toList ++ b) =
      some [{ id := "chapter-2".toList
              title := "Chapter 2".toList
              content := trim a
              wordCount := (jsSplit whiteSpaceRun (trim a)).length }] := by
  have hp : chapterMarker ≠ [] := by simp [chapterMarker]
  have hane : a ≠ [] := by
    intro h0; rw [h0] at halen; simp [trim, jsLength] at halen
  obtain ⟨huntil, hsegs⟩ := segments_two_headings a b ha hb hane hdigit
  have hcount : 1 < matchCount chapterMarker
      ("Chapter 1".toList ++ a ++ "Chapter 2".toList ++ b) := by
    rw [matchCount_eq_segments hp, hsegs]; simp
  have hfrags := candidateFragments_marker _ chapterMarker []
    [partMarker, sectionMarker, numberMarker] rfl (by simp) hcount
  rw [jsSplit_eq_segments hp, huntil, hsegs] at hfrags
  rw [splitIntoChapters_eq hfrags]
  have h0 : ¬ 50 < jsLength (trim []) := by simp [trim, jsLength]
  have hb1 : ¬ 50 < jsLength (trim (b.dropWhile isDigit)) := by
    have := jsLength_trim_le_of_suffix (List.dropWhile_suffix (l := b) isDigit)
    omega
  simp only [List.map_cons, List.map_nil, pushChapters]
  rw [if_neg h0, if_pos halen, if_neg hb1]
  rfl

theorem C8_two_headings_one_chapter_witness :
    matchCount chapterMarker scenarioFirst = 0 ∧ matchCount chapterMarker scenarioSecond = 0 ∧
    (∀ c, scenarioFirst.head? = some c → isDigit c = false) ∧
    50 < jsLength (trim scenarioFirst) ∧ jsLength (trim scenarioSecond) ≤ 50 ∧
    splitIntoChapters ("Chapter 1".toList ++ scenarioFirst ++ "Chapter 2".toList ++ scenarioSecond) =
      some [{ id := "chapter-2".toList
              title := "Chapter 2".toList
              content := trim scenarioFirst
              wordCount := (jsSplit whiteSpaceRun (trim scenarioFirst)).length }] :=
  ⟨by decide, by decide, by decide, by decide, by decide,
    C8_two_headings_one_chapter scenarioFirst scenarioSecond (by decide) (by decide) (by decide) (by decide)
      (by decide)⟩

/-- C9: a text of exactly 1200 words without white space at either end, in
which no marker pattern matches more than once, gives exactly three chapters,
of 500, 500 and 200 words, with ids `chapter-1`, `chapter-2`, `chapter-3`. -/
theorem C9_twelve_hundred_words (text : Str) (htrim : trim text = text)
    (hW : countWords text = 1200) (hm : ∀ p ∈ chapterMarkers, matchCount p text ≤ 1) :
    ∃ c1 c2 c3, splitIntoChapters text = some [c1, c2, c3] ∧
      c1.wordCount = 500 ∧ c2.wordCount = 500 ∧ c3.wordCount = 200 ∧
      c1.id = "chapter-1".toList ∧ c2.id = "chapter-2".toList ∧ c3.id = "chapter-3".toList := by
  have hne : text ≠ [] := by
    intro h0; rw [h0] at hW; simp [countWords, countWordsFrom] at hW
  obtain ⟨hwords, hlen⟩ := jsSplit_whiteSpace_words hne htrim
  rw [hW] at hlen
  have hfrags := candidateFragments_fallback hm
  have hwin : windows (jsSplit whiteSpaceRun text) 500 =
      [joinSpace (((jsSplit whiteSpaceRun text).drop 0).take 500),
       joinSpace (((jsSplit whiteSpaceRun text).drop 500).take 500),
       joinSpace (((jsSplit whiteSpaceRun text).drop 1000).take 500)] := by
    simp [windows, hlen, List.range_succ_eq_map]
  rw [hwin] at hfrags
  rw [splitIntoChapters_eq hfrags]
  rw [pushChapters_window (isWord_of_mem_slice hwords _ _) (by simp [hlen]),
    pushChapters_window (isWord_of_mem_slice hwords _ _) (by simp [hlen]),
    pushChapters_window (isWord_of_mem_slice hwords _ _) (by simp [hlen])]
  refine ⟨_, _, _, rfl, ?_, ?_, ?_, ?_, ?_, ?_⟩
  · simp [hlen]
  · simp [hlen]
  · simp [hlen]
  · show "chapter-".toList ++ decimal 1 = "chapter-1".toList
    decide
  · show "chapter-".toList ++ decimal 2 = "chapter-2".toList
    decide
  · show "chapter-".toList ++ decimal 3 = "chapter-3".toList
    decide

theorem C9_twelve_hundred_words_witness :
    trim twelveHundredWords = twelveHundredWords ∧ countWords twelveHundredWords = 1200 ∧
    (∀ p ∈ chapterMarkers, matchCount p twelveHundredWords ≤ 1) ∧
    ∃ c1 c2 c3, splitIntoChapters twelveHundredWords = some [c1, c2, c3] ∧
      c1.wordCount = 500 ∧ c2.wordCount = 500 ∧ c3.wordCount = 200 ∧
      c1.id = "chapter-1".toList ∧ c2.id = "chapter-2".toList ∧ c3.id = "chapter-3".toList :=
  have htrim : trim twelveHundredWords = twelveHundredWords := trim_joinSpace _ twelveHundredWords_isWord
  have hcount : countWords twelveHundredWords = 1200 := by
    rw [twelveHundredWords, countWords_joinSpace _ twelveHundredWords_isWord, List.length_replicate]
  have hmark : ∀ p ∈ chapterMarkers, matchCount p twelveHundredWords ≤ 1 := fun p hp =>
    (matchCount_eq_zero_of_no_digit hp twelveHundredWords_no_digit).le.trans (Nat.zero_le 1)
  ⟨htrim, hcount, hmark, C9_twelve_hundred_words twelveHundredWords htrim hcount hmark⟩

/-- C10: on the empty string `splitIntoChapters` returns, and returns the empty
sequence. -/
theorem C10_empty_string : splitIntoChapters [] = some [] := by
  decide

/-- C11: a text whose trimmed length is at most 50 gives the empty sequence,
whichever path supplies the candidate fragments. -/
theorem C11_short_text_gives_no_chapter (text : Str) (h : jsLength (trim text) ≤ 50) :
    splitIntoChapters text = some [] := by
  obtain ⟨frags, hf⟩ := candidateFragments_total text
  rw [splitIntoChapters_eq hf]
  congr 1
  apply pushChapters_eq_nil
  intro f hmem
  exact (candidateFragments_trim_le text frags hf f hmem).trans h

theorem C11_short_text_gives_no_chapter_witness :
    (jsLength (trim shortMarkerText) ≤ 50 ∧ 1 < matchCount chapterMarker shortMarkerText ∧
      splitIntoChapters shortMarkerText = some []) ∧
    (jsLength (trim paddedShortText) ≤ 50 ∧ paddedShortText ≠ [] ∧
      (∀ p ∈ chapterMarkers, matchCount p paddedShortText ≤ 1) ∧
      splitIntoChapters paddedShortText = some []) :=
  ⟨⟨by decide, by decide, C11_short_text_gives_no_chapter shortMarkerText (by decide)⟩,
    ⟨by decide, by decide, by decide,
      C11_short_text_gives_no_chapter paddedShortText (by decide)⟩⟩

/-- C12: for every chapter returned, `wordCount` is the number of maximal runs
of characters that are not white space in its content, and is at least 1. -/
theorem C12_wordCount_counts_words (text : Str) :
    ∃ chs, splitIntoChapters text = some chs ∧
      ∀ c ∈ chs, c.wordCount = countWords c.content ∧ 1 ≤ c.wordCount := by
  obtain ⟨frags, hf⟩ := candidateFragments_total text
  refine ⟨_, splitIntoChapters_eq hf, ?_⟩
  intro c hc
  obtain ⟨j, f, _, hlen, rfl⟩ := mem_pushChapters frags 0 hc
  exact wordCount_of_passes hlen _

theorem C12_wordCount_counts_words_witness :
    ∃ chs c, splitIntoChapters twoChaptersText = some chs ∧ c ∈ chs ∧
      c.wordCount = countWords c.content ∧ c.wordCount = 15 := by
  obtain ⟨chs, h1, h2⟩ := C12_wordCount_counts_words twoChaptersText
  have hhead : (splitIntoChapters twoChaptersText).map
      (fun l => (l.head?).map Chapter.wordCount) = some (some 15) := by decide
  rw [h1] at hhead
  cases chs with
  | nil => simp at hhead
  | cons c rest =>
    simp only [Option.map_some', List.head?_cons, Option.some.injEq] at hhead
    exact ⟨_, c, h1, List.mem_cons_self _ _, (h2 c (List.mem_cons_self _ _)).1, hhead⟩

/-- C13: the ids of the chapters returned are `chapter-n` for a strictly
increasing sequence of numbers `n`, and are pairwise distinct. -/
theorem C13_ids_distinct_and_increasing (text : Str) :
    ∃ (chs : List Chapter) (ns : List Nat), splitIntoChapters text = some chs ∧
      chs.map Chapter.id = ns.map (fun n => "chapter-".toList ++ decimal n) ∧
      ns.Pairwise (· < ·) ∧ (chs.map Chapter.id).Nodup := by
  obtain ⟨frags, hf⟩ := candidateFragments_total text
  have hids := pushChapters_ids frags
  have hpw : ((passingPositions frags).map (· + 1)).Pairwise (· < ·) :=
    (passingPositions_pairwise frags).map _ (fun a b h => Nat.add_lt_add_right h 1)
  refine ⟨_, (passingPositions frags).map (· + 1), splitIntoChapters_eq hf, ?_, hpw, ?_⟩
  · rw [hids, List.map_map]; rfl
  · rw [hids]
    have : (passingPositions frags).map (fun i => "chapter-".toList ++ decimal (i + 1)) =
        ((passingPositions frags).map (· + 1)).map (fun n => "chapter-".toList ++ decimal n) := by
      rw [List.map_map]; rfl
    rw [this]
    apply List.Nodup.map _ (hpw.imp (fun h => Nat.ne_of_lt h))
    intro a b hab
    exact decimal_injective (List.append_cancel_left hab)

/-- C14: every chapter returned has id `chapter-n` and title `Chapter n` for
one and the same number `n ≥ 1`, the only number whose decimal digits follow
`chapter-` in the id. -/
theorem C14_title_matches_id (text : Str) :
    ∃ chs, splitIntoChapters text = some chs ∧
      ∀ c ∈ chs, ∃ n, 1 ≤ n ∧ c.id = "chapter-".toList ++ decimal n ∧
        c.title = "Chapter ".toList ++ decimal n ∧
        ∀ m, c.id = "chapter-".toList ++ decimal m → m = n := by
  obtain ⟨frags, hf⟩ := candidateFragments_total text
  refine ⟨_, splitIntoChapters_eq hf, ?_⟩
  intro c hc
  obtain ⟨j, f, _, _, rfl⟩ := mem_pushChapters frags 0 hc
  refine ⟨0 + j + 1, by omega, rfl, rfl, ?_⟩
  intro m hm
  exact (decimal_injective (List.append_cancel_left hm)).symm

theorem C14_title_matches_id_witness :
    ∃ chs c, splitIntoChapters twoChaptersText = some chs ∧ c ∈ chs ∧
      c.id = "chapter-2".toList ∧ c.title = "Chapter 2".toList ∧
      ∃ n, 1 ≤ n ∧ c.id = "chapter-".toList ++ decimal n ∧
        c.title = "Chapter ".toList ++ decimal n := by
  obtain ⟨chs, h1, h2⟩ := C14_title_matches_id twoChaptersText
  have hhead : (splitIntoChapters twoChaptersText).map
      (fun l => (l.head?).map (fun c => (c.id, c.title))) =
      some (some ("chapter-2".toList, "Chapter 2".toList)) := by decide
  rw [h1] at hhead
  cases chs with
  | nil => simp at hhead
  | cons c rest =>
    simp only [Option.map_some', List.head?_cons, Option.some.injEq, Prod.mk.injEq] at hhead
    obtain ⟨n, hn, hid, htitle, _⟩ := h2 c (List.mem_cons_self _ _)
    exact ⟨_, c, h1, List.mem_cons_self _ _, hhead.1, hhead.2, n, hn, hid, htitle⟩

/-- C15 fails as stated: the three words of this text make one chunk of 13
characters, which the threshold drops, so no chapter is returned and joining
the contents gives the empty text. -/
theorem C15_short_last_chunk_is_lost :
    threeWordsText = joinSpace ["one".toList, "two".toList, "three".toList] ∧
    (∀ p ∈ chapterMarkers, matchCount p threeWordsText ≤ 1) ∧
    (splitIntoChapters threeWordsText).map (fun chs => joinSpace (chs.map Chapter.content)) =
      some [] ∧
    threeWordsText ≠ [] := by
  decide

/-- C15, amended: for a text made of words joined by single spaces and handled
by the fallback, the contents of the chapters joined by single spaces are the
text when its last chunk is longer than 50, and otherwise the text without the
words of its last chunk (the words before position `500 * (ceil(n/500) - 1)`). -/
theorem C15_fallback_contents_rejoin (words : List Str) (hw : ∀ w ∈ words, IsWord w)
    (hne : words ≠ []) (hm : ∀ p ∈ chapterMarkers, matchCount p (joinSpace words) ≤ 1) :
    ∃ chs, splitIntoChapters (joinSpace words) = some chs ∧
      (50 < jsLength (joinSpace (words.drop (500 * ((words.length + 499) / 500 - 1)))) →
        joinSpace (chs.map Chapter.content) = joinSpace words) ∧
      (jsLength (joinSpace (words.drop (500 * ((words.length + 499) / 500 - 1)))) ≤ 50 →
        joinSpace (chs.map Chapter.content) =
          joinSpace (words.take (500 * ((words.length + 499) / 500 - 1)))) := by
  have hf := candidateFragments_fallback hm
  rw [jsSplit_joinSpace hw hne] at hf
  obtain ⟨init, hwin, hinit, hjoin1, hjoin2⟩ := windows_of_words hw hne
  have hlast : trim (joinSpace (words.drop (500 * ((words.length + 499) / 500 - 1)))) =
      joinSpace (words.drop (500 * ((words.length + 499) / 500 - 1))) :=
    trim_joinSpace _ (fun t ht => hw t (List.mem_of_mem_drop ht))
  refine ⟨_, splitIntoChapters_eq hf, ?_, ?_⟩
  · intro hp
    rw [pushChapters_content, hwin, filter_map_trim_of_passes _ ?_, hjoin2]
    intro c hc
    rcases List.mem_append.1 hc with hc | hc
    · exact hinit c hc
    · simp only [List.mem_singleton] at hc
      rw [hc]
      exact ⟨by simp [passes, hlast, hp], hlast⟩
  · intro hp
    have hnot : passes (joinSpace (words.drop (500 * ((words.length + 499) / 500 - 1)))) =
        false := by
      simp only [passes, hlast, decide_eq_false_iff_not]
      omega
    rw [pushChapters_content, hwin, List.filter_append, List.filter_cons, hnot]
    simp only [Bool.false_eq_true, if_false, List.filter_nil, List.append_nil]
    rw [filter_map_trim_of_passes _ hinit, hjoin1]

theorem C15_fallback_contents_rejoin_witness :
    (∀ p ∈ chapterMarkers, matchCount p (joinSpace storyWords) ≤ 1) ∧
    50 < jsLength (joinSpace (storyWords.drop (500 * ((storyWords.length + 499) / 500 - 1)))) ∧
    ∃ chs, splitIntoChapters (joinSpace storyWords) = some chs ∧
      joinSpace (chs.map Chapter.content) = joinSpace storyWords := by
  have hm : ∀ p ∈ chapterMarkers, matchCount p (joinSpace storyWords) ≤ 1 := by decide
  have hlen : 50 < jsLength
      (joinSpace (storyWords.drop (500 * ((storyWords.length + 499) / 500 - 1)))) := by decide
  obtain ⟨chs, h1, h2, _⟩ :=
    C15_fallback_contents_rejoin storyWords storyWords_isWord (by decide) hm
  exact ⟨hm, hlen, chs, h1, h2 hlen⟩

/-- C16: on the marker path with winning pattern `p`, whose matches are
`m1 .. mk` (`k ≥ 2`), the candidate fragments `f0 .. fk` satisfy
`f0 ++ m1 ++ f1 ++ ... ++ mk ++ fk = text`, and the contents of the chapters
are the trims of the fragments that pass the threshold, in fragment order. -/
theorem C16_marker_fragments_tile_text (text : Str) (k : Nat) (hk : k < chapterMarkers.length)
    (hfirst : ∀ (j : Nat) (hj : j < chapterMarkers.length), j < k →
      matchCount (chapterMarkers.get ⟨j, hj⟩) text ≤ 1)
    (hq : 1 < matchCount (chapterMarkers.get ⟨k, hk⟩) text) :
    ∃ (ms : List Str) (f0 : Str) (fs : List Str) (chs : List Chapter),
      jsMatch (chapterMarkers.get ⟨k, hk⟩) text = some ms ∧ 2 ≤ ms.length ∧
      candidateFragments text = some (f0 :: fs) ∧ fs.length = ms.length ∧
      text = f0 ++ (List.zipWith (· ++ ·) ms fs).flatten ∧
      splitIntoChapters text = some chs ∧
      chs.map Chapter.content = ((f0 :: fs).filter passes).map trim := by
  have hne : chapterMarkers.get ⟨k, hk⟩ ≠ [] := pattern_ne_nil_of_mem (List.get_mem _ _ _)
  have hfrags := candidateFragments_at_index text k hk hfirst hq
  rw [jsSplit_eq_segments hne] at hfrags
  refine ⟨_, _, _, _, jsMatch_eq_segments hne (by omega), ?_, hfrags, by simp, ?_,
    splitIntoChapters_eq hfrags, pushChapters_content _ 0⟩
  · rw [List.length_map, ← matchCount_eq_segments hne]
    exact hq
  · rw [zipWith_append_segments]
    exact text_eq_segments hne _ text (Nat.le_refl _)

theorem C16_marker_fragments_tile_text_witness :
    1 < matchCount chapterMarker forewordText ∧
    ∃ (ms : List Str) (f0 : Str) (fs : List Str) (chs : List Chapter),
      jsMatch chapterMarker forewordText = some ms ∧ 2 ≤ ms.length ∧
      candidateFragments forewordText = some (f0 :: fs) ∧ fs.length = ms.length ∧
      forewordText = f0 ++ (List.zipWith (· ++ ·) ms fs).flatten ∧
      splitIntoChapters forewordText = some chs ∧
      chs.map Chapter.content = ((f0 :: fs).filter passes).map trim :=
  ⟨by decide, C16_marker_fragments_tile_text forewordText 0 (by decide)
    (fun _ _ h => absurd h (Nat.not_lt_zero _)) (by decide)⟩

/-- C17: each candidate fragment is judged on its own. The fragment at position
`n` of `splitText` (0-based) gives a chapter, the one with id `chapter-(n+1)`,
exactly when its trimmed length exceeds 50; the content of that chapter is the
trim of that fragment and of nothing else; and the contents of the chapters
are the trims of the passing fragments in fragment order, equal fragments
giving equal chapters side by side. -/
theorem C17_fragments_independent (text : Str) :
    ∃ frags chs, candidateFragments text = some frags ∧ splitIntoChapters text = some chs ∧
      (∀ n f, frags.get? n = some f →
        ((∃ c ∈ chs, c.id = "chapter-".toList ++ decimal (n + 1)) ↔ 50 < jsLength (trim f))) ∧
      (∀ n f c, frags.get? n = some f → c ∈ chs →
        c.id = "chapter-".toList ++ decimal (n + 1) → c.content = trim f) ∧
      chs.map Chapter.content = (frags.filter passes).map trim := by
  obtain ⟨frags, hf⟩ := candidateFragments_total text
  refine ⟨frags, _, hf, splitIntoChapters_eq hf, ?_, ?_, pushChapters_content frags 0⟩
  · intro n f hget
    constructor
    · rintro ⟨c, hc, hid⟩
      obtain ⟨i, g, hi, hp, rfl⟩ := (mem_pushChapters_iff frags c).1 hc
      have hin : i = n := by
        have := decimal_injective (List.append_cancel_left hid)
        omega
      subst hin
      rw [hget] at hi
      cases hi
      exact hp
    · intro hp
      exact ⟨mkChapter n f, (mem_pushChapters_iff frags _).2 ⟨n, f, hget, hp, rfl⟩, rfl⟩
  · intro n f c hget hc hid
    obtain ⟨i, g, hi, _, rfl⟩ := (mem_pushChapters_iff frags c).1 hc
    have hin : i = n := by
      have := decimal_injective (List.append_cancel_left hid)
      omega
    subst hin
    rw [hget] at hi
    cases hi
    rfl

theorem C17_fragments_independent_witness :
    ∃ frags chs, candidateFragments twoChaptersText = some frags ∧
      splitIntoChapters twoChaptersText = some chs ∧ frags.get? 0 = some [] ∧
      ¬ 50 < jsLength (trim []) ∧
      ¬ ∃ c ∈ chs, c.id = "chapter-".toList ++ decimal (0 + 1) := by
  obtain ⟨frags, chs, h1, h2, h3, _⟩ := C17_fragments_independent twoChaptersText
  have hfr : (candidateFragments twoChaptersText).map (fun l => l.get? 0) = some (some []) := by
    decide
  rw [h1] at hfr
  simp only [Option.map_some', Option.some.injEq] at hfr
  have hshort : ¬ 50 < jsLength (trim []) := by decide
  exact ⟨frags, chs, h1, h2, hfr, hshort, fun h => hshort ((h3 0 [] hfr).1 h)⟩

/-- C18: `splitIntoChapters` returns on every text, in particular on the text
rebuilt from its own chapters with each content preceded by its id, and what it
returns on a given text is one definite sequence: two runs on the same text
give the same ids, titles, contents and word counts. -/
theorem C18_resegmentation_total_and_deterministic (text : Str) :
    ∃ chs, splitIntoChapters text = some chs ∧
      ∃ again, splitIntoChapters (rejoinChapters chs) = some again ∧
        ∀ run1 run2, splitIntoChapters (rejoinChapters chs) = some run1 →
          splitIntoChapters (rejoinChapters chs) = some run2 → run1 = run2 := by
  obtain ⟨frags, hf⟩ := candidateFragments_total text
  obtain ⟨frags2, hf2⟩ := candidateFragments_total (rejoinChapters (pushChapters 0 frags))
  refine ⟨_, splitIntoChapters_eq hf, _, splitIntoChapters_eq hf2, ?_⟩
  intro run1 run2 h1 h2
  rw [h1] at h2
  exact Option.some.inj h2

set_option maxRecDepth 8000 in
theorem C18_resegmentation_total_and_deterministic_witness :
    (splitIntoChapters twoChaptersText).map rejoinChapters = some
      ("chapter-2The little fox went out into the snow to look for her lost red mitten." ++
       "chapter-3She found it at last under the old oak tree by the frozen pond.").toList ∧
    ∃ chs, splitIntoChapters twoChaptersText = some chs ∧
      ∃ again, splitIntoChapters (rejoinChapters chs) = some again ∧
        ∀ run1 run2, splitIntoChapters (rejoinChapters chs) = some run1 →
          splitIntoChapters (rejoinChapters chs) = some run2 → run1 = run2 :=
  ⟨by decide, C18_resegmentation_total_and_deterministic twoChaptersText⟩

/-- C19: for `maxWords ≥ 1`, `splitByLength` cuts the token list of the text
into consecutive windows and returns each window joined by single spaces: the
windows put end to end are the token list, every window but the last has
exactly `maxWords` tokens, and the last has between 1 and `maxWords`. -/
theorem C19_splitByLength_partitions (text : Str) (maxWords : Nat) (hm : 1 ≤ maxWords) :
    ∃ wins : List (List Str), splitByLength text maxWords = some (wins.map joinSpace) ∧
      wins ≠ [] ∧ wins.flatten = jsSplit whiteSpaceRun text ∧
      (∀ j w, wins.get? j = some w → j + 1 < wins.length → w.length = maxWords) ∧
      (∀ w, wins.getLast? = some w → 1 ≤ w.length ∧ w.length ≤ maxWords) := by
  have hlen : (wordWindows (jsSplit whiteSpaceRun text) maxWords).length =
      ((jsSplit whiteSpaceRun text).length + maxWords - 1) / maxWords := by
    simp [wordWindows]
  have hpos : 1 ≤ ((jsSplit whiteSpaceRun text).length + maxWords - 1) / maxWords := by
    rw [Nat.le_div_iff_mul_le (by omega), jsSplit_length (by simp [whiteSpaceRun])]
    omega
  refine ⟨wordWindows (jsSplit whiteSpaceRun text) maxWords, ?_, ?_,
    wordWindows_flatten _ _ hm, ?_, ?_⟩
  · rw [splitByLength_eq text maxWords hm, windows_eq_map]
  · intro h0
    rw [h0] at hlen
    simp only [List.length_nil] at hlen
    omega
  · intro j w hget hj
    obtain ⟨hjk, rfl⟩ := wordWindows_getAt _ _ _ _ hget
    rw [hlen] at hj
    have h1 := pred_ceil_mul_lt (jsSplit whiteSpaceRun text).length maxWords (by omega)
    have h2 : (j + 1) * maxWords ≤
        (((jsSplit whiteSpaceRun text).length + maxWords - 1) / maxWords - 1) * maxWords :=
      Nat.mul_le_mul_right _ (by omega)
    rw [Nat.add_mul, Nat.one_mul] at h2
    simp only [List.length_take, List.length_drop]
    omega
  · intro w hget
    rw [List.getLast?_eq_getElem?, ← List.get?_eq_getElem?] at hget
    obtain ⟨hjk, rfl⟩ := wordWindows_getAt _ _ _ _ hget
    rw [hlen] at hjk ⊢
    have h1 := pred_ceil_mul_lt (jsSplit whiteSpaceRun text).length maxWords (by omega)
    simp only [List.length_take, List.length_drop]
    omega

theorem C19_splitByLength_partitions_witness :
    1 ≤ 2 ∧ jsSplit whiteSpaceRun threeWordsText = ["one".toList, "two".toList, "three".toList] ∧
    splitByLength threeWordsText 2 = some ["one two".toList, "three".toList] ∧
    ∃ wins : List (List Str), splitByLength threeWordsText 2 = some (wins.map joinSpace) ∧
      wins ≠ [] ∧ wins.flatten = jsSplit whiteSpaceRun threeWordsText ∧
      (∀ j w, wins.get? j = some w → j + 1 < wins.length → w.length = 2) ∧
      (∀ w, wins.getLast? = some w → 1 ≤ w.length ∧ w.length ≤ 2) :=
  ⟨by decide, by decide, by decide, C19_splitByLength_partitions threeWordsText 2 (by decide)⟩

/-- C20: on the fallback path every chapter has at most 500 words, whatever
white space the text has at its ends or between its words. -/
theorem C20_fallback_wordCount_le (text : Str)
    (h : ∀ p ∈ chapterMarkers, matchCount p text ≤ 1) :
    ∃ chs, splitIntoChapters text = some chs ∧ ∀ c ∈ chs, c.wordCount ≤ 500 := by
  have hf := candidateFragments_fallback h
  refine ⟨_, splitIntoChapters_eq hf, ?_⟩
  intro c hc
  obtain ⟨i, f, hget, hlen, rfl⟩ := mem_pushChapters _ 0 hc
  obtain ⟨j, rfl⟩ := mem_windows (List.get?_mem hget)
  rw [(wordCount_of_passes hlen _).1]
  simp only [mkChapter]
  rw [countWords_trim]
  refine (countWords_joinSpace_le _ ?_).trans ?_
  · intro t ht
    exact jsSplit_whiteSpace_noWs text t (List.mem_of_mem_drop (List.mem_of_mem_take ht))
  · simp

theorem C20_fallback_wordCount_le_witness :
    (∀ p ∈ chapterMarkers, matchCount p raggedText ≤ 1) ∧
    (splitIntoChapters raggedText).map (List.map Chapter.wordCount) = some [16] ∧
    ∃ chs, splitIntoChapters raggedText = some chs ∧ ∀ c ∈ chs, c.wordCount ≤ 500 :=
  ⟨by decide, by decide, C20_fallback_wordCount_le raggedText (by decide)⟩

/-- C21: on the fallback path every chunk of `splitByLength` other than the
last is longer than 50 code units after trimming, so only the last chunk can
be dropped: the chapter ids are exactly `chapter-1` .. `chapter-m` with `m`
equal to the number of chunks or one less. -/
theorem C21_only_last_chunk_can_be_dropped (text : Str)
    (hm : ∀ p ∈ chapterMarkers, matchCount p text ≤ 1) :
    ∃ chunks chs, splitByLength text 500 = some chunks ∧
      splitIntoChapters text = some chs ∧
      (∀ j c, chunks.get? j = some c → j + 1 < chunks.length → 50 < jsLength (trim c)) ∧
      ∃ m, (m = chunks.length ∨ m + 1 = chunks.length) ∧
        chs.map Chapter.id =
          (List.range m).map (fun i => "chapter-".toList ++ decimal (i + 1)) := by
  refine ⟨windows (jsSplit whiteSpaceRun text) 500,
    pushChapters 0 (windows (jsSplit whiteSpaceRun text) 500),
    splitByLength_eq text 500 (by decide),
    splitIntoChapters_eq (candidateFragments_fallback hm), ?_, ?_⟩
  · intro j c hc hj
    obtain ⟨_, rfl⟩ := windows_getAt _ _ _ _ hc
    rw [windows_length] at hj
    exact window_passes text j (by omega)
  · rw [windows_length]
    unfold windows
    cases hk : ((jsSplit whiteSpaceRun text).length + 500 - 1) / 500 with
    | zero => exact ⟨0, Or.inl rfl, by simp [pushChapters]⟩
    | succ k =>
      rw [List.range_succ, List.map_append, List.map_singleton]
      refine ⟨k + (if 50 < jsLength (trim (joinSpace
        (((jsSplit whiteSpaceRun text).drop (k * 500)).take 500))) then 1 else 0), ?_, ?_⟩
      · split <;> simp
      · rw [pushChapters_ids_init, List.length_map, List.length_range, ← List.range_eq_range']
        intro c hc
        obtain ⟨j, hj, rfl⟩ := List.mem_map.1 hc
        have hj := List.mem_range.1 hj
        exact window_passes text j (by omega)

theorem C21_only_last_chunk_can_be_dropped_witness :
    (∀ p ∈ chapterMarkers, matchCount p twelveHundredWords ≤ 1) ∧
    ∃ chunks chs, splitByLength twelveHundredWords 500 = some chunks ∧
      splitIntoChapters twelveHundredWords = some chs ∧
      (∀ j c, chunks.get? j = some c → j + 1 < chunks.length → 50 < jsLength (trim c)) ∧
      ∃ m, (m = chunks.length ∨ m + 1 = chunks.length) ∧
        chs.map Chapter.id =
          (List.range m).map (fun i => "chapter-".toList ++ decimal (i + 1)) :=
  have hmark : ∀ p ∈ chapterMarkers, matchCount p twelveHundredWords ≤ 1 := fun _ hp =>
    (matchCount_eq_zero_of_no_digit hp twelveHundredWords_no_digit).le.trans (Nat.zero_le 1)
  ⟨hmark, C21_only_last_chunk_can_be_dropped twelveHundredWords hmark⟩

/-- C22: on the marker path with winning pattern `p` (the first marker pattern
with more than one match), the content of no chapter returned contains a match
of `p`: the headings themselves are cut out. -/
theorem C22_contents_hold_no_marker (text : Str) (k : Nat) (hk : k < chapterMarkers.length)
    (hfirst : ∀ (j : Nat) (hj : j < chapterMarkers.length), j < k →
      matchCount (chapterMarkers.get ⟨j, hj⟩) text ≤ 1)
    (hq : 1 < matchCount (chapterMarkers.get ⟨k, hk⟩) text) :
    ∃ chs, splitIntoChapters text = some chs ∧
      ∀ c ∈ chs, jsMatch (chapterMarkers.get ⟨k, hk⟩) c.content = none ∧
        matchCount (chapterMarkers.get ⟨k, hk⟩) c.content = 0 := by
  have hne : chapterMarkers.get ⟨k, hk⟩ ≠ [] := pattern_ne_nil_of_mem (List.get_mem _ _ _)
  have hfrags := candidateFragments_at_index text k hk hfirst hq
  refine ⟨_, splitIntoChapters_eq hfrags, ?_⟩
  intro c hc
  obtain ⟨j, f, hget, _, rfl⟩ := mem_pushChapters _ 0 hc
  have h0 := jsSplit_fragment_no_match hne text f (List.get?_mem hget)
  refine ⟨?_, h0⟩
  simp only [mkChapter]
  unfold matchCount at h0
  cases hj : jsMatch (chapterMarkers.get ⟨k, hk⟩) (trim f) with
  | none => rfl
  | some ms =>
    rw [hj] at h0
    unfold jsMatch at hj
    split at hj
    · cases hj
    · cases hj
      simp at h0

set_option maxRecDepth 100000 in
theorem C22_contents_hold_no_marker_witness :
    1 < matchCount chapterMarker googleDocContent ∧
    (splitIntoChapters googleDocContent).map (List.map (fun c => c.content.take 16)) = some [
      ": Into the Woods".toList, ": Meeting the Fo".toList, ": The Hidden Tre".toList,
      ": The Journey Ho".toList] ∧
    ∃ chs, splitIntoChapters googleDocContent = some chs ∧
      ∀ c ∈ chs, jsMatch chapterMarker c.content = none ∧
        matchCount chapterMarker c.content = 0 :=
  ⟨by decide, by decide, C22_contents_hold_no_marker googleDocContent 0 (by decide)
    (fun _ _ h => absurd h (Nat.not_lt_zero _)) (by decide)⟩

/-- C23: when the chapter, part and section patterns each match at most once
and the text has at least two digit runs immediately followed by `.`, the
marker path is taken with `/\d+\./`: there is one match per such digit run,
each match is a run of digits and the `.`, the fragments and the matches tile
the text (so what follows a `.` starts the next fragment), and no fragment
that is followed by a match ends in a digit. -/
theorem C23_splits_at_digit_runs (text : Str)
    (hc : matchCount chapterMarker text ≤ 1) (hp : matchCount partMarker text ≤ 1)
    (hs : matchCount sectionMarker text ≤ 1) (hd : 2 ≤ digitDotCount text) :
    matchCount numberMarker text = digitDotCount text ∧
    ∃ (f0 : Str) (segs : List (Str × Str)),
      segs.length = digitDotCount text ∧
      candidateFragments text = some (f0 :: segs.map Prod.snd) ∧
      jsSplit numberMarker text = f0 :: segs.map Prod.snd ∧
      splitIntoChapters text = some (pushChapters 0 (f0 :: segs.map Prod.snd)) ∧
      text = f0 ++ (segs.map (fun x => x.1 ++ x.2)).flatten ∧
      (∀ x ∈ segs, ∃ ds, ds ≠ [] ∧ (∀ d ∈ ds, isDigit d = true) ∧ x.1 = ds ++ ['.']) ∧
      (∀ f ∈ (f0 :: segs.map Prod.snd).dropLast,
        ∀ c, f.getLast? = some c → isDigit c = false) := by
  have hne : numberMarker ≠ [] := by simp [numberMarker]
  have hcount := matchCount_numberMarker text
  have hlen := segmentsFrom_numberMarker_length _ text (Nat.le_refl _)
  have hfrags : candidateFragments text = some (jsSplit numberMarker text) :=
    candidateFragments_marker text numberMarker [chapterMarker, partMarker, sectionMarker] []
      rfl (by
        intro q hq
        simp only [List.mem_cons, List.mem_singleton, List.not_mem_nil, or_false] at hq
        rcases hq with rfl | rfl | rfl
        · exact hc
        · exact hp
        · exact hs) (by omega)
  have hsplit := jsSplit_eq_segments hne text
  rw [hsplit] at hfrags
  refine ⟨hcount, _, _, hlen, hfrags, hsplit, splitIntoChapters_eq hfrags,
    text_eq_segments hne _ text (Nat.le_refl _), ?_, ?_⟩
  · intro x hx
    obtain ⟨t, r, ht⟩ := segmentsFrom_fst numberMarker text 0 x hx
    exact matchAt_numberMarker t _ r ht
  · have hsegne : segmentsFrom numberMarker 0 text ≠ [] := by
      intro h0; rw [h0] at hlen; simp at hlen; omega
    have hmapne : (segmentsFrom numberMarker 0 text).map Prod.snd ≠ [] := by
      simpa using hsegne
    rw [List.dropLast_cons_of_ne_nil hmapne]
    intro f hf c hcl
    rcases List.mem_cons.1 hf with rfl | hf
    · exact untilMatch_getLast numberMarker isDigit matchAt_numberMarker_cons text hsegne c hcl
    · exact segmentsFrom_getLast hne isDigit matchAt_numberMarker_cons _ text (Nat.le_refl _)
        f hf c hcl

set_option maxRecDepth 100000 in
theorem C23_splits_at_digit_runs_witness :
    (matchCount chapterMarker decimalsText ≤ 1 ∧ matchCount partMarker decimalsText ≤ 1 ∧
      matchCount sectionMarker decimalsText ≤ 1 ∧ 2 ≤ digitDotCount decimalsText) ∧
    candidateFragments decimalsText = some [
      "The value of pi is about ".toList,
      "14159 as every child learns at school sooner or later, and the number e is about ".toList,
      "71828 which most of them will only meet very much later.".toList] ∧
    (matchCount numberMarker decimalsText = digitDotCount decimalsText ∧
    ∃ (f0 : Str) (segs : List (Str × Str)),
      segs.length = digitDotCount decimalsText ∧
      candidateFragments decimalsText = some (f0 :: segs.map Prod.snd) ∧
      jsSplit numberMarker decimalsText = f0 :: segs.map Prod.snd ∧
      splitIntoChapters decimalsText = some (pushChapters 0 (f0 :: segs.map Prod.snd)) ∧
      decimalsText = f0 ++ (segs.map (fun x => x.1 ++ x.2)).flatten ∧
      (∀ x ∈ segs, ∃ ds, ds ≠ [] ∧ (∀ d ∈ ds, isDigit d = true) ∧ x.1 = ds ++ ['.']) ∧
      (∀ f ∈ (f0 :: segs.map Prod.snd).dropLast,
        ∀ c, f.getLast? = some c → isDigit c = false)) :=
  ⟨by decide, by decide,
    C23_splits_at_digit_runs decimalsText (by decide) (by decide) (by decide) (by decide)⟩

set_option maxRecDepth 100000 in
/-- C24: for the simulated document of `processGoogleDoc` the `chapters` field
has exactly four entries, with ids `chapter-2` .. `chapter-5` and titles
`Chapter 2` .. `Chapter 5`; the title line before the first heading is
fragment 1 and is dropped. -/
theorem C24_google_doc_chapter_numbers :
    processGoogleDocChapters.map (List.map (fun c => (c.id, c.title))) = some [
      ("chapter-2".toList, "Chapter 2".toList), ("chapter-3".toList, "Chapter 3".toList),
      ("chapter-4".toList, "Chapter 4".toList), ("chapter-5".toList, "Chapter 5".toList)] ∧
    (candidateFragments googleDocContent).map (fun l => l.head?.map trim) =
      some (some "The Magical Forest Adventure".toList) ∧
    processGoogleDocChapters.map (List.map (fun c => c.content.take 16)) = some [
      ": Into the Woods".toList, ": Meeting the Fo".toList, ": The Hidden Tre".toList,
      ": The Journey Ho".toList] := by
  decide

/-- C25: the text `a # b` is returned as `a  b`, with two consecutive spaces:
the `#` between the two spaces is removed after the runs of white space have
been collapsed. -/
theorem C25_removal_leaves_double_space :
    cleanExtractedText "a # b".toList = "a  b".toList ∧
    noDoubleWhiteSpace (cleanExtractedText "a # b".toList) = false ∧
    jsReplace (matchAt whiteSpaceRun) " ".toList "a # b".toList = "a # b".toList ∧
    jsReplace (matchAt specialChar) [] "a # b".toList = "a  b".toList := by
  decide

/-- C26: the text `Hello.` is returned as `Hello. `, which ends in a space:
the replacement of each `.` by `. ` runs after `trim`; the same happens after
a final `?` or `!`. The word count taken from such a result is one too high. -/
theorem C26_final_period_gets_trailing_space :
    cleanExtractedText "Hello.".toList = "Hello. ".toList ∧
    cleanExtractedText "Why?".toList = "Why? ".toList ∧
    cleanExtractedText "Stop!".toList = "Stop! ".toList ∧
    trim (cleanExtractedText "Hello.".toList) ≠ cleanExtractedText "Hello.".toList ∧
    (jsSplit whiteSpaceRun (cleanExtractedText "Hello.".toList)).length = 2 := by
  decide

/-- C27: every character of the result of `cleanExtractedText` is of class
`\w` (an ASCII letter, an ASCII digit or the underscore), a white space
character, or one of the listed punctuation characters; the empty string gives
the empty string. -/
theorem C27_only_allowed_characters (text : Str) :
    (∀ c ∈ cleanExtractedText text,
      isWordChar c = true ∨ isWhiteSpace c = true ∨ c ∈ keptPunctuation) ∧
    cleanExtractedText [] = [] := by
  refine ⟨?_, rfl⟩
  intro c hc
  have hallowed : ∀ x, isSpecialChar x = false →
      isWordChar x = true ∨ isWhiteSpace x = true ∨ x ∈ keptPunctuation := by
    intro x hx
    simp only [isSpecialChar, Bool.not_eq_false', Bool.or_eq_true] at hx
    rcases hx with (h | h) | h
    · exact Or.inl h
    · exact Or.inr (Or.inl h)
    · exact Or.inr (Or.inr (List.contains_iff_exists_mem_beq.1 h |>.elim
        (fun y hy => (beq_iff_eq.1 hy.2) ▸ hy.1)))
  unfold cleanExtractedText at hc
  split at hc
  · cases hc
  · have hrep : ∀ (m : Str → Option (Str × Str)) (rep s : Str),
        (∀ x ∈ rep, isWordChar x = true ∨ isWhiteSpace x = true ∨ x ∈ keptPunctuation) →
        (∀ x ∈ s, isWordChar x = true ∨ isWhiteSpace x = true ∨ x ∈ keptPunctuation) →
        ∀ x ∈ jsReplace m rep s,
          isWordChar x = true ∨ isWhiteSpace x = true ∨ x ∈ keptPunctuation := by
      intro m rep s h1 h2 x hx
      rcases mem_replaceFrom m rep s 0 x hx with h | h
      · exact h1 x h
      · exact h2 x h
    refine hrep _ _ _ (by decide) (hrep _ _ _ (by decide) (hrep _ _ _ (by decide) ?_)) c hc
    intro x hx
    exact hallowed x (replaceFrom_specialChar _ 0 x ((trim_part _).subset hx))

/-- C28: the record of `processUploadedFile` has status `error` or `success`.
With status `error` it has an error message, the empty string as extracted
text and word count 1; with status `success` it has no error and an extracted
text of at least 10 code units. An unsupported extension, an error of the
extraction and a cleaned text shorter than 10 code units each give status
`error`, with the message of the error thrown. -/
theorem C28_error_record_and_success_length (fileExtension : Str) (readTxt : Except Str Str) :
    ((processUploadedFile fileExtension readTxt).status = "error".toList ∨
      (processUploadedFile fileExtension readTxt).status = "success".toList) ∧
    ((processUploadedFile fileExtension readTxt).status = "error".toList →
      ∃ message, (processUploadedFile fileExtension readTxt).error = some message ∧
        (processUploadedFile fileExtension readTxt).extractedText = [] ∧
        (processUploadedFile fileExtension readTxt).wordCount = 1) ∧
    ((processUploadedFile fileExtension readTxt).status = "success".toList →
      (processUploadedFile fileExtension readTxt).error = none ∧
        10 ≤ jsLength (processUploadedFile fileExtension readTxt).extractedText) ∧
    (fileExtension ≠ ".txt".toList → fileExtension ≠ ".docx".toList →
      fileExtension ≠ ".pdf".toList →
      (processUploadedFile fileExtension readTxt).status = "error".toList ∧
        (processUploadedFile fileExtension readTxt).error =
          some ("Unsupported file type: ".toList ++ fileExtension)) ∧
    (∀ message, fileExtension = ".txt".toList → readTxt = Except.error message →
      (processUploadedFile fileExtension readTxt).status = "error".toList ∧
        (processUploadedFile fileExtension readTxt).error = some message) ∧
    (∀ text, extractByExtension fileExtension readTxt = Except.ok text →
      jsLength (cleanExtractedText text) < 10 →
      (processUploadedFile fileExtension readTxt).status = "error".toList ∧
        (processUploadedFile fileExtension readTxt).error =
          some "Extracted text is too short or empty".toList) := by
  refine ⟨?_, ?_, ?_, ?_, ?_, ?_⟩
  · unfold processUploadedFile
    cases tryExtract fileExtension readTxt with
    | ok text => exact Or.inr rfl
    | error message => exact Or.inl rfl
  · unfold processUploadedFile
    cases tryExtract fileExtension readTxt with
    | ok text =>
      intro h
      have h2 : "success".toList = "error".toList := h
      exact absurd h2 (by decide)
    | error message =>
      intro _
      have h2 : (jsSplit whiteSpaceRun []).length = 1 := by decide
      exact ⟨message, rfl, rfl, h2⟩
  · unfold processUploadedFile
    cases h : tryExtract fileExtension readTxt with
    | error message =>
      intro h
      have h2 : "error".toList = "success".toList := h
      exact absurd h2 (by decide)
    | ok text =>
      intro _
      refine ⟨rfl, ?_⟩
      show 10 ≤ jsLength text
      unfold tryExtract at h
      split at h
      · split at h
        · cases h
        · rename_i hlen
          cases h
          omega
      · cases h
  · intro h1 h2 h3
    have h : tryExtract fileExtension readTxt =
        Except.error ("Unsupported file type: ".toList ++ fileExtension) := by
      simp only [tryExtract, extractByExtension, if_neg h1, if_neg h2, if_neg h3]
    simp only [processUploadedFile, h]
    exact ⟨trivial, trivial⟩
  · intro message h1 h2
    have h : tryExtract fileExtension readTxt = Except.error message := by
      simp only [tryExtract, extractByExtension, if_pos h1, h2]
    simp only [processUploadedFile, h]
    exact ⟨trivial, trivial⟩
  · intro text h1 h2
    have h : tryExtract fileExtension readTxt =
        Except.error "Extracted text is too short or empty".toList := by
      simp only [tryExtract, h1, if_pos h2]
    simp only [processUploadedFile, h]
    exact ⟨trivial, trivial⟩

set_option maxRecDepth 100000 in
theorem C28_error_record_and_success_length_witness :
    (processUploadedFile ".txt".toList (Except.ok "Hi.".toList)).status = "error".toList ∧
    (∃ message,
      (processUploadedFile ".txt".toList (Except.ok "Hi.".toList)).error = some message ∧
      (processUploadedFile ".txt".toList (Except.ok "Hi.".toList)).extractedText = [] ∧
      (processUploadedFile ".txt".toList (Except.ok "Hi.".toList)).wordCount = 1) ∧
    (processUploadedFile ".docx".toList (Except.ok [])).status = "success".toList ∧
    ((processUploadedFile ".docx".toList (Except.ok [])).error = none ∧
      10 ≤ jsLength (processUploadedFile ".docx".toList (Except.ok [])).extractedText) ∧
    ((processUploadedFile ".exe".toList (Except.ok [])).status = "error".toList ∧
      (processUploadedFile ".exe".toList (Except.ok [])).error =
        some ("Unsupported file type: ".toList ++ ".exe".toList)) :=
  ⟨by decide,
    (C28_error_record_and_success_length ".txt".toList (Except.ok "Hi.".toList)).2.1 (by decide),
    by decide,
    (C28_error_record_and_success_length ".docx".toList (Except.ok [])).2.2.1 (by decide),
    (C28_error_record_and_success_length ".exe".toList (Except.ok [])).2.2.2.1
      (by decide) (by decide) (by decide)⟩

/-- C29: `extractVisualElements` returns at most three keywords, in table
order and without repetition, each occurring in the lower-cased content; they
are the keywords occurring in the content among the first `m` table entries,
where `m` covers the whole table unless three keywords were found. -/
theorem C29_first_three_keywords_in_table_order (toLowerCase : Str → Str) (content : Str) :
    (extractVisualElements toLowerCase content).length ≤ 3 ∧
    (extractVisualElements toLowerCase content).Sublist visualKeywords ∧
    (extractVisualElements toLowerCase content).Nodup ∧
    (∀ k ∈ extractVisualElements toLowerCase content, k <:+: toLowerCase content) ∧
    ∃ m, m ≤ visualKeywords.length ∧
      extractVisualElements toLowerCase content =
        (visualKeywords.take m).filter (fun k => decide (k <:+: toLowerCase content)) ∧
      (m = visualKeywords.length ∨ (extractVisualElements toLowerCase content).length = 3) := by
  have hsub : (extractVisualElements toLowerCase content).Sublist visualKeywords := by
    rw [extractVisualElements_eq]
    exact (List.take_sublist _ _).trans (List.filter_sublist _)
  have hfun : (fun k => jsIncludes (toLowerCase content) k) =
      (fun k => decide (k <:+: toLowerCase content)) := by
    funext k
    rw [Bool.eq_iff_iff, jsIncludes_iff, decide_eq_true_iff]
  refine ⟨?_, hsub, hsub.nodup (by decide), ?_, ?_⟩
  · rw [extractVisualElements_eq]
    exact List.length_take_le _ _
  · intro k hk
    rw [extractVisualElements_eq] at hk
    have := List.mem_of_mem_take hk
    exact (jsIncludes_iff _ _).1 (List.mem_filter.1 this).2
  · obtain ⟨m, hm, h1, h2⟩ :=
      take_filter_eq (fun k => jsIncludes (toLowerCase content) k) visualKeywords 3
    rw [extractVisualElements_eq, h1]
    refine ⟨m, hm, by rw [hfun], h2⟩

end KidsBook
